import Mathlib

/-!
memory_dff: merging flip-flops into memory ports.

A shallow embedding of `passes/memory/memory_dff.cc` (struct `MemoryDffWorker`).

* Signals are lists of bits; a bit is a constant or a bit of a wire.  A wire is
  identified by its position in the module's wire list, a cell (the `Cell*`
  of the source) by its position in the module's cell list.  New wires and
  cells are appended, so existing positions stay valid.
* `dict` / `pool` of the source are association lists / lists.
* The kernel accessors that the pass calls but that live outside this file
  (`getPort`, `SigMap`, `extract`, `replace`, ...) are modelled next to their
  first use; on a well-formed netlist they agree with the kernel, and where the
  kernel would abort on a malformed netlist (missing port, width mismatch) the
  model continues with the value stated in the comment.
* The do-while loop of handle_rd_cell need not terminate; the model gives it fuel,
  and `none` stands for a call that does not return.

The definitions come first (data model, the worker's methods in source order, the
relations and example netlists used in the statements), then the lemmas and, under
a heading per claim, the theorems.
-/

namespace MemoryDff

/-! ## Data model -/

/-- RTLIL::State, the value of a constant bit. -/
inductive State
  | S0 | S1 | Sx | Sz | Sa | Sm
  deriving DecidableEq, Repr

/-- RTLIL::Const, a vector of constant bits (least significant first). -/
abbrev Const := List State

/-- RTLIL::Const::as_bool: some bit is 1. -/
def Const.as_bool (c : Const) : Bool := decide (State.S1 ∈ c)

/-- RTLIL::Const(int val, int width): the low `width` bits of `val`. -/
def Const.of_int (val width : Nat) : Const :=
  (List.range width).map fun i => if val.testBit i then State.S1 else State.S0

/-- RTLIL::SigBit: a constant, or bit `offset` of wire number `wire`. -/
inductive SigBit
  | const (data : State)
  | wire (wire : Nat) (offset : Nat)
  deriving DecidableEq, Repr

/-- The test `bit.wire != NULL`. -/
def SigBit.is_wire : SigBit → Bool
  | SigBit.const _ => false
  | SigBit.wire _ _ => true

/-- RTLIL::SigSpec, an ordered sequence of bits. -/
abbrev SigSpec := List SigBit

/-- The value `RTLIL::SigSpec(RTLIL::State::Sx)` used as the "no clock yet" marker. -/
def SigSpec.Sx : SigSpec := [SigBit.const State.Sx]

/-- The value `RTLIL::SigSpec(State::S1)`. -/
def SigSpec.S1 : SigSpec := [SigBit.const State.S1]

/-- The identifiers (port names, parameter names, cell types) the pass mentions. -/
inductive IdString
  | CLK | D | Q | ADDR | DATA | EN | A | B | S | Y
  | CLK_ENABLE | CLK_POLARITY | TRANSPARENT | A_SIGNED | A_WIDTH | Y_WIDTH
  | dff | mux | not | gate_NOT | logic_not | memwr | memrd | reduce_and
  | other (n : Nat)
  deriving DecidableEq, Repr

/-- hashlib dict insertion `d[k] = v`: overwrite the entry of `k` or add one. -/
def dict_set {κ υ : Type} [DecidableEq κ] : List (κ × υ) → κ → υ → List (κ × υ)
  | [], k, v => [(k, v)]
  | (k0, v0) :: r, k, v => if k0 = k then (k, v) :: r else (k0, v0) :: dict_set r k v

/-- hashlib dict lookup (`count` is `isSome`, `at` the value). -/
def dict_find {κ υ : Type} [DecidableEq κ] : List (κ × υ) → κ → Option υ
  | [], _ => none
  | (k0, v0) :: r, k => if k0 = k then some v0 else dict_find r k

/-- hashlib pool insertion. -/
def pool_insert (p : List Nat) (c : Nat) : List Nat := if c ∈ p then p else p ++ [c]

/-- RTLIL::Cell: a type, the port connections and the parameters. -/
structure Cell where
  type : IdString
  connections : List (IdString × SigSpec)
  parameters : List (IdString × Const)
  deriving DecidableEq, Repr

instance : Inhabited Cell := ⟨⟨IdString.other 0, [], []⟩⟩

/-- Cell::getPort.  The kernel throws on a missing port; the model reads it as the
empty signal. -/
def Cell.getPort (c : Cell) (p : IdString) : SigSpec := (dict_find c.connections p).getD []

/-- Cell::setPort. -/
def Cell.setPort (c : Cell) (p : IdString) (s : SigSpec) : Cell :=
  { c with connections := dict_set c.connections p s }

/-- The read `cell->parameters[id]` / `getParam`: a missing parameter reads as the
empty constant (the value `operator[]` default-constructs; that `operator[]` also
stores that default entry in the cell is not modelled). -/
def Cell.getParam (c : Cell) (p : IdString) : Const := (dict_find c.parameters p).getD []

/-- The write `cell->parameters[id] = v`. -/
def Cell.setParam (c : Cell) (p : IdString) (v : Const) : Cell :=
  { c with parameters := dict_set c.parameters p v }

/-- RTLIL::Wire, as far as the pass reads it: width, the output-port flag and the
`init` attribute when present. -/
structure Wire where
  width : Nat
  port_output : Bool
  init : Option Const
  deriving DecidableEq, Repr

/-- RTLIL::Module.  `canon` is the alias table behind `SigMap(module)`: each
aliased bit with its canonical representative.  `selection` is the design's
selection restricted to this module (`none`: everything is selected).
`design_inputs` lists, for a cell type that names a module of the design, its
input ports. -/
structure Module where
  wires : List Wire
  cells : List Cell
  canon : List (SigBit × SigBit)
  selection : Option (List Nat)
  design_inputs : List (Nat × List IdString)
  deriving DecidableEq, Repr

/-- The cell behind a `Cell*`. -/
def Module.cell (m : Module) (i : Nat) : Cell := m.cells.getD i default

/-- All bits of wire number `i`, the signal `SigSpec(wire)`. -/
def Module.wire_sig (m : Module) (i : Nat) : SigSpec :=
  (List.range ((m.wires.getD i ⟨0, false, none⟩).width)).map fun k => SigBit.wire i k

/-- The diagnostics the two port handlers print after "Checking cell ...". -/
inductive LogMsg
  | no_dff_addr       -- "no (compatible) $dff for address input found."
  | no_dff_data       -- "no (compatible) $dff for data input found."
  | no_dff_en         -- "no (compatible) $dff for enable input found."
  | merged            -- "merged $dff to cell."
  | merged_rd_en      -- "merged data $dff with rd enable to cell."
  | merged_data       -- "merged data $dff to cell."
  | merged_addr       -- "merged address $dff to cell."
  | no_dff            -- "no (compatible) $dff found."
  deriving DecidableEq, Repr

/-- The fields of struct MemoryDffWorker. -/
structure Worker where
  module : Module
  sigmap : List (SigBit × SigBit)
  dff_cells : List Nat
  invbits : List (SigBit × SigBit)
  sigbit_users_count : List (SigBit × Nat)
  mux_cells_a : List (SigSpec × Nat)
  mux_cells_b : List (SigSpec × Nat)
  forward_merged_dffs : List Nat
  candidate_dffs : List Nat
  init_bits : List SigBit
  deriving DecidableEq, Repr

/-! ## Signal canonicalization -/

/-- Modelled from the spec: `canon(signal)`, the SigMap of kernel/sigtools.h applied
to one bit.  A bit without an entry in the alias table is its own representative. -/
def sigmap_bit (sm : List (SigBit × SigBit)) (b : SigBit) : SigBit := (dict_find sm b).getD b

/-- SigMap applied to a signal, bit by bit (`sigmap(sig)`, `sigmap.apply(sig)`). -/
def sigmap_sig (sm : List (SigBit × SigBit)) (s : SigSpec) : SigSpec := s.map (sigmap_bit sm)

/-! ## The constructor: the init-value set -/

/-- The inner loop of the constructor: the canonical bits of one wire whose init
value is 0 or 1. -/
def init_bits_of (sig : SigSpec) (initval : Const) : List SigBit :=
  (sig.zip initval).filterMap fun p =>
    if p.2 = State.S0 ∨ p.2 = State.S1 then some p.1 else none

/-- MemoryDffWorker::MemoryDffWorker. -/
def Worker.new (m : Module) : Worker :=
  { module := m
    sigmap := m.canon
    dff_cells := []
    invbits := []
    sigbit_users_count := []
    mux_cells_a := []
    mux_cells_b := []
    forward_merged_dffs := []
    candidate_dffs := []
    init_bits :=
      (List.range m.wires.length).foldl
        (fun acc i =>
          match (m.wires.getD i ⟨0, false, none⟩).init with
          | none => acc
          | some initval => acc ++ init_bits_of (sigmap_sig m.canon (m.wire_sig i)) initval)
        [] }

/-! ## find_sig_before_dff -/

/-- Modelled from the spec: `SigSpec::extract(pattern, other)` of kernel/rtlil.cc for a
one-bit pattern: the bits of `other` in the lanes where `self` is the (non-constant)
pattern bit.  The kernel asserts equal widths; the model pairs lanes up to the
shorter one. -/
def SigSpec.extract (self : SigSpec) (pattern : SigBit) (other : SigSpec) : SigSpec :=
  (self.zip other).filterMap fun p =>
    match p.1 with
    | SigBit.const _ => none
    | SigBit.wire _ _ => if p.1 = pattern then some p.2 else none

/-- Lines 69-75: the clock and edge of a $dff after looking through one recorded
inverter.  `invbits` is keyed by a bit; a CLK that is not one bit wide (where the
kernel's `as_bit` asserts) is left as it is. -/
def Worker.dff_clock (w : Worker) (c : Nat) : SigSpec × Bool :=
  let this_clk := (w.module.cell c).getPort IdString.CLK
  let this_clk_polarity := ((w.module.cell c).getParam IdString.CLK_POLARITY).as_bool
  match this_clk with
  | [b] =>
    match dict_find w.invbits b with
    | some a => ([a], !this_clk_polarity)
    | none => (this_clk, this_clk_polarity)
  | _ => (this_clk, this_clk_polarity)

/-- Lines 84-87, the signal `d`: the bits of the other port of the $dff `cell` in the
lanes where its canonicalized Q (D when tracing post) is `bit`. -/
def Worker.dff_extract (w : Worker) (after : Bool) (cell : Nat) (bit : SigBit) : SigSpec :=
  let q_norm := sigmap_sig w.sigmap
    ((w.module.cell cell).getPort (if after then IdString.D else IdString.Q))
  q_norm.extract bit ((w.module.cell cell).getPort (if after then IdString.Q else IdString.D))

/-- How the search over `dff_cells` for one bit ends. -/
inductive Scan
  | replaced (cell : Nat) (d : SigBit) (clk : SigSpec) (clk_polarity : Bool)
  | init_blocked      -- line 92: `return false`
  | not_found         -- line 101: `return false`
  deriving DecidableEq, Repr

/-- Lines 64-99: the loop over `dff_cells` for one non-constant bit. -/
def Worker.scan_dffs (w : Worker) (after : Bool) (bit : SigBit) (clk : SigSpec)
    (clk_polarity : Bool) : List Nat → Scan
  | [] => Scan.not_found
  | cell :: rest =>
    if after && decide (cell ∈ w.forward_merged_dffs) then
      w.scan_dffs after bit clk clk_polarity rest
    else
      let this := w.dff_clock cell
      if clk ≠ SigSpec.Sx ∧ (this.1 ≠ clk ∨ this.2 ≠ clk_polarity) then
        w.scan_dffs after bit clk clk_polarity rest
      else
        match w.dff_extract after cell bit with
        | [d0] =>
          if after && decide (d0 ∈ w.init_bits) then Scan.init_blocked
          else Scan.replaced cell d0 this.1 this.2
        | _ => w.scan_dffs after bit clk clk_polarity rest

/-- What find_sig_before_dff leaves behind: the return value, and the by-reference
arguments `sig`, `clk`, `clk_polarity` and the member `candidate_dffs`. -/
structure Trace where
  ok : Bool
  sig : SigSpec
  clk : SigSpec
  clk_polarity : Bool
  candidate_dffs : List Nat
  deriving DecidableEq, Repr

/-- Lines 56-105: the loop over the bits of the canonicalized signal. -/
def Worker.trace_bits (w : Worker) (after : Bool) :
    List SigBit → SigSpec → Bool → List Nat → Trace
  | [], clk, pol, cands => ⟨true, [], clk, pol, cands⟩
  | bit :: rest, clk, pol, cands =>
    match bit with
    | SigBit.const _ =>
      let r := w.trace_bits after rest clk pol cands
      { r with sig := bit :: r.sig }
    | SigBit.wire _ _ =>
      if !after && decide (sigmap_bit w.sigmap bit ∈ w.init_bits) then
        ⟨false, bit :: rest, clk, pol, cands⟩
      else
        match w.scan_dffs after bit clk pol w.dff_cells with
        | Scan.replaced cell d this_clk this_pol =>
          let r := w.trace_bits after rest this_clk this_pol (pool_insert cands cell)
          { r with sig := d :: r.sig }
        | _ => ⟨false, bit :: rest, clk, pol, cands⟩

/-- MemoryDffWorker::find_sig_before_dff. -/
def Worker.find_sig_before_dff (w : Worker) (sig : SigSpec) (clk : SigSpec)
    (clk_polarity : Bool) (after : Bool) : Trace :=
  w.trace_bits after (sigmap_sig w.sigmap sig) clk clk_polarity w.candidate_dffs

/-! ## handle_wr_cell -/

/-- The write `cell->setPort(p, s)` through a `Cell*`. -/
def Worker.setPort (w : Worker) (cell : Nat) (p : IdString) (s : SigSpec) : Worker :=
  { w with module :=
      { w.module with cells := w.module.cells.set cell ((w.module.cell cell).setPort p s) } }

/-- The write `cell->parameters[p] = v` through a `Cell*`. -/
def Worker.setParam (w : Worker) (cell : Nat) (p : IdString) (v : Const) : Worker :=
  { w with module :=
      { w.module with cells := w.module.cells.set cell ((w.module.cell cell).setParam p v) } }

/-- MemoryDffWorker::handle_wr_cell, with the diagnostic it prints. -/
def Worker.handle_wr_cell (w : Worker) (cell : Nat) : Worker × LogMsg :=
  let w0 := { w with candidate_dffs := [] }
  let t_addr := w0.find_sig_before_dff ((w0.module.cell cell).getPort IdString.ADDR)
    SigSpec.Sx false false
  let w1 := { w0 with candidate_dffs := t_addr.candidate_dffs }
  if !t_addr.ok then (w1, LogMsg.no_dff_addr) else
  let t_data := w1.find_sig_before_dff ((w1.module.cell cell).getPort IdString.DATA)
    t_addr.clk t_addr.clk_polarity false
  let w2 := { w1 with candidate_dffs := t_data.candidate_dffs }
  if !t_data.ok then (w2, LogMsg.no_dff_data) else
  let t_en := w2.find_sig_before_dff ((w2.module.cell cell).getPort IdString.EN)
    t_data.clk t_data.clk_polarity false
  let w3 := { w2 with candidate_dffs := t_en.candidate_dffs }
  if !t_en.ok then (w3, LogMsg.no_dff_en) else
  if t_en.clk ≠ SigSpec.Sx then
    let w4 := { w3 with
      forward_merged_dffs := w3.candidate_dffs.foldl pool_insert w3.forward_merged_dffs }
    let w5 := w4.setPort cell IdString.CLK t_en.clk
    let w6 := w5.setPort cell IdString.ADDR t_addr.sig
    let w7 := w6.setPort cell IdString.DATA t_data.sig
    let w8 := w7.setPort cell IdString.EN t_en.sig
    let w9 := w8.setParam cell IdString.CLK_ENABLE (Const.of_int 1 32)
    let w10 := w9.setParam cell IdString.CLK_POLARITY
      (Const.of_int (if t_en.clk_polarity then 1 else 0) 32)
    (w10, LogMsg.merged)
  else (w3, LogMsg.no_dff)

/-! ## Kernel helpers that create wires and cells -/

/-- Module::addWire: a new wire at the end of the wire list; the result is the
signal of all its bits. -/
def Worker.addWire (w : Worker) (width : Nat) : Worker × SigSpec :=
  ({ w with module :=
      { w.module with wires := w.module.wires ++ [⟨width, false, none⟩] } },
   (List.range width).map fun k => SigBit.wire w.module.wires.length k)

/-- Module::addCell followed by the parameter and port writes of the kernel's
unary-operator constructors (DEF_METHOD in kernel/rtlil.cc). -/
def Worker.addUnary (w : Worker) (type : IdString) (sig_a sig_y : SigSpec) : Worker :=
  { w with module :=
      { w.module with cells := w.module.cells ++
          [⟨type,
            [(IdString.A, sig_a), (IdString.Y, sig_y)],
            [(IdString.A_SIGNED, Const.of_int 0 32),
             (IdString.A_WIDTH, Const.of_int sig_a.length 32),
             (IdString.Y_WIDTH, Const.of_int sig_y.length 32)]⟩] } }

/-- Modelled from the spec: "construct a boolean-NOT of a 1-bit signal", the kernel's
Module::LogicNot(NEW_ID, sig_a): a fresh one-bit wire driven by a new $logic_not
cell with input `sig_a`; the result is that wire. -/
def Worker.LogicNot (w : Worker) (sig_a : SigSpec) : Worker × SigSpec :=
  let r := w.addWire 1
  (r.1.addUnary IdString.logic_not sig_a r.2, r.2)

/-- Modelled from the spec: "construct a boolean-AND of multiple 1-bit signals", the
kernel's Module::ReduceAnd(NEW_ID, sig_a): a fresh one-bit wire driven by a new
$reduce_and cell with input `sig_a`; the result is that wire. -/
def Worker.ReduceAnd (w : Worker) (sig_a : SigSpec) : Worker × SigSpec :=
  let r := w.addWire 1
  (r.1.addUnary IdString.reduce_and sig_a r.2, r.2)

/-! ## disconnect_dff -/

/-- The numeric value of a State, the order `data < other.data` compares. -/
def State.toNat : State → Nat
  | State.S0 => 0 | State.S1 => 1 | State.Sx => 2 | State.Sz => 3 | State.Sa => 4 | State.Sm => 5

/-- The order `SigBit::operator<`: constants (by value) before wire bits, wire bits
by wire and then offset.  The kernel orders wires by name; the model orders them by
their position. -/
def SigBit.lt : SigBit → SigBit → Bool
  | SigBit.const a, SigBit.const b => decide (a.toNat < b.toNat)
  | SigBit.const _, SigBit.wire _ _ => true
  | SigBit.wire _ _, SigBit.const _ => false
  | SigBit.wire w1 o1, SigBit.wire w2 o2 => decide (w1 < w2 ∨ (w1 = w2 ∧ o1 < o2))

/-- The call std::unique: drop a bit equal to its predecessor. -/
def unique_bits : List SigBit → List SigBit
  | [] => []
  | [a] => [a]
  | a :: b :: r => if a = b then unique_bits (b :: r) else a :: unique_bits (b :: r)

/-- Modelled from the spec: SigSpec::sort_and_unify of kernel/rtlil.cc: sort the bits and
drop duplicates. -/
def SigSpec.sort_and_unify (s : SigSpec) : SigSpec :=
  unique_bits (s.insertionSort fun a b => SigBit.lt b a = false)

/-- Modelled from the spec: SigSpec::replace(pattern, with) of kernel/rtlil.cc: for each
non-constant pattern bit in turn, every bit of `self` equal to it becomes the bit of
`with` in the same lane.  The kernel asserts equal widths of pattern and `with`; the
model pairs lanes up to the shorter one.  (For a pattern of distinct bits and a
replacement disjoint from it, as in disconnect_dff, replacing in turn and replacing at
once are the same.) -/
def SigSpec.replace (self pattern with_ : SigSpec) : SigSpec :=
  (pattern.zip with_).foldl
    (fun acc p =>
      match p.1 with
      | SigBit.const _ => acc
      | SigBit.wire _ _ => acc.map fun b => if b = p.1 then p.2 else b)
    self

/-- The loop body of disconnect_dff (lines 164-168) for one cell of the module. -/
def disconnect_cell (sig new_sig : SigSpec) (c : Cell) : Cell :=
  if c.type = IdString.dff then
    c.setPort IdString.Q ((c.getPort IdString.Q).replace sig new_sig)
  else c

/-- MemoryDffWorker::disconnect_dff. -/
def Worker.disconnect_dff (w : Worker) (sig : SigSpec) : Worker :=
  let sig1 := (sigmap_sig w.sigmap sig).sort_and_unify
  let r := w.addWire sig1.length
  { r.1 with module :=
      { r.1.module with cells := r.1.module.cells.map (disconnect_cell sig1 r.2) } }

/-! ## handle_rd_cell -/

/-- The read `sigbit_users_count[bit]` (a missing entry counts 0; that the read
itself adds the missing entry is not modelled). -/
def Worker.users (w : Worker) (bit : SigBit) : Nat := (dict_find w.sigbit_users_count bit).getD 0

/-- The test `mux_cells_a.count(sig) || mux_cells_b.count(sig)`. -/
def Worker.feeds_mux (w : Worker) (sig : SigSpec) : Bool :=
  (dict_find w.mux_cells_a sig).isSome || (dict_find w.mux_cells_b sig).isSome

/-- The state of the do-while loop of lines 189-195. -/
structure Chain where
  worker : Worker
  sig_data : SigSpec
  en : SigSpec
  check_q : List SigSpec
  deriving DecidableEq, Repr

/-- Lines 190-194, the body of the do-while loop for the select `mux`:
`enable_invert` says that the current DATA signal is the A input. -/
def chain_step (st : Chain) (enable_invert : Bool) (mux : Nat) : Chain :=
  let w := st.worker
  let check_q := st.check_q ++ [sigmap_sig w.sigmap
    ((w.module.cell mux).getPort (if enable_invert then IdString.B else IdString.A))]
  let sig_data := sigmap_sig w.sigmap ((w.module.cell mux).getPort IdString.Y)
  let r := if enable_invert then w.LogicNot ((w.module.cell mux).getPort IdString.S)
           else (w, (w.module.cell mux).getPort IdString.S)
  ⟨r.1, sig_data, st.en ++ r.2, check_q⟩

/-- Lines 189-195, the do-while loop over the select chain.  `fuel` bounds the
number of iterations; `none` means the loop has not finished within it (the
`at` of a key that neither map holds, which throws, cannot happen behind the
guards of lines 184 and 195 and is `none` too). -/
def chain_walk : Nat → Chain → Option Chain
  | 0, _ => none
  | fuel + 1, st =>
    let enable_invert := (dict_find st.worker.mux_cells_a st.sig_data).isSome
    match (if enable_invert then dict_find st.worker.mux_cells_a st.sig_data
           else dict_find st.worker.mux_cells_b st.sig_data) with
    | none => none
    | some mux =>
      let st1 := chain_step st enable_invert mux
      if st1.worker.feeds_mux st1.sig_data then chain_walk fuel st1 else some st1

/-- Lines 231-247, from the label skip_ff_after_read_merging on: the address
register strategy.  `clk_polarity` is the local variable as the earlier part of
handle_rd_cell left it. -/
def Worker.rd_addr (w : Worker) (cell : Nat) (clk_polarity : Bool) : Worker × LogMsg :=
  let t := w.find_sig_before_dff ((w.module.cell cell).getPort IdString.ADDR)
    SigSpec.Sx clk_polarity false
  let w1 := { w with candidate_dffs := t.candidate_dffs }
  if t.ok ∧ t.clk ≠ SigSpec.Sx then
    let w2 := w1.setPort cell IdString.CLK t.clk
    let w3 := w2.setPort cell IdString.EN SigSpec.S1
    let w4 := w3.setPort cell IdString.ADDR t.sig
    let w5 := w4.setParam cell IdString.CLK_ENABLE (Const.of_int 1 32)
    let w6 := w5.setParam cell IdString.CLK_POLARITY
      (Const.of_int (if t.clk_polarity then 1 else 0) 32)
    (w6.setParam cell IdString.TRANSPARENT (Const.of_int 1 32), LogMsg.merged_addr)
  else (w1, LogMsg.no_dff)

/-- Lines 204-210: the commit of the enable-chain strategy. -/
def Worker.commit_rd_en (w : Worker) (cell : Nat) (t : Trace) (en : SigSpec) : Worker :=
  let w2 := w.disconnect_dff t.sig
  let w3 := w2.setPort cell IdString.CLK t.clk
  let r := if en.length > 1 then w3.ReduceAnd en else (w3, en)
  let w4 := r.1.setPort cell IdString.EN r.2
  let w5 := w4.setPort cell IdString.DATA t.sig
  let w6 := w5.setParam cell IdString.CLK_ENABLE (Const.of_int 1 32)
  let w7 := w6.setParam cell IdString.CLK_POLARITY
    (Const.of_int (if t.clk_polarity then 1 else 0) 32)
  w7.setParam cell IdString.TRANSPARENT (Const.of_int 0 32)

/-- Lines 219-225: the commit of the direct-register strategy. -/
def Worker.commit_rd_data (w : Worker) (cell : Nat) (t : Trace) : Worker :=
  let w2 := w.disconnect_dff t.sig
  let w3 := w2.setPort cell IdString.CLK t.clk
  let w4 := w3.setPort cell IdString.EN SigSpec.S1
  let w5 := w4.setPort cell IdString.DATA t.sig
  let w6 := w5.setParam cell IdString.CLK_ENABLE (Const.of_int 1 32)
  let w7 := w6.setParam cell IdString.CLK_POLARITY
    (Const.of_int (if t.clk_polarity then 1 else 0) 32)
  w7.setParam cell IdString.TRANSPARENT (Const.of_int 0 32)

/-- MemoryDffWorker::handle_rd_cell with the diagnostic it prints; `none` when the
do-while loop does not finish within `fuel` iterations. -/
def Worker.handle_rd_cell (fuel : Nat) (w : Worker) (cell : Nat) : Option (Worker × LogMsg) :=
  let sig_data := (w.module.cell cell).getPort IdString.DATA
  if (sigmap_sig w.sigmap sig_data).any (fun bit => decide (w.users bit > 1)) then
    some (w.rd_addr cell false)
  else if w.feeds_mux sig_data then
    match chain_walk fuel ⟨w, sig_data, [], []⟩ with
    | none => none
    | some st =>
      if st.sig_data.any (fun bit => decide (st.worker.users bit > 1)) then
        some (st.worker.rd_addr cell false)
      else
        let t := st.worker.find_sig_before_dff st.sig_data SigSpec.Sx false true
        let w1 := { st.worker with candidate_dffs := t.candidate_dffs }
        if t.ok ∧ t.clk ≠ SigSpec.Sx ∧ st.check_q.all (fun cq => decide (cq = t.sig)) then
          some (w1.commit_rd_en cell t st.en, LogMsg.merged_rd_en)
        else some (w1.rd_addr cell t.clk_polarity)
  else
    let t := w.find_sig_before_dff sig_data SigSpec.Sx false true
    let w1 := { w with candidate_dffs := t.candidate_dffs }
    if t.ok ∧ t.clk ≠ SigSpec.Sx then
      some (w1.commit_rd_data cell t, LogMsg.merged_data)
    else some (w1.rd_addr cell t.clk_polarity)

/-! ## run -/

/-- Modelled from the spec: the cell-type table of kernel/celltypes.h behind
Cell::known and Cell::input: the input ports of a known cell type, `none` for an
unknown one.  A type that names a module of the design has the inputs listed in
`design_inputs`. -/
def Module.type_inputs (m : Module) : IdString → Option (List IdString)
  | IdString.dff => some [IdString.CLK, IdString.D]
  | IdString.mux => some [IdString.A, IdString.B, IdString.S]
  | IdString.not => some [IdString.A]
  | IdString.gate_NOT => some [IdString.A]
  | IdString.logic_not => some [IdString.A]
  | IdString.reduce_and => some [IdString.A]
  | IdString.memrd => some [IdString.CLK, IdString.EN, IdString.ADDR]
  | IdString.memwr => some [IdString.CLK, IdString.EN, IdString.ADDR, IdString.DATA]
  | IdString.other n => dict_find m.design_inputs n
  | _ => none

/-- The test `!cell->known() || cell->input(port)` of line 276. -/
def Module.counts_as_user (m : Module) (c : Cell) (port : IdString) : Bool :=
  match m.type_inputs c.type with
  | none => true
  | some ins => decide (port ∈ ins)

/-- Modelled from the spec: SigSpec::extend_u0 of kernel/rtlil.cc: cut to `width`, or pad
with 0 (unsigned) or with the top bit (signed; x for an empty signal). -/
def SigSpec.extend_u0 (s : SigSpec) (width : Nat) (is_signed : Bool) : SigSpec :=
  if s.length > width then s.take width
  else
    let padding := if is_signed then s.getLastD (SigBit.const State.Sx)
                   else SigBit.const State.S0
    s ++ List.replicate (width - s.length) padding

/-- The update `sigbit_users_count[bit]++`. -/
def count_inc (d : List (SigBit × Nat)) (bit : SigBit) : List (SigBit × Nat) :=
  dict_set d bit ((dict_find d bit).getD 0 + 1)

/-- Lines 252-256: the bits of output-port wires count as used. -/
def Worker.index_wires (w : Worker) : Worker :=
  { w with
    sigbit_users_count :=
      (List.range w.module.wires.length).foldl
        (fun acc i =>
          if (w.module.wires.getD i ⟨0, false, none⟩).port_output then
            (sigmap_sig w.sigmap (w.module.wire_sig i)).foldl count_inc acc
          else acc)
        w.sigbit_users_count }

/-- Lines 259-279: the body of the loop over the cells, for the cell at position `i`. -/
def Worker.index_cell (w : Worker) (i : Nat) : Worker :=
  let cell := w.module.cell i
  let w1 := if cell.type = IdString.dff then { w with dff_cells := w.dff_cells ++ [i] } else w
  let w2 :=
    if cell.type = IdString.mux then
      { w1 with
        mux_cells_a := dict_set w1.mux_cells_a (sigmap_sig w.sigmap (cell.getPort IdString.A)) i
        mux_cells_b := dict_set w1.mux_cells_b (sigmap_sig w.sigmap (cell.getPort IdString.B)) i }
    else w1
  let w3 :=
    if cell.type = IdString.not ∨ cell.type = IdString.gate_NOT ∨
        (cell.type = IdString.logic_not ∧ (cell.getPort IdString.A).length = 1) then
      let sig_a := cell.getPort IdString.A
      let sig_y := cell.getPort IdString.Y
      let sig_a1 := if cell.type = IdString.not then
          sig_a.extend_u0 sig_y.length (cell.getParam IdString.A_SIGNED).as_bool
        else sig_a
      let sig_y1 := if cell.type = IdString.logic_not then sig_y.extend_u0 1 false else sig_y
      { w2 with
        invbits :=
          (sig_y1.zip sig_a1).foldl (fun acc p => dict_set acc p.1 p.2) w2.invbits }
    else w2
  { w3 with
    sigbit_users_count :=
      cell.connections.foldl
        (fun acc conn =>
          if w.module.counts_as_user cell conn.1 then
            (sigmap_sig w.sigmap conn.2).foldl count_inc acc
          else acc)
        w3.sigbit_users_count }

/-- Module::selected_cells: the selected cells in enumeration order. -/
def Module.selected_cells (m : Module) : List Nat :=
  match m.selection with
  | none => List.range m.cells.length
  | some sel => (List.range m.cells.length).filter fun i => decide (i ∈ sel)

/-- Lines 281-283: the loop over the write ports. -/
def Worker.run_wr (w : Worker) : List Nat → Worker
  | [] => w
  | cell :: rest =>
    if (w.module.cell cell).type = IdString.memwr ∧
        ((w.module.cell cell).getParam IdString.CLK_ENABLE).as_bool = false then
      (w.handle_wr_cell cell).1.run_wr rest
    else w.run_wr rest

/-- Lines 286-288: the loop over the read ports. -/
def Worker.run_rd (fuel : Nat) (w : Worker) : List Nat → Option Worker
  | [] => some w
  | cell :: rest =>
    if (w.module.cell cell).type = IdString.memrd ∧
        ((w.module.cell cell).getParam IdString.CLK_ENABLE).as_bool = false then
      match w.handle_rd_cell fuel cell with
      | none => none
      | some r => r.1.run_rd fuel rest
    else w.run_rd fuel rest

/-- Lines 252-279: the usage and topology index, built once per module. -/
def Worker.build_index (w : Worker) : Worker :=
  (List.range w.module.cells.length).foldl Worker.index_cell w.index_wires

/-- MemoryDffWorker::run.  `fuel` bounds each select-chain walk. -/
def Worker.run (fuel : Nat) (w : Worker) (flag_wr_only : Bool) : Option Worker :=
  let w1 := w.build_index
  let w2 := w1.run_wr w1.module.selected_cells
  if flag_wr_only then some w2 else w2.run_rd fuel w2.module.selected_cells

/-- The body of the loop of MemoryDffPass::execute for one module: construct a
worker, run it, and keep the module it leaves. -/
def memory_dff (fuel : Nat) (flag_wr_only : Bool) (m : Module) : Option Module :=
  ((Worker.new m).run fuel flag_wr_only).map fun w => w.module

/-! ## Relations used in the statements -/

/-- The worker `v` is `w` after cells and wires were added at the end of the module:
the cells and wires of `w` are a prefix of those of `v`, every added cell is a
$logic_not, and nothing else but candidate_dffs differs. -/
def Worker.grown (w v : Worker) : Prop :=
  v.sigmap = w.sigmap ∧ v.dff_cells = w.dff_cells ∧ v.invbits = w.invbits ∧
  v.sigbit_users_count = w.sigbit_users_count ∧ v.mux_cells_a = w.mux_cells_a ∧
  v.mux_cells_b = w.mux_cells_b ∧ v.forward_merged_dffs = w.forward_merged_dffs ∧
  v.init_bits = w.init_bits ∧ v.module.canon = w.module.canon ∧
  v.module.selection = w.module.selection ∧
  v.module.design_inputs = w.module.design_inputs ∧
  (∃ ew, v.module.wires = w.module.wires ++ ew) ∧
  (∃ ec, v.module.cells = w.module.cells ++ ec ∧ ∀ c ∈ ec, c.type = IdString.logic_not)

/-! ## Example netlists

Small modules on which the theorems below are instantiated.  `bit1 i` is the
one-bit signal of wire `i`. -/

/-- The one-bit signal of wire `i`. -/
def bit1 (i : Nat) : SigSpec := [SigBit.wire i 0]

/-- A one-bit internal wire without attributes. -/
def plain_wire : Wire := ⟨1, false, none⟩

/-- A $dff cell. -/
def mk_dff (clk d q : SigSpec) (pol : Bool) : Cell :=
  ⟨IdString.dff, [(IdString.CLK, clk), (IdString.D, d), (IdString.Q, q)],
    [(IdString.CLK_POLARITY, Const.of_int (if pol then 1 else 0) 1)]⟩

/-- An asynchronous $memwr cell (CLK is x, CLK_ENABLE is 0). -/
def mk_memwr (addr data en : SigSpec) : Cell :=
  ⟨IdString.memwr,
    [(IdString.CLK, SigSpec.Sx), (IdString.ADDR, addr), (IdString.DATA, data),
     (IdString.EN, en)],
    [(IdString.CLK_ENABLE, Const.of_int 0 1), (IdString.CLK_POLARITY, Const.of_int 0 1)]⟩

/-- An asynchronous $memrd cell (CLK is x, EN is x, CLK_ENABLE is 0). -/
def mk_memrd (addr data : SigSpec) : Cell :=
  ⟨IdString.memrd,
    [(IdString.CLK, SigSpec.Sx), (IdString.EN, SigSpec.Sx), (IdString.ADDR, addr),
     (IdString.DATA, data)],
    [(IdString.CLK_ENABLE, Const.of_int 0 1), (IdString.CLK_POLARITY, Const.of_int 0 1),
     (IdString.TRANSPARENT, Const.of_int 0 1)]⟩

/-- A $mux cell, Y = S ? B : A. -/
def mk_mux (a b s y : SigSpec) : Cell :=
  ⟨IdString.mux, [(IdString.A, a), (IdString.B, b), (IdString.S, s), (IdString.Y, y)], []⟩

/-- A $not cell. -/
def mk_not (a y : SigSpec) : Cell :=
  ⟨IdString.not, [(IdString.A, a), (IdString.Y, y)], [(IdString.A_SIGNED, Const.of_int 0 1)]⟩

/-- A module of one-bit wires without aliases, everything selected. -/
def mk_module (n_wires : Nat) (cells : List Cell) : Module :=
  ⟨List.replicate n_wires plain_wire, cells, [], none, []⟩

/-- The write-port scenario: wires clk=0, a=1, addr=2, d=3, data=4, e=5, en=6; three
registers on the rising edge of clk feed ADDR, DATA and EN of the write port, cell 3. -/
def ex_wr : Module :=
  mk_module 7
    [mk_dff (bit1 0) (bit1 1) (bit1 2) true, mk_dff (bit1 0) (bit1 3) (bit1 4) true,
     mk_dff (bit1 0) (bit1 5) (bit1 6) true, mk_memwr (bit1 2) (bit1 4) (bit1 6)]

/-- The register behind each port bit of `ex_wr`. -/
def ex_wr_reg (b : SigBit) : Nat :=
  if b = SigBit.wire 2 0 then 0 else if b = SigBit.wire 4 0 then 1 else 2

/-- The D bit of the register behind each port bit of `ex_wr`. -/
def ex_wr_d (b : SigBit) : SigBit :=
  if b = SigBit.wire 2 0 then SigBit.wire 1 0
  else if b = SigBit.wire 4 0 then SigBit.wire 3 0 else SigBit.wire 5 0

/-- The write-port scenario behind an inverted clock: wires clk=0, nclk=1, a=2, addr=3,
d=4, data=5, e=6, en=7; cell 0 is the inverter nclk = ~clk, the three registers
(cells 1-3) are clocked by nclk, rising edge, and feed the write port, cell 4. -/
def ex_wr_inv : Module :=
  mk_module 8
    [mk_not (bit1 0) (bit1 1),
     mk_dff (bit1 1) (bit1 2) (bit1 3) true, mk_dff (bit1 1) (bit1 4) (bit1 5) true,
     mk_dff (bit1 1) (bit1 6) (bit1 7) true, mk_memwr (bit1 3) (bit1 5) (bit1 7)]

/-- The register behind each port bit of `ex_wr_inv`. -/
def ex_wr_inv_reg (b : SigBit) : Nat :=
  if b = SigBit.wire 3 0 then 1 else if b = SigBit.wire 5 0 then 2 else 3

/-- The write-port scenario with a foreign enable register: as `ex_wr`, but the
register feeding EN (cell 2) is clocked by wire 7 instead of clk. -/
def ex_wr_en_foreign : Module :=
  mk_module 8
    [mk_dff (bit1 0) (bit1 1) (bit1 2) true, mk_dff (bit1 0) (bit1 3) (bit1 4) true,
     mk_dff (bit1 7) (bit1 5) (bit1 6) true, mk_memwr (bit1 2) (bit1 4) (bit1 6)]

/-- A read port with a register on its data output: wires clk=0, addr=1, nd=2, q=3;
cell 0 is the register (D = nd, Q = q, rising edge of clk), cell 1 the read port
(ADDR = addr, DATA = nd). -/
def ex_rd_data : Module :=
  mk_module 4 [mk_dff (bit1 0) (bit1 2) (bit1 3) true, mk_memrd (bit1 1) (bit1 2)]

/-- A write port whose address registers include one clocked by the constant x:
wires clk=0, a0=1, q0=2, a1=3, q1=4; cell 0 is a register with CLK = 1'x (falling
edge, D = a0, Q = q0), cell 1 a register on the rising edge of clk (D = a1, Q = q1),
cell 2 the write port with ADDR = {q1, q0} (q0 is bit 0), DATA = 0 and EN = 1. -/
def ex_wr_xclk : Module :=
  mk_module 5
    [mk_dff SigSpec.Sx (bit1 1) (bit1 2) false, mk_dff (bit1 0) (bit1 3) (bit1 4) true,
     mk_memwr [SigBit.wire 2 0, SigBit.wire 4 0] [SigBit.const State.S0] SigSpec.S1]

/-- A read port with a register on its data output whose Q names an alias of a wire
with an init value: wires clk=0, addr=1, nd=2, q=3 (init 1), q_alias=4, and q_alias
is connected to q, with q the canonical name.  Cell 0 is the register (D = nd,
Q = q_alias), cell 1 the read port (ADDR = addr, DATA = nd). -/
def ex_rd_init_alias : Module :=
  { wires := [plain_wire, plain_wire, plain_wire, ⟨1, false, some [State.S1]⟩, plain_wire]
    cells := [mk_dff (bit1 0) (bit1 2) (bit1 4) true, mk_memrd (bit1 1) (bit1 2)]
    canon := [(SigBit.wire 4 0, SigBit.wire 3 0)]
    selection := none
    design_inputs := [] }

/-- As `ex_rd_init_alias`, but the register's Q names the canonical wire q itself. -/
def ex_rd_init : Module :=
  { wires := [plain_wire, plain_wire, plain_wire, ⟨1, false, some [State.S1]⟩, plain_wire]
    cells := [mk_dff (bit1 0) (bit1 2) (bit1 3) true, mk_memrd (bit1 1) (bit1 2)]
    canon := [(SigBit.wire 4 0, SigBit.wire 3 0)]
    selection := none
    design_inputs := [] }

/-- Two write ports sharing one address register: wires clk=0, a=1, q=2; cell 0 is
the register (D = a, Q = q), cells 1 and 2 are write ports with ADDR = q, DATA = 0
and EN = 1. -/
def ex_wr_shared : Module :=
  mk_module 3
    [mk_dff (bit1 0) (bit1 1) (bit1 2) true,
     mk_memwr (bit1 2) [SigBit.const State.S0] SigSpec.S1,
     mk_memwr (bit1 2) [SigBit.const State.S0] SigSpec.S1]

/-- A read port whose data output is shared: wires clk=0, a=1, addr=2, nd=3, q=4, y=5;
cell 0 is the address register (D = a, Q = addr), cell 1 a register on the data
output (D = nd, Q = q), cell 2 an unrelated inverter reading nd, cell 3 the read port
(ADDR = addr, DATA = nd). -/
def ex_rd_shared : Module :=
  mk_module 6
    [mk_dff (bit1 0) (bit1 1) (bit1 2) true, mk_dff (bit1 0) (bit1 3) (bit1 4) true,
     mk_not (bit1 3) (bit1 5), mk_memrd (bit1 2) (bit1 3)]

/-- A read port behind a select whose other input is not the register's output:
wires clk=0, addr=1, nd=2, other=3, s=4, y=5, q=6; cell 0 is the read port
(ADDR = addr, DATA = nd), cell 1 the select y = s ? other : nd (DATA is its A input),
cell 2 a register (D = y, Q = q).  The enable-chain attempt fails at the comparison
of the keep side `other` with q, and ADDR has no register. -/
def ex_rd_mux_fail : Module :=
  mk_module 7
    [mk_memrd (bit1 1) (bit1 2), mk_mux (bit1 2) (bit1 3) (bit1 4) (bit1 5),
     mk_dff (bit1 0) (bit1 5) (bit1 6) true]

/-- The enable-chain scenario, DATA on the A side: wires clk=0, addr=1, nd=2, keep=3,
s=4, y=5; cell 0 is the read port (ADDR = addr, DATA = nd), cell 1 the select
y = s ? keep : nd, cell 2 the register (rising edge of clk, D = y, Q = keep). -/
def ex_rd_en : Module :=
  mk_module 6
    [mk_memrd (bit1 1) (bit1 2), mk_mux (bit1 2) (bit1 3) (bit1 4) (bit1 5),
     mk_dff (bit1 0) (bit1 5) (bit1 3) true]

/-- The enable-chain scenario, DATA on the B side: as `ex_rd_en`, but the select is
y = s ? nd : keep. -/
def ex_rd_en_b : Module :=
  mk_module 6
    [mk_memrd (bit1 1) (bit1 2), mk_mux (bit1 3) (bit1 2) (bit1 4) (bit1 5),
     mk_dff (bit1 0) (bit1 5) (bit1 3) true]

/-- The enable-chain scenario behind an inverted clock: wires clk=0, nclk=1, addr=2,
nd=3, keep=4, s=5, y=6; cell 0 is the inverter nclk = ~clk, cell 1 the read port
(ADDR = addr, DATA = nd), cell 2 the select y = s ? keep : nd, cell 3 the register
(CLK = nclk, rising edge, D = y, Q = keep). -/
def ex_rd_en_inv : Module :=
  mk_module 7
    [mk_not (bit1 0) (bit1 1), mk_memrd (bit1 2) (bit1 3),
     mk_mux (bit1 3) (bit1 4) (bit1 5) (bit1 6), mk_dff (bit1 1) (bit1 6) (bit1 4) true]

/-- A read port with a register on its data output whose Q names a non-canonical
alias: wires clk=0, addr=1, nd=2, q=3, q_alias=4, and q_alias is connected to q, with
q the canonical name; no init values.  Cell 0 is the register (rising edge of clk,
D = nd, Q = q_alias), cell 1 the read port (ADDR = addr, DATA = nd). -/
def ex_rd_alias : Module :=
  { wires := List.replicate 5 plain_wire
    cells := [mk_dff (bit1 0) (bit1 2) (bit1 4) true, mk_memrd (bit1 1) (bit1 2)]
    canon := [(SigBit.wire 4 0, SigBit.wire 3 0)]
    selection := none
    design_inputs := [] }

/-- A $memrd cell that is already synchronous (CLK_ENABLE is 1, rising edge). -/
def mk_memrd_sync (clk en addr data : SigSpec) : Cell :=
  ⟨IdString.memrd,
    [(IdString.CLK, clk), (IdString.EN, en), (IdString.ADDR, addr), (IdString.DATA, data)],
    [(IdString.CLK_ENABLE, Const.of_int 1 1), (IdString.CLK_POLARITY, Const.of_int 1 1),
     (IdString.TRANSPARENT, Const.of_int 0 1)]⟩

/-- An asynchronous and a synchronous read port side by side: wires clk=0, addr=1,
nd=2, q=3, nd2=4, q2=5; cell 0 is a register on the rising edge of clk (D = nd,
Q = q), cell 1 the asynchronous read port (ADDR = addr, DATA = nd), cell 2 a
register (D = nd2, Q = q2) behind cell 3, a synchronous read port (CLK = clk,
EN = 1, ADDR = addr, DATA = nd2). -/
def ex_rd_sync : Module :=
  mk_module 6
    [mk_dff (bit1 0) (bit1 2) (bit1 3) true, mk_memrd (bit1 1) (bit1 2),
     mk_dff (bit1 0) (bit1 4) (bit1 5) true,
     mk_memrd_sync (bit1 0) SigSpec.S1 (bit1 1) (bit1 4)]

/-! ## The pass: help text and option loop -/

/-- MemoryDffPass::help: the lines it logs. -/
def help : List String :=
  ["\n",
   "    memory_dff [options] [selection]\n",
   "\n",
   "This pass detects DFFs at memory ports and merges them into the memory port.\n",
   "I.e. it consumes an asynchronous memory port and the flip-flops at its\n",
   "interface and yields a synchronous memory port.\n",
   "\n",
   "    -nordfff\n",
   "        do not merge registers on read ports\n",
   "\n"]

/-- Lines 315-321 of MemoryDffPass::execute: the loop over the leading options, from
the argument at position `argidx` on.  The result is `flag_wr_only` and the position
of the first argument that is not consumed, which goes to `extra_args`. -/
def execute_options : List String → Nat → Bool → Bool × Nat
  | [], argidx, flag_wr_only => (flag_wr_only, argidx)
  | arg :: rest, argidx, flag_wr_only =>
    if arg = "-nordff" ∨ arg = "-wr_only" then execute_options rest (argidx + 1) true
    else (flag_wr_only, argidx)

/-- Lines 310-321 of MemoryDffPass::execute: `flag_wr_only` and `argidx` after the
option loop; `args` starts with the name of the pass. -/
def execute_flags (args : List String) : Bool × Nat :=
  execute_options (args.drop 1) 1 false

/-! ## Predicates used in the statements on the tracer -/

/-- What a successful trace returns for the canonical bit `b`: `b` itself if it is a
constant; otherwise the bit `s` of the other port of a $dff of dff_cells (not
forward-merged when tracing post) that has `b` in exactly one lane of its canonical
Q (D when tracing post), `s` being the bit of D (Q) in that lane. -/
def Worker.traced (w : Worker) (after : Bool) (b s : SigBit) : Prop :=
  (b.is_wire = false → s = b) ∧
  (b.is_wire = true → ∃ c ∈ w.dff_cells,
    (after = true → c ∉ w.forward_merged_dffs) ∧
    w.dff_extract after c b = [s] ∧
    ∃ lane : Nat,
      (sigmap_sig w.sigmap
        ((w.module.cell c).getPort (if after then IdString.D else IdString.Q)))[lane]?
        = some b ∧
      ((w.module.cell c).getPort (if after then IdString.Q else IdString.D))[lane]? = some s)

/-- The conditions of lines 66-88 under which the search for `bit` stops at the $dff
`c`: not forward-merged when tracing post; its normalized clock and polarity equal
`clk` and `pol` unless `clk` is the constant x (no clock fixed); `bit` lies in
exactly one lane of its canonical Q (D when tracing post). -/
def Worker.eligible (w : Worker) (after : Bool) (bit : SigBit) (clk : SigSpec) (pol : Bool)
    (c : Nat) : Prop :=
  (after = true → c ∉ w.forward_merged_dffs) ∧
  (clk ≠ SigSpec.Sx → w.dff_clock c = (clk, pol)) ∧
  (w.dff_extract after c bit).length = 1

instance (w : Worker) (after : Bool) (bit : SigBit) (clk : SigSpec) (pol : Bool) (c : Nat) :
    Decidable (w.eligible after bit clk pol c) := by
  unfold Worker.eligible
  infer_instance

/-- A write port behind registers on a clock and on its inverse: wires clk=0, nclk=1,
a=2, addr=3, d=4, data=5; cell 0 is the inverter nclk = ~clk, cell 1 the address
register (CLK = clk, rising edge, D = a, Q = addr), cell 2 the data register
(CLK = nclk, edge `pol`, D = d, Q = data), cell 3 the write port with ADDR = addr,
DATA = data and EN = 1. -/
def ex_wr_mixed (pol : Bool) : Module :=
  mk_module 6
    [mk_not (bit1 0) (bit1 1), mk_dff (bit1 0) (bit1 2) (bit1 3) true,
     mk_dff (bit1 1) (bit1 4) (bit1 5) pol, mk_memwr (bit1 3) (bit1 5) SigSpec.S1]

/-- The register behind each bit of the write port of `ex_wr_mixed`. -/
def ex_wr_mixed_reg (b : SigBit) : Nat := if b = SigBit.wire 3 0 then 1 else 2

/-- The D bit of the register behind each bit of the write port of `ex_wr_mixed`. -/
def ex_wr_mixed_d (b : SigBit) : SigBit :=
  if b = SigBit.wire 3 0 then SigBit.wire 2 0 else SigBit.wire 4 0

/-- A write port behind registers on a clock that is itself an inverter output:
wires clk0=0, c=1, nc=2, a=3, addr=4, d=5, data=6; cell 0 is the inverter c = ~clk0,
cell 1 the inverter nc = ~c, cell 2 the address register (CLK = c, rising edge,
D = a, Q = addr), cell 3 the data register (CLK = nc, falling edge, D = d, Q = data),
cell 4 the write port with ADDR = addr, DATA = data and EN = 1. -/
def ex_wr_inv2 : Module :=
  mk_module 7
    [mk_not (bit1 0) (bit1 1), mk_not (bit1 1) (bit1 2),
     mk_dff (bit1 1) (bit1 3) (bit1 4) true, mk_dff (bit1 2) (bit1 5) (bit1 6) false,
     mk_memwr (bit1 4) (bit1 6) SigSpec.S1]

/-- The enable-chain scenario with two selects: wires clk=0, addr=1, nd=2, keep=3,
s1=4, y1=5, s2=6, y2=7; cell 0 is the read port (ADDR = addr, DATA = nd), cell 1 the
select y1 = s1 ? keep : nd, cell 2 the select y2 = s2 ? keep : y1, cell 3 the
register (rising edge of clk, D = y2, Q = keep). -/
def ex_rd_en2 : Module :=
  mk_module 8
    [mk_memrd (bit1 1) (bit1 2), mk_mux (bit1 2) (bit1 3) (bit1 4) (bit1 5),
     mk_mux (bit1 5) (bit1 3) (bit1 6) (bit1 7), mk_dff (bit1 0) (bit1 7) (bit1 3) true]

/-! ## The select chain as a relation -/

/-- The positions of the $mux cells of a module. -/
def Module.mux_cells (m : Module) : List Nat :=
  (List.range m.cells.length).filter fun i => decide ((m.cell i).type = IdString.mux)

/-- Lines 190-191: the select the loop body picks for the signal `sig`: the one
recorded under `sig` in mux_cells_a, else the one recorded in mux_cells_b. -/
def Worker.mux_at (w : Worker) (sig : SigSpec) : Option Nat :=
  match dict_find w.mux_cells_a sig with
  | some m => some m
  | none => dict_find w.mux_cells_b sig

/-- The cell `m` is a recorded select: a value of mux_cells_a or mux_cells_b. -/
def Worker.mux_recorded (w : Worker) (m : Nat) : Prop :=
  ∃ key, dict_find w.mux_cells_a key = some m ∨ dict_find w.mux_cells_b key = some m

/-- The canonical Y of the recorded select `m` is the A or B key of the recorded
select `m1`. -/
def Worker.mux_feeds (w : Worker) (m m1 : Nat) : Prop :=
  w.mux_recorded m ∧
  (dict_find w.mux_cells_a (sigmap_sig w.sigmap ((w.module.cell m).getPort IdString.Y))
      = some m1 ∨
    dict_find w.mux_cells_b (sigmap_sig w.sigmap ((w.module.cell m).getPort IdString.Y))
      = some m1)

/-- The step of the walk: after the recorded select `m` the loop body picks `m1`. -/
def Worker.mux_next (w : Worker) (m m1 : Nat) : Prop :=
  w.mux_recorded m ∧
  w.mux_at (sigmap_sig w.sigmap ((w.module.cell m).getPort IdString.Y)) = some m1

/-- Every recorded select is a $mux cell of the module (as lines 261-264 record
them). -/
def Worker.index_sound (w : Worker) : Prop :=
  ∀ key m, (dict_find w.mux_cells_a key = some m ∨ dict_find w.mux_cells_b key = some m) →
    m < w.module.cells.length ∧ (w.module.cell m).type = IdString.mux

/-- A read port whose DATA reaches a select loop that the walk passes by: wires
addr=0, nd=1, other=2, s=3, y0=4, y1=5, y2=6; cell 0 is the read port (ADDR = addr,
DATA = nd), cell 1 the select y0 = s ? other : nd, cell 2 the select
y1 = s ? other : y0, cell 3 the select y2 = s ? y0 : y2, whose Y is its own A input
and whose B input is y0. -/
def ex_mux_side_cycle : Module :=
  mk_module 7
    [mk_memrd (bit1 0) (bit1 1), mk_mux (bit1 1) (bit1 2) (bit1 3) (bit1 4),
     mk_mux (bit1 4) (bit1 2) (bit1 3) (bit1 5), mk_mux (bit1 6) (bit1 4) (bit1 3) (bit1 6)]

/-- A read port whose DATA is the A input and the Y output of one select: wires
addr=0, y=1, other=2, s=3; cell 0 is the read port (ADDR = addr, DATA = y), cell 1
the select y = s ? other : y. -/
def ex_mux_loop : Module :=
  mk_module 4 [mk_memrd (bit1 0) (bit1 1), mk_mux (bit1 1) (bit1 2) (bit1 3) (bit1 1)]

/-- A register consumed by a write port, next to a second register on the same data
signal: wires clk=0, nd=1, q0=2, q1=3, raddr=4; cells 0 and 1 are registers on the
rising edge of clk with D = nd (Q = q0 and Q = q1), cell 2 is a write port with
ADDR = q0, DATA = 0 and EN = 1, cell 3 a read port with ADDR = raddr and DATA = nd. -/
def ex_fm : Module :=
  mk_module 5
    [mk_dff (bit1 0) (bit1 1) (bit1 2) true, mk_dff (bit1 0) (bit1 1) (bit1 3) true,
     mk_memwr (bit1 2) [SigBit.const State.S0] SigSpec.S1, mk_memrd (bit1 4) (bit1 1)]

theorem dict_find_set_same {κ υ : Type} [DecidableEq κ] (d : List (κ × υ)) (k : κ) (v : υ) :
    dict_find (dict_set d k v) k = some v := by
  induction d with
  | nil => simp [dict_set, dict_find]
  | cons hd tl ih =>
    obtain ⟨k0, v0⟩ := hd
    by_cases h : k0 = k
    · simp [dict_set, dict_find, h]
    · simp [dict_set, dict_find, h, ih]

theorem dict_find_set_other {κ υ : Type} [DecidableEq κ] (d : List (κ × υ)) (k k1 : κ) (v : υ)
    (hne : k1 ≠ k) : dict_find (dict_set d k v) k1 = dict_find d k1 := by
  induction d with
  | nil => simp [dict_set, dict_find, Ne.symm hne]
  | cons hd tl ih =>
    obtain ⟨k0, v0⟩ := hd
    by_cases h : k0 = k
    · subst h
      simp [dict_set, dict_find, Ne.symm hne]
    · by_cases h1 : k0 = k1
      · subst h1
        simp [dict_set, dict_find, h]
      · simp [dict_set, dict_find, h, h1, ih]

theorem Cell.getPort_setPort_same (c : Cell) (p : IdString) (s : SigSpec) :
    (c.setPort p s).getPort p = s := by
  simp [Cell.getPort, Cell.setPort, dict_find_set_same]

theorem Cell.getPort_setPort_other (c : Cell) (p q : IdString) (s : SigSpec) (h : q ≠ p) :
    (c.setPort p s).getPort q = c.getPort q := by
  simp [Cell.getPort, Cell.setPort, dict_find_set_other _ _ _ _ h]

theorem Cell.getPort_setParam (c : Cell) (p q : IdString) (v : Const) :
    (c.setParam p v).getPort q = c.getPort q := rfl

theorem Cell.getParam_setPort (c : Cell) (p q : IdString) (s : SigSpec) :
    (c.setPort p s).getParam q = c.getParam q := rfl

theorem Cell.getParam_setParam_same (c : Cell) (p : IdString) (v : Const) :
    (c.setParam p v).getParam p = v := by
  simp [Cell.getParam, Cell.setParam, dict_find_set_same]

theorem Cell.getParam_setParam_other (c : Cell) (p q : IdString) (v : Const) (h : q ≠ p) :
    (c.setParam p v).getParam q = c.getParam q := by
  simp [Cell.getParam, Cell.setParam, dict_find_set_other _ _ _ _ h]

theorem Cell.type_setPort (c : Cell) (p : IdString) (s : SigSpec) : (c.setPort p s).type = c.type := rfl
theorem Cell.type_setParam (c : Cell) (p : IdString) (v : Const) : (c.setParam p v).type = c.type := rfl

theorem cells_getD_set_same (cs : List Cell) (i : Nat) (c : Cell) (h : i < cs.length) :
    (cs.set i c).getD i default = c := by
  simp [List.getD, h]

theorem cells_getD_set_other (cs : List Cell) (i j : Nat) (c : Cell) (h : j ≠ i) :
    (cs.set i c).getD j default = cs.getD j default := by
  simp [List.getD, List.getElem?_set_ne (Ne.symm h)]

theorem cells_getD_append (cs ex : List Cell) (j : Nat) (h : j < cs.length) :
    (cs ++ ex).getD j default = cs.getD j default := by
  simp [List.getD, List.getElem?_append_left h]

/-! ## Lemmas on the search for one bit -/

theorem extract_of_not_mem (self : SigSpec) (pattern : SigBit) (other : SigSpec)
    (h : pattern ∉ self) : self.extract pattern other = [] := by
  unfold SigSpec.extract
  rw [List.filterMap_eq_nil_iff]
  intro p hp
  have hmem : p.1 ∈ self := (List.of_mem_zip hp).1
  cases hp1 : p.1 with
  | const s => simp
  | wire i o =>
    have : p.1 ≠ pattern := fun e => h (e ▸ hmem)
    simp [← hp1, this]

/-- What a successful search says about the cell it selected. -/
theorem scan_dffs_replaced (w : Worker) (after : Bool) (bit : SigBit) (clk : SigSpec)
    (pol : Bool) (cells : List Nat) (c : Nat) (d : SigBit) (clk1 : SigSpec) (pol1 : Bool)
    (h : w.scan_dffs after bit clk pol cells = Scan.replaced c d clk1 pol1) :
    c ∈ cells ∧ (after = true → c ∉ w.forward_merged_dffs) ∧ w.dff_clock c = (clk1, pol1) ∧
    (clk ≠ SigSpec.Sx → clk1 = clk ∧ pol1 = pol) ∧
    w.dff_extract after c bit = [d] ∧ (after = true → d ∉ w.init_bits) := by
  induction cells with
  | nil => simp [Worker.scan_dffs] at h
  | cons hd tl ih =>
    unfold Worker.scan_dffs at h
    split at h
    · obtain ⟨h1, h2⟩ := ih h
      exact ⟨List.mem_cons_of_mem _ h1, h2⟩
    · rename_i hfm
      simp only at h
      split at h
      · obtain ⟨h1, h2⟩ := ih h
        exact ⟨List.mem_cons_of_mem _ h1, h2⟩
      · rename_i hck
        split at h
        · rename_i d0 hd0
          split at h
          · simp at h
          · rename_i hin
            simp only [Scan.replaced.injEq] at h
            obtain ⟨rfl, rfl, rfl, rfl⟩ := h
            refine ⟨List.mem_cons_self _ _, ?_, rfl, ?_, hd0, ?_⟩
            · intro ha; subst ha; simpa using hfm
            · intro hne
              by_contra hcon
              apply hck
              refine ⟨hne, ?_⟩
              by_cases e1 : (w.dff_clock hd).1 = clk
              · right; intro e2; exact hcon ⟨e1, e2⟩
              · left; exact e1
            · intro ha; subst ha; simpa using hin
        · obtain ⟨h1, h2⟩ := ih h
          exact ⟨List.mem_cons_of_mem _ h1, h2⟩

/-- A sufficient condition for the search to select the cell `r`. -/
theorem scan_dffs_found (w : Worker) (after : Bool) (bit : SigBit) (clk : SigSpec)
    (pol : Bool) (r : Nat) (d : SigBit) (c : SigSpec) (p : Bool) (cells : List Nat)
    (hr : r ∈ cells) (hfm : after = true → r ∉ w.forward_merged_dffs)
    (hclk : w.dff_clock r = (c, p)) (hcur : clk = SigSpec.Sx ∨ (clk = c ∧ pol = p))
    (hext : w.dff_extract after r bit = [d]) (hinit : after = true → d ∉ w.init_bits)
    (hoth : ∀ r1 ∈ cells, r1 ≠ r → (w.dff_extract after r1 bit).length ≠ 1) :
    w.scan_dffs after bit clk pol cells = Scan.replaced r d c p := by
  induction cells with
  | nil => simp at hr
  | cons hd tl ih =>
    have ihtl : r ∈ tl → w.scan_dffs after bit clk pol tl = Scan.replaced r d c p :=
      fun hm => ih hm (fun r1 h1 => hoth r1 (List.mem_cons_of_mem _ h1))
    by_cases e : hd = r
    · subst e
      unfold Worker.scan_dffs
      have h1 : ¬ ((after && decide (hd ∈ w.forward_merged_dffs)) = true) := by
        cases after
        · simp
        · simpa using hfm rfl
      have h2 : ¬ (clk ≠ SigSpec.Sx ∧
          ((w.dff_clock hd).1 ≠ clk ∨ (w.dff_clock hd).2 ≠ pol)) := by
        rcases hcur with h | ⟨h, h3⟩
        · simp [h]
        · simp [hclk, h, h3]
      have h3 : ¬ ((after && decide (d ∈ w.init_bits)) = true) := by
        cases after
        · simp
        · simpa using hinit rfl
      rw [if_neg h1]
      simp only []
      rw [if_neg h2, hext]
      simp only []
      rw [if_neg h3, hclk]
    · have hrtl : r ∈ tl := by
        rcases List.mem_cons.mp hr with h | h
        · exact absurd h.symm e
        · exact h
      have hlen := hoth hd (List.mem_cons_self _ _) e
      unfold Worker.scan_dffs
      split
      · exact ihtl hrtl
      · simp only
        split
        · exact ihtl hrtl
        · split
          · rename_i d0 hd0
            rw [hd0] at hlen
            simp at hlen
          · exact ihtl hrtl

/-! ## Lemmas on the trace of a signal -/

theorem mem_pool_insert (p : List Nat) (c x : Nat) : x ∈ pool_insert p c ↔ x ∈ p ∨ x = c := by
  unfold pool_insert
  split
  · rename_i h
    constructor
    · exact Or.inl
    · rintro (h1 | rfl)
      · exact h1
      · exact h
  · simp

theorem mem_foldl_pool_insert (l p : List Nat) (x : Nat) :
    x ∈ l.foldl pool_insert p ↔ x ∈ p ∨ x ∈ l := by
  induction l generalizing p with
  | nil => simp
  | cons a t ih =>
    simp only [List.foldl_cons, ih, mem_pool_insert, List.mem_cons]
    tauto

/-- A trace in which every bit has exactly one offering $dff, all on the clock
`(c, p)`, succeeds and replaces bit for bit. -/
theorem trace_bits_found (w : Worker) (after : Bool) (rOf : SigBit → Nat)
    (dOf : SigBit → SigBit) (c : SigSpec) (p : Bool) (bits : List SigBit) :
    ∀ (clk : SigSpec) (pol : Bool) (cands : List Nat),
    (clk = SigSpec.Sx ∨ (clk = c ∧ pol = p)) →
    (∀ b ∈ bits, b.is_wire = true ∧
      (after = false → sigmap_bit w.sigmap b ∉ w.init_bits) ∧
      rOf b ∈ w.dff_cells ∧ (after = true → rOf b ∉ w.forward_merged_dffs) ∧
      w.dff_clock (rOf b) = (c, p) ∧ w.dff_extract after (rOf b) b = [dOf b] ∧
      (after = true → dOf b ∉ w.init_bits) ∧
      ∀ r1 ∈ w.dff_cells, r1 ≠ rOf b → (w.dff_extract after r1 b).length ≠ 1) →
    (w.trace_bits after bits clk pol cands).ok = true ∧
    (w.trace_bits after bits clk pol cands).sig = bits.map dOf ∧
    (bits ≠ [] → (w.trace_bits after bits clk pol cands).clk = c ∧
      (w.trace_bits after bits clk pol cands).clk_polarity = p) ∧
    (bits = [] → (w.trace_bits after bits clk pol cands).clk = clk ∧
      (w.trace_bits after bits clk pol cands).clk_polarity = pol) ∧
    ∀ x, x ∈ (w.trace_bits after bits clk pol cands).candidate_dffs ↔
      (x ∈ cands ∨ ∃ b ∈ bits, x = rOf b) := by
  induction bits with
  | nil => intro clk pol cands _ _; simp [Worker.trace_bits]
  | cons b rest ih =>
    intro clk pol cands hcur hall
    obtain ⟨hw, hinit, hr, hfm, hclk, hext, hdin, hoth⟩ := hall b (List.mem_cons_self _ _)
    have hrest := fun b1 (h1 : b1 ∈ rest) => hall b1 (List.mem_cons_of_mem _ h1)
    have hscan := scan_dffs_found w after b clk pol (rOf b) (dOf b) c p w.dff_cells
      hr hfm hclk hcur hext hdin hoth
    cases b with
    | const s => simp [SigBit.is_wire] at hw
    | wire i o =>
      have h1 : ¬ ((!after && decide (sigmap_bit w.sigmap (SigBit.wire i o) ∈ w.init_bits))
          = true) := by
        cases after
        · simpa using hinit rfl
        · simp
      unfold Worker.trace_bits
      simp only []
      rw [if_neg h1, hscan]
      simp only []
      obtain ⟨i1, i2, i3, i4, i5⟩ := ih c p (pool_insert cands (rOf (SigBit.wire i o)))
        (Or.inr ⟨rfl, rfl⟩) hrest
      refine ⟨i1, ?_, ?_, ?_, ?_⟩
      · simp [i2]
      · intro _
        by_cases hn : rest = []
        · exact i4 hn
        · exact i3 hn
      · intro hn
        exact absurd hn (List.cons_ne_nil _ _)
      · intro x
        refine (i5 x).trans ?_
        rw [mem_pool_insert]
        simp only [List.mem_cons, exists_eq_or_imp, or_assoc]

/-! ## Lemmas on the handlers' writes -/

theorem Worker.cell_setPort_same (w : Worker) (i : Nat) (p : IdString) (s : SigSpec)
    (h : i < w.module.cells.length) :
    (w.setPort i p s).module.cell i = (w.module.cell i).setPort p s := by
  exact cells_getD_set_same _ _ _ h

theorem Worker.cell_setPort_other (w : Worker) (i j : Nat) (p : IdString) (s : SigSpec)
    (h : j ≠ i) : (w.setPort i p s).module.cell j = w.module.cell j := by
  exact cells_getD_set_other _ _ _ _ h

theorem Worker.cells_length_setPort (w : Worker) (i : Nat) (p : IdString) (s : SigSpec) :
    (w.setPort i p s).module.cells.length = w.module.cells.length := by
  simp [Worker.setPort]

theorem Worker.cell_setParam_same (w : Worker) (i : Nat) (p : IdString) (v : Const)
    (h : i < w.module.cells.length) :
    (w.setParam i p v).module.cell i = (w.module.cell i).setParam p v := by
  exact cells_getD_set_same _ _ _ h

theorem Worker.cell_setParam_other (w : Worker) (i j : Nat) (p : IdString) (v : Const)
    (h : j ≠ i) : (w.setParam i p v).module.cell j = w.module.cell j := by
  exact cells_getD_set_other _ _ _ _ h

theorem Worker.cells_length_setParam (w : Worker) (i : Nat) (p : IdString) (v : Const) :
    (w.setParam i p v).module.cells.length = w.module.cells.length := by
  simp [Worker.setParam]

/-- The search for one bit reads the cells only at the positions in its list, and
the worker only through sigmap, invbits, init_bits and forward_merged_dffs. -/
theorem scan_dffs_congr (w v : Worker) (after : Bool) (bit : SigBit) (clk : SigSpec)
    (pol : Bool) (cells : List Nat)
    (hs : v.sigmap = w.sigmap) (hi : v.invbits = w.invbits) (hn : v.init_bits = w.init_bits)
    (hf : v.forward_merged_dffs = w.forward_merged_dffs)
    (hc : ∀ i ∈ cells, v.module.cell i = w.module.cell i) :
    v.scan_dffs after bit clk pol cells = w.scan_dffs after bit clk pol cells := by
  induction cells with
  | nil => rfl
  | cons hd tl ih =>
    have ihtl := ih (fun i h => hc i (List.mem_cons_of_mem _ h))
    have hhd := hc hd (List.mem_cons_self _ _)
    have e1 : v.dff_clock hd = w.dff_clock hd := by
      simp only [Worker.dff_clock, hhd, hi]
    have e2 : v.dff_extract after hd bit = w.dff_extract after hd bit := by
      simp only [Worker.dff_extract, hhd, hs]
    unfold Worker.scan_dffs
    rw [ihtl, e1, e2, hf, hn]

/-- The trace of a signal reads the worker only through dff_cells, the cells behind
them, sigmap, invbits, init_bits and forward_merged_dffs. -/
theorem trace_bits_congr (w v : Worker) (after : Bool) (bits : List SigBit)
    (hs : v.sigmap = w.sigmap) (hi : v.invbits = w.invbits) (hn : v.init_bits = w.init_bits)
    (hf : v.forward_merged_dffs = w.forward_merged_dffs) (hd : v.dff_cells = w.dff_cells)
    (hc : ∀ i ∈ w.dff_cells, v.module.cell i = w.module.cell i) :
    ∀ (clk : SigSpec) (pol : Bool) (cands : List Nat),
    v.trace_bits after bits clk pol cands = w.trace_bits after bits clk pol cands := by
  induction bits with
  | nil => intro clk pol cands; rfl
  | cons b rest ih =>
    intro clk pol cands
    have e := scan_dffs_congr w v after b clk pol w.dff_cells hs hi hn hf hc
    unfold Worker.trace_bits
    cases b with
    | const s => simp only [ih]
    | wire i o => simp only [ih, hd, e, hs, hn]

theorem find_sig_with_cands (w : Worker) (x : List Nat) (sig clk : SigSpec) (pol after : Bool) :
    ({ w with candidate_dffs := x } : Worker).find_sig_before_dff sig clk pol after =
      w.trace_bits after (sigmap_sig w.sigmap sig) clk pol x := by
  unfold Worker.find_sig_before_dff
  exact trace_bits_congr w { w with candidate_dffs := x } after _ rfl rfl rfl rfl rfl
    (fun _ _ => rfl) _ _ _

/-- handle_wr_cell in terms of its three traces. -/
theorem handle_wr_cell_eq (w : Worker) (cell : Nat) (tA tD tE : Trace)
    (hA : tA = w.trace_bits false
      (sigmap_sig w.sigmap ((w.module.cell cell).getPort IdString.ADDR)) SigSpec.Sx false [])
    (hD : tD = w.trace_bits false
      (sigmap_sig w.sigmap ((w.module.cell cell).getPort IdString.DATA))
      tA.clk tA.clk_polarity tA.candidate_dffs)
    (hE : tE = w.trace_bits false
      (sigmap_sig w.sigmap ((w.module.cell cell).getPort IdString.EN))
      tD.clk tD.clk_polarity tD.candidate_dffs) :
    w.handle_wr_cell cell =
      if (!tA.ok) = true then
        ({ w with candidate_dffs := tA.candidate_dffs }, LogMsg.no_dff_addr)
      else if (!tD.ok) = true then
        ({ w with candidate_dffs := tD.candidate_dffs }, LogMsg.no_dff_data)
      else if (!tE.ok) = true then
        ({ w with candidate_dffs := tE.candidate_dffs }, LogMsg.no_dff_en)
      else if tE.clk ≠ SigSpec.Sx then
        ((((((({ w with
            candidate_dffs := tE.candidate_dffs
            forward_merged_dffs :=
              tE.candidate_dffs.foldl pool_insert w.forward_merged_dffs } : Worker).setPort
            cell IdString.CLK tE.clk).setPort cell IdString.ADDR tA.sig).setPort
            cell IdString.DATA tD.sig).setPort cell IdString.EN tE.sig).setParam
            cell IdString.CLK_ENABLE (Const.of_int 1 32)).setParam cell IdString.CLK_POLARITY
            (Const.of_int (if tE.clk_polarity then 1 else 0) 32), LogMsg.merged)
      else ({ w with candidate_dffs := tE.candidate_dffs }, LogMsg.no_dff) := by
  subst hE hD hA
  unfold Worker.handle_wr_cell
  simp only [find_sig_with_cands]

/-- The cell a committed write-port merge leaves at the port's position. -/
theorem cell_after_wr_commit (w : Worker) (cell : Nat) (clk addr data en : SigSpec)
    (v1 v2 : Const) (hcell : cell < w.module.cells.length) :
    ((((((w.setPort cell IdString.CLK clk).setPort cell IdString.ADDR addr).setPort
      cell IdString.DATA data).setPort cell IdString.EN en).setParam
      cell IdString.CLK_ENABLE v1).setParam cell IdString.CLK_POLARITY v2).module.cell cell =
    ((((((w.module.cell cell).setPort IdString.CLK clk).setPort IdString.ADDR addr).setPort
      IdString.DATA data).setPort IdString.EN en).setParam
      IdString.CLK_ENABLE v1).setParam IdString.CLK_POLARITY v2 := by
  simp [Worker.cell_setPort_same, Worker.cell_setParam_same, Worker.cells_length_setPort,
    Worker.cells_length_setParam, hcell]

/-! ## C1: the write-port merge -/

/-- C1 (amended): let every canonical bit of ADDR, DATA and EN of the write port be a
wire bit whose representative is not in init_bits and that sits in exactly one lane of
the canonical Q of exactly one cell `rOf b` of dff_cells, with `dOf b` the D bit of that
lane; let all these cells have the same clock `c` and edge `p` after the inverter
normalization of lines 72-75, `c` not the constant x, and let the port have at least
one bit.  Then handle_wr_cell reports the merge, sets CLK to `c`, CLK_ENABLE to 1,
CLK_POLARITY to `p`, replaces ADDR, DATA and EN bit for bit by the D bits, and every
one of the cells is in forward_merged_dffs afterwards. -/
theorem handle_wr_cell_merges (w : Worker) (cell : Nat) (rOf : SigBit → Nat)
    (dOf : SigBit → SigBit) (c : SigSpec) (p : Bool)
    (hcell : cell < w.module.cells.length)
    (hc : c ≠ SigSpec.Sx)
    (hne : sigmap_sig w.sigmap ((w.module.cell cell).getPort IdString.ADDR) ++
      sigmap_sig w.sigmap ((w.module.cell cell).getPort IdString.DATA) ++
      sigmap_sig w.sigmap ((w.module.cell cell).getPort IdString.EN) ≠ [])
    (hall : ∀ b ∈ sigmap_sig w.sigmap ((w.module.cell cell).getPort IdString.ADDR) ++
        sigmap_sig w.sigmap ((w.module.cell cell).getPort IdString.DATA) ++
        sigmap_sig w.sigmap ((w.module.cell cell).getPort IdString.EN),
      b.is_wire = true ∧ sigmap_bit w.sigmap b ∉ w.init_bits ∧
      rOf b ∈ w.dff_cells ∧ w.dff_clock (rOf b) = (c, p) ∧
      w.dff_extract false (rOf b) b = [dOf b] ∧
      ∀ r1 ∈ w.dff_cells, r1 ≠ rOf b →
        b ∉ sigmap_sig w.sigmap ((w.module.cell r1).getPort IdString.Q)) :
    (w.handle_wr_cell cell).2 = LogMsg.merged ∧
    ((w.handle_wr_cell cell).1.module.cell cell).getPort IdString.CLK = c ∧
    ((w.handle_wr_cell cell).1.module.cell cell).getParam IdString.CLK_ENABLE
      = Const.of_int 1 32 ∧
    ((w.handle_wr_cell cell).1.module.cell cell).getParam IdString.CLK_POLARITY
      = Const.of_int (if p then 1 else 0) 32 ∧
    ((w.handle_wr_cell cell).1.module.cell cell).getPort IdString.ADDR
      = (sigmap_sig w.sigmap ((w.module.cell cell).getPort IdString.ADDR)).map dOf ∧
    ((w.handle_wr_cell cell).1.module.cell cell).getPort IdString.DATA
      = (sigmap_sig w.sigmap ((w.module.cell cell).getPort IdString.DATA)).map dOf ∧
    ((w.handle_wr_cell cell).1.module.cell cell).getPort IdString.EN
      = (sigmap_sig w.sigmap ((w.module.cell cell).getPort IdString.EN)).map dOf ∧
    ∀ b ∈ sigmap_sig w.sigmap ((w.module.cell cell).getPort IdString.ADDR) ++
        sigmap_sig w.sigmap ((w.module.cell cell).getPort IdString.DATA) ++
        sigmap_sig w.sigmap ((w.module.cell cell).getPort IdString.EN),
      rOf b ∈ (w.handle_wr_cell cell).1.forward_merged_dffs := by
  -- the per-bit hypothesis in the form the trace lemma takes
  have hbit : ∀ b ∈ sigmap_sig w.sigmap ((w.module.cell cell).getPort IdString.ADDR) ++
        sigmap_sig w.sigmap ((w.module.cell cell).getPort IdString.DATA) ++
        sigmap_sig w.sigmap ((w.module.cell cell).getPort IdString.EN),
      b.is_wire = true ∧
      (false = false → sigmap_bit w.sigmap b ∉ w.init_bits) ∧
      rOf b ∈ w.dff_cells ∧ (false = true → rOf b ∉ w.forward_merged_dffs) ∧
      w.dff_clock (rOf b) = (c, p) ∧ w.dff_extract false (rOf b) b = [dOf b] ∧
      (false = true → dOf b ∉ w.init_bits) ∧
      ∀ r1 ∈ w.dff_cells, r1 ≠ rOf b → (w.dff_extract false r1 b).length ≠ 1 := by
    intro b hb
    obtain ⟨h1, h2, h3, h4, h5, h6⟩ := hall b hb
    refine ⟨h1, fun _ => h2, h3, fun h => absurd h Bool.false_ne_true, h4, h5,
      fun h => absurd h Bool.false_ne_true, ?_⟩
    intro r1 hr1 hne1
    have := extract_of_not_mem _ b ((w.module.cell r1).getPort IdString.D) (h6 r1 hr1 hne1)
    simp [Worker.dff_extract, this]
  generalize hA : sigmap_sig w.sigmap ((w.module.cell cell).getPort IdString.ADDR) = A at *
  generalize hD : sigmap_sig w.sigmap ((w.module.cell cell).getPort IdString.DATA) = Dd at *
  generalize hE : sigmap_sig w.sigmap ((w.module.cell cell).getPort IdString.EN) = E at *
  obtain ⟨tA, htA⟩ : ∃ t, t = w.trace_bits false A SigSpec.Sx false [] := ⟨_, rfl⟩
  obtain ⟨tD, htD⟩ : ∃ t, t = w.trace_bits false Dd tA.clk tA.clk_polarity tA.candidate_dffs :=
    ⟨_, rfl⟩
  obtain ⟨tE, htE⟩ : ∃ t, t = w.trace_bits false E tD.clk tD.clk_polarity tD.candidate_dffs :=
    ⟨_, rfl⟩
  have hbA : ∀ b ∈ A, _ := fun b hb => hbit b (by simp [hb])
  have hbD : ∀ b ∈ Dd, _ := fun b hb => hbit b (by simp [hb])
  have hbE : ∀ b ∈ E, _ := fun b hb => hbit b (by simp [hb])
  obtain ⟨a1, a2, a3, a4, a5⟩ :=
    trace_bits_found w false rOf dOf c p A SigSpec.Sx false [] (Or.inl rfl) hbA
  rw [← htA] at a1 a2 a3 a4 a5
  have hcurA : tA.clk = SigSpec.Sx ∨ (tA.clk = c ∧ tA.clk_polarity = p) := by
    by_cases h : A = []
    · exact Or.inl (a4 h).1
    · exact Or.inr (a3 h)
  obtain ⟨d1, d2, d3, d4, d5⟩ :=
    trace_bits_found w false rOf dOf c p Dd tA.clk tA.clk_polarity tA.candidate_dffs hcurA hbD
  rw [← htD] at d1 d2 d3 d4 d5
  have hcurD : tD.clk = SigSpec.Sx ∨ (tD.clk = c ∧ tD.clk_polarity = p) := by
    by_cases h : Dd = []
    · rw [(d4 h).1, (d4 h).2]; exact hcurA
    · exact Or.inr (d3 h)
  obtain ⟨e1, e2, e3, e4, e5⟩ :=
    trace_bits_found w false rOf dOf c p E tD.clk tD.clk_polarity tD.candidate_dffs hcurD hbE
  rw [← htE] at e1 e2 e3 e4 e5
  have hfin : tE.clk = c ∧ tE.clk_polarity = p := by
    by_cases h3 : E = []
    · by_cases h2 : Dd = []
      · by_cases h1 : A = []
        · exact absurd (by simp [h1, h2, h3]) hne
        · rw [(e4 h3).1, (e4 h3).2, (d4 h2).1, (d4 h2).2]; exact a3 h1
      · rw [(e4 h3).1, (e4 h3).2]; exact d3 h2
    · exact e3 h3
  have hclk : tE.clk ≠ SigSpec.Sx := by rw [hfin.1]; exact hc
  have key := handle_wr_cell_eq w cell tA tD tE (by rw [htA, hA]) (by rw [htD, hD])
    (by rw [htE, hE])
  rw [a1, d1, e1] at key
  simp only [Bool.not_true, Bool.false_eq_true, if_false, hclk, ne_eq, not_false_eq_true,
    if_true] at key
  rw [key]
  simp only []
  rw [cell_after_wr_commit
    { w with
      candidate_dffs := tE.candidate_dffs
      forward_merged_dffs := tE.candidate_dffs.foldl pool_insert w.forward_merged_dffs }
    _ _ _ _ _ _ _ hcell]
  refine ⟨trivial, ?_, ?_, ?_, ?_, ?_, ?_, ?_⟩
  · simp [Cell.getPort_setParam, Cell.getPort_setPort_same, Cell.getPort_setPort_other, hfin.1]
  · simp [Cell.getParam_setParam_same, Cell.getParam_setParam_other]
  · simp [Cell.getParam_setParam_same, hfin.2]
  · simp [Cell.getPort_setParam, Cell.getPort_setPort_same, Cell.getPort_setPort_other, a2]
  · simp [Cell.getPort_setParam, Cell.getPort_setPort_same, Cell.getPort_setPort_other, d2]
  · simp [Cell.getPort_setParam, Cell.getPort_setPort_same, e2]
  · intro b hb
    show rOf b ∈ tE.candidate_dffs.foldl pool_insert w.forward_merged_dffs
    rw [mem_foldl_pool_insert]
    right
    rw [e5, d5, a5]
    simp only [List.mem_append] at hb
    rcases hb with (hb | hb) | hb
    · exact Or.inl (Or.inl (Or.inr ⟨b, hb, rfl⟩))
    · exact Or.inl (Or.inr ⟨b, hb, rfl⟩)
    · exact Or.inr ⟨b, hb, rfl⟩

/-- C1, witness: the hypotheses of handle_wr_cell_merges hold for the write port of
`ex_wr` (three registers on one clock), and the port gets CLK = clk and ADDR = a. -/
theorem handle_wr_cell_merges_witness :
    (((Worker.new ex_wr).build_index.handle_wr_cell 3).1.module.cell 3).getPort IdString.CLK
        = bit1 0 ∧
    (((Worker.new ex_wr).build_index.handle_wr_cell 3).1.module.cell 3).getPort IdString.ADDR
        = bit1 1 :=
  have h := handle_wr_cell_merges (Worker.new ex_wr).build_index 3 ex_wr_reg ex_wr_d (bit1 0) true
    (by decide) (by decide) (by decide) (by decide)
  ⟨h.2.1, h.2.2.2.2.1⟩

/-- C1, counterexample to the claim as stated: in `ex_wr_inv` every bit of ADDR, DATA and
EN is the Q bit of exactly one $dff, all three $dff cells have the CLK signal nclk and
CLK_POLARITY 1, no bit is in init_bits and the port has CLK_ENABLE 0; handle_wr_cell
merges, but the port's CLK becomes clk (the inverter's input), not nclk, and its
CLK_POLARITY becomes 0, not 1. -/
theorem handle_wr_cell_inverted_clock :
    (∀ b ∈ sigmap_sig (Worker.new ex_wr_inv).build_index.sigmap
          ((ex_wr_inv.cell 4).getPort IdString.ADDR ++ (ex_wr_inv.cell 4).getPort IdString.DATA
            ++ (ex_wr_inv.cell 4).getPort IdString.EN),
      b.is_wire = true ∧ b ∉ (Worker.new ex_wr_inv).build_index.init_bits ∧
      ex_wr_inv_reg b ∈ (Worker.new ex_wr_inv).build_index.dff_cells ∧
      b ∈ sigmap_sig ex_wr_inv.canon ((ex_wr_inv.cell (ex_wr_inv_reg b)).getPort IdString.Q) ∧
      (ex_wr_inv.cell (ex_wr_inv_reg b)).getPort IdString.CLK = bit1 1 ∧
      ((ex_wr_inv.cell (ex_wr_inv_reg b)).getParam IdString.CLK_POLARITY).as_bool = true ∧
      ∀ r1 ∈ (Worker.new ex_wr_inv).build_index.dff_cells, r1 ≠ ex_wr_inv_reg b →
        b ∉ sigmap_sig ex_wr_inv.canon ((ex_wr_inv.cell r1).getPort IdString.Q)) ∧
    ((ex_wr_inv.cell 4).getParam IdString.CLK_ENABLE).as_bool = false ∧
    ((Worker.new ex_wr_inv).build_index.handle_wr_cell 4).2 = LogMsg.merged ∧
    (((Worker.new ex_wr_inv).build_index.handle_wr_cell 4).1.module.cell 4).getPort IdString.CLK
      = bit1 0 ∧
    (((Worker.new ex_wr_inv).build_index.handle_wr_cell 4).1.module.cell 4).getPort IdString.CLK
      ≠ bit1 1 ∧
    ((((Worker.new ex_wr_inv).build_index.handle_wr_cell 4).1.module.cell 4).getParam
      IdString.CLK_POLARITY).as_bool = false := by
  decide

/-! ## Lemmas on the select-chain walk and the read-port handler -/

theorem Worker.grown_refl (w : Worker) : w.grown w :=
  ⟨rfl, rfl, rfl, rfl, rfl, rfl, rfl, rfl, rfl, rfl, rfl, ⟨[], by simp⟩, ⟨[], by simp⟩⟩

theorem Worker.grown_trans (w v u : Worker) (h1 : w.grown v) (h2 : v.grown u) : w.grown u := by
  obtain ⟨a1, a2, a3, a4, a5, a6, a7, a8, a9, a10, a11, ⟨ew, a12⟩, ⟨ec, a13, a14⟩⟩ := h1
  obtain ⟨b1, b2, b3, b4, b5, b6, b7, b8, b9, b10, b11, ⟨fw, b12⟩, ⟨fc, b13, b14⟩⟩ := h2
  refine ⟨b1.trans a1, b2.trans a2, b3.trans a3, b4.trans a4, b5.trans a5, b6.trans a6,
    b7.trans a7, b8.trans a8, b9.trans a9, b10.trans a10, b11.trans a11,
    ⟨ew ++ fw, by rw [b12, a12, List.append_assoc]⟩,
    ⟨ec ++ fc, by rw [b13, a13, List.append_assoc], ?_⟩⟩
  intro c hc
  rcases List.mem_append.mp hc with h | h
  · exact a14 c h
  · exact b14 c h

theorem Worker.grown_with_cands (w v : Worker) (x : List Nat) (h : w.grown v) :
    w.grown { v with candidate_dffs := x } := h

theorem Worker.grown_LogicNot (w : Worker) (s : SigSpec) : w.grown (w.LogicNot s).1 :=
  ⟨rfl, rfl, rfl, rfl, rfl, rfl, rfl, rfl, rfl, rfl, rfl, ⟨_, rfl⟩,
    ⟨_, rfl, by intro c hc; simp at hc; rw [hc]⟩⟩

/-- A cell of `w` is found at the same position after the module has grown. -/
theorem Worker.grown_cell (w v : Worker) (h : w.grown v) (i : Nat)
    (hi : i < w.module.cells.length) : v.module.cell i = w.module.cell i := by
  obtain ⟨ec, hec, _⟩ := h.2.2.2.2.2.2.2.2.2.2.2.2
  unfold Module.cell
  rw [hec]
  exact cells_getD_append _ _ _ hi

theorem Worker.grown_length (w v : Worker) (h : w.grown v) :
    w.module.cells.length ≤ v.module.cells.length := by
  obtain ⟨ec, hec, _⟩ := h.2.2.2.2.2.2.2.2.2.2.2.2
  rw [hec]; simp

theorem chain_step_grown (st : Chain) (inv : Bool) (mux : Nat) :
    st.worker.grown (chain_step st inv mux).worker ∧
    (chain_step st inv mux).worker.candidate_dffs = st.worker.candidate_dffs := by
  cases inv
  · exact ⟨Worker.grown_refl _, rfl⟩
  · exact ⟨Worker.grown_LogicNot _ _, rfl⟩

/-- The select-chain walk only adds $logic_not cells and their output wires. -/
theorem chain_walk_grown (fuel : Nat) : ∀ (st st1 : Chain), chain_walk fuel st = some st1 →
    st.worker.grown st1.worker ∧ st1.worker.candidate_dffs = st.worker.candidate_dffs := by
  induction fuel with
  | zero => intro st st1 h; simp [chain_walk] at h
  | succ n ih =>
    intro st st1 h
    unfold chain_walk at h
    simp only [] at h
    split at h
    · simp at h
    · rename_i mux hmux
      have hg := chain_step_grown st (dict_find st.worker.mux_cells_a st.sig_data).isSome mux
      split at h
      · obtain ⟨g1, g2⟩ := ih _ _ h
        exact ⟨Worker.grown_trans _ _ _ hg.1 g1, g2.trans hg.2⟩
      · simp only [Option.some.injEq] at h
        subst h
        exact hg

theorem Worker.cell_disconnect_dff (w : Worker) (sig : SigSpec) (i : Nat)
    (hi : i < w.module.cells.length) :
    (w.disconnect_dff sig).module.cell i =
      disconnect_cell (sigmap_sig w.sigmap sig).sort_and_unify
        (w.addWire (sigmap_sig w.sigmap sig).sort_and_unify.length).2 (w.module.cell i) := by
  unfold Worker.disconnect_dff Module.cell
  simp only [Worker.addWire, List.getD_eq_getElem?_getD, List.getElem?_map]
  rw [List.getElem?_eq_getElem hi]
  rfl

theorem Worker.cells_length_disconnect_dff (w : Worker) (sig : SigSpec) :
    (w.disconnect_dff sig).module.cells.length = w.module.cells.length := by
  simp [Worker.disconnect_dff, Worker.addWire]

theorem disconnect_cell_of_ne (sig new_sig : SigSpec) (c : Cell) (h : c.type ≠ IdString.dff) :
    disconnect_cell sig new_sig c = c := by
  simp [disconnect_cell, h]

theorem Worker.cell_ReduceAnd (w : Worker) (s : SigSpec) (i : Nat)
    (hi : i < w.module.cells.length) : (w.ReduceAnd s).1.module.cell i = w.module.cell i := by
  unfold Worker.ReduceAnd Worker.addUnary Worker.addWire Module.cell
  exact cells_getD_append _ _ _ hi

theorem Worker.cells_length_ReduceAnd (w : Worker) (s : SigSpec) :
    (w.ReduceAnd s).1.module.cells.length = w.module.cells.length + 1 := by
  simp [Worker.ReduceAnd, Worker.addUnary, Worker.addWire]

/-- The cell that the last five writes of a data-register commit (lines 206-210 and
221-225) leave at the port's position. -/
theorem cell_after_rd_data_writes (u : Worker) (cell : Nat) (en data : SigSpec)
    (v1 v2 v3 : Const) (hcell : cell < u.module.cells.length) :
    (((((u.setPort cell IdString.EN en).setPort cell IdString.DATA data).setParam
      cell IdString.CLK_ENABLE v1).setParam cell IdString.CLK_POLARITY v2).setParam
      cell IdString.TRANSPARENT v3).module.cell cell =
    (((((u.module.cell cell).setPort IdString.EN en).setPort IdString.DATA data).setParam
      IdString.CLK_ENABLE v1).setParam IdString.CLK_POLARITY v2).setParam
      IdString.TRANSPARENT v3 := by
  simp [Worker.cell_setPort_same, Worker.cell_setParam_same, Worker.cells_length_setPort,
    Worker.cells_length_setParam, hcell]

/-- The cell that an address-register commit (lines 237-242) leaves at the port's
position. -/
theorem cell_after_rd_addr_writes (u : Worker) (cell : Nat) (clk en addr : SigSpec)
    (v1 v2 v3 : Const) (hcell : cell < u.module.cells.length) :
    ((((((u.setPort cell IdString.CLK clk).setPort cell IdString.EN en).setPort
      cell IdString.ADDR addr).setParam cell IdString.CLK_ENABLE v1).setParam
      cell IdString.CLK_POLARITY v2).setParam cell IdString.TRANSPARENT v3).module.cell cell =
    ((((((u.module.cell cell).setPort IdString.CLK clk).setPort IdString.EN en).setPort
      IdString.ADDR addr).setParam IdString.CLK_ENABLE v1).setParam
      IdString.CLK_POLARITY v2).setParam IdString.TRANSPARENT v3 := by
  simp [Worker.cell_setPort_same, Worker.cell_setParam_same, Worker.cells_length_setPort,
    Worker.cells_length_setParam, hcell]

/-- Writes through the port's `Cell*` leave every other cell alone. -/
theorem cell_other_after_six_writes (u : Worker) (cell j : Nat) (p1 p2 p3 : IdString)
    (s1 s2 s3 : SigSpec) (q1 q2 q3 : IdString) (v1 v2 v3 : Const) (h : j ≠ cell) :
    ((((((u.setPort cell p1 s1).setPort cell p2 s2).setPort cell p3 s3).setParam
      cell q1 v1).setParam cell q2 v2).setParam cell q3 v3).module.cell j = u.module.cell j := by
  simp [Worker.cell_setPort_other _ _ _ _ _ h, Worker.cell_setParam_other _ _ _ _ _ h]

/-- The cell at the port's position after an enable-chain commit, when the port is
no $dff. -/
theorem cell_after_commit_rd_en (v : Worker) (cell : Nat) (t : Trace) (en0 : SigSpec)
    (hcell : cell < v.module.cells.length)
    (hty : (v.module.cell cell).type ≠ IdString.dff) :
    ∃ en : SigSpec, (en0.length ≤ 1 → en = en0) ∧
    (v.commit_rd_en cell t en0).module.cell cell =
      ((((((v.module.cell cell).setPort IdString.CLK t.clk).setPort IdString.EN en).setPort
        IdString.DATA t.sig).setParam IdString.CLK_ENABLE (Const.of_int 1 32)).setParam
        IdString.CLK_POLARITY (Const.of_int (if t.clk_polarity then 1 else 0) 32)).setParam
        IdString.TRANSPARENT (Const.of_int 0 32) := by
  have h2 : cell < (v.disconnect_dff t.sig).module.cells.length := by
    rw [Worker.cells_length_disconnect_dff]; exact hcell
  have h3 : cell <
      ((v.disconnect_dff t.sig).setPort cell IdString.CLK t.clk).module.cells.length := by
    rw [Worker.cells_length_setPort]; exact h2
  have e3 : ((v.disconnect_dff t.sig).setPort cell IdString.CLK t.clk).module.cell cell =
      (v.module.cell cell).setPort IdString.CLK t.clk := by
    rw [Worker.cell_setPort_same _ _ _ _ h2, Worker.cell_disconnect_dff _ _ _ hcell,
      disconnect_cell_of_ne _ _ _ hty]
  unfold Worker.commit_rd_en
  simp only []
  by_cases hr : en0.length > 1
  · refine ⟨(((v.disconnect_dff t.sig).setPort cell IdString.CLK t.clk).ReduceAnd en0).2,
      fun h => absurd hr (Nat.not_lt.mpr h), ?_⟩
    rw [if_pos hr]
    rw [cell_after_rd_data_writes _ _ _ _ _ _ _
      (by rw [Worker.cells_length_ReduceAnd]; exact Nat.lt_succ_of_lt h3),
      Worker.cell_ReduceAnd _ _ _ h3, e3]
  · refine ⟨en0, fun _ => rfl, ?_⟩
    rw [if_neg hr]
    rw [cell_after_rd_data_writes _ _ _ _ _ _ _ h3, e3]

/-- The cell at the port's position after a direct-register commit, when the port is
no $dff. -/
theorem cell_after_commit_rd_data (v : Worker) (cell : Nat) (t : Trace)
    (hcell : cell < v.module.cells.length)
    (hty : (v.module.cell cell).type ≠ IdString.dff) :
    (v.commit_rd_data cell t).module.cell cell =
      ((((((v.module.cell cell).setPort IdString.CLK t.clk).setPort IdString.EN
        SigSpec.S1).setPort
        IdString.DATA t.sig).setParam IdString.CLK_ENABLE (Const.of_int 1 32)).setParam
        IdString.CLK_POLARITY (Const.of_int (if t.clk_polarity then 1 else 0) 32)).setParam
        IdString.TRANSPARENT (Const.of_int 0 32) := by
  have h2 : cell < (v.disconnect_dff t.sig).module.cells.length := by
    rw [Worker.cells_length_disconnect_dff]; exact hcell
  have h3 : cell <
      ((v.disconnect_dff t.sig).setPort cell IdString.CLK t.clk).module.cells.length := by
    rw [Worker.cells_length_setPort]; exact h2
  have e3 : ((v.disconnect_dff t.sig).setPort cell IdString.CLK t.clk).module.cell cell =
      (v.module.cell cell).setPort IdString.CLK t.clk := by
    rw [Worker.cell_setPort_same _ _ _ _ h2, Worker.cell_disconnect_dff _ _ _ hcell,
      disconnect_cell_of_ne _ _ _ hty]
  unfold Worker.commit_rd_data
  simp only []
  rw [cell_after_rd_data_writes _ _ _ _ _ _ _ h3, e3]

/-- The shape of every return of handle_rd_cell: either the data strategies did not
commit, and the result is that of the address strategy on a worker that differs from
the initial one by added $logic_not cells (and candidate_dffs); or one of them
committed on such a worker. -/
theorem handle_rd_cell_cases (fuel : Nat) (w : Worker) (cell : Nat) (w1 : Worker)
    (log : LogMsg) (h : w.handle_rd_cell fuel cell = some (w1, log)) :
    (∃ v pol, w.grown v ∧ (w1, log) = v.rd_addr cell pol) ∨
    (∃ v t en, w.grown v ∧ log = LogMsg.merged_rd_en ∧ w1 = v.commit_rd_en cell t en) ∨
    (∃ v t, w.grown v ∧ log = LogMsg.merged_data ∧ w1 = v.commit_rd_data cell t) := by
  unfold Worker.handle_rd_cell at h
  simp only [] at h
  split at h
  · simp only [Option.some.injEq] at h
    exact Or.inl ⟨w, false, Worker.grown_refl w, h.symm⟩
  · split at h
    · split at h
      · simp at h
      · rename_i st hst
        have hg := (chain_walk_grown fuel _ _ hst).1
        split at h
        · simp only [Option.some.injEq] at h
          exact Or.inl ⟨st.worker, false, hg, h.symm⟩
        · split at h
          · simp only [Option.some.injEq, Prod.mk.injEq] at h
            exact Or.inr (Or.inl ⟨_, _, _, Worker.grown_with_cands _ _ _ hg, h.2.symm, h.1.symm⟩)
          · simp only [Option.some.injEq] at h
            exact Or.inl ⟨_, _, Worker.grown_with_cands _ _ _ hg, h.symm⟩
    · split at h
      · simp only [Option.some.injEq, Prod.mk.injEq] at h
        exact Or.inr (Or.inr ⟨_, _, Worker.grown_with_cands _ _ _ (Worker.grown_refl w),
          h.2.symm, h.1.symm⟩)
      · simp only [Option.some.injEq] at h
        exact Or.inl ⟨_, _, Worker.grown_with_cands _ _ _ (Worker.grown_refl w), h.symm⟩

/-- The address-register strategy either leaves the module as it is or commits at
the port's position only. -/
theorem rd_addr_cases (v : Worker) (cell : Nat) (pol : Bool) :
    ((v.rd_addr cell pol).2 = LogMsg.no_dff ∧ (v.rd_addr cell pol).1.module = v.module ∧
      (v.rd_addr cell pol).1.forward_merged_dffs = v.forward_merged_dffs ∧
      ¬ ((v.find_sig_before_dff ((v.module.cell cell).getPort IdString.ADDR)
          SigSpec.Sx pol false).ok = true ∧
        (v.find_sig_before_dff ((v.module.cell cell).getPort IdString.ADDR)
          SigSpec.Sx pol false).clk ≠ SigSpec.Sx)) ∨
    ((v.rd_addr cell pol).2 = LogMsg.merged_addr ∧
      (v.find_sig_before_dff ((v.module.cell cell).getPort IdString.ADDR)
        SigSpec.Sx pol false).ok = true ∧
      (v.find_sig_before_dff ((v.module.cell cell).getPort IdString.ADDR)
        SigSpec.Sx pol false).clk ≠ SigSpec.Sx ∧
      (v.rd_addr cell pol).1.forward_merged_dffs = v.forward_merged_dffs ∧
      (v.rd_addr cell pol).1.module.wires = v.module.wires ∧
      (v.rd_addr cell pol).1.module.cells.length = v.module.cells.length ∧
      (∀ j, j ≠ cell → (v.rd_addr cell pol).1.module.cell j = v.module.cell j) ∧
      (cell < v.module.cells.length →
        (v.rd_addr cell pol).1.module.cell cell =
          ((((((v.module.cell cell).setPort IdString.CLK
            (v.find_sig_before_dff ((v.module.cell cell).getPort IdString.ADDR)
              SigSpec.Sx pol false).clk).setPort IdString.EN SigSpec.S1).setPort IdString.ADDR
            (v.find_sig_before_dff ((v.module.cell cell).getPort IdString.ADDR)
              SigSpec.Sx pol false).sig).setParam IdString.CLK_ENABLE
            (Const.of_int 1 32)).setParam IdString.CLK_POLARITY
            (Const.of_int
              (if (v.find_sig_before_dff ((v.module.cell cell).getPort IdString.ADDR)
                SigSpec.Sx pol false).clk_polarity then 1 else 0) 32)).setParam
            IdString.TRANSPARENT (Const.of_int 1 32))) := by
  unfold Worker.rd_addr
  simp only []
  split
  · rename_i h
    right
    refine ⟨rfl, h.1, h.2, rfl, ?_, ?_, ?_, ?_⟩
    · simp [Worker.setPort, Worker.setParam]
    · simp [Worker.cells_length_setPort, Worker.cells_length_setParam]
    · intro j hj
      exact cell_other_after_six_writes _ _ _ _ _ _ _ _ _ _ _ _ _ _ _ hj
    · intro hcell
      exact cell_after_rd_addr_writes
        { v with candidate_dffs := (v.find_sig_before_dff
          ((v.module.cell cell).getPort IdString.ADDR) SigSpec.Sx pol false).candidate_dffs }
        _ _ _ _ _ _ _ hcell
  · rename_i h
    left
    exact ⟨rfl, rfl, rfl, h⟩

/-! ## C3: clock consistency and the x marker -/

/-- C3, the code at the failing input `ex_wr_xclk`: handle_wr_cell merges the write port,
both registers are in candidate_dffs and supplied the two ADDR bits, yet register 0 has
clock x / falling edge and register 1 has clock clk / rising edge; the port gets
CLK = clk and CLK_POLARITY = 1, which is not the clock of register 0. -/
theorem handle_wr_cell_x_clock_mix :
    ((Worker.new ex_wr_xclk).build_index.handle_wr_cell 2).2 = LogMsg.merged ∧
    ((Worker.new ex_wr_xclk).build_index.handle_wr_cell 2).1.candidate_dffs = [0, 1] ∧
    (((Worker.new ex_wr_xclk).build_index.handle_wr_cell 2).1.module.cell 2).getPort
      IdString.ADDR = [SigBit.wire 1 0, SigBit.wire 3 0] ∧
    (Worker.new ex_wr_xclk).build_index.dff_clock 0 = (SigSpec.Sx, false) ∧
    (Worker.new ex_wr_xclk).build_index.dff_clock 1 = (bit1 0, true) ∧
    (((Worker.new ex_wr_xclk).build_index.handle_wr_cell 2).1.module.cell 2).getPort
      IdString.CLK = bit1 0 ∧
    ((((Worker.new ex_wr_xclk).build_index.handle_wr_cell 2).1.module.cell 2).getParam
      IdString.CLK_POLARITY).as_bool = true := by
  decide

/-! ## C4: init-value protection -/

/-- C4, the code at the failing input `ex_rd_init_alias`: init_bits holds the canonical
bit q; the post trace of the read port's DATA returns true with the result bit
q_alias, whose canonical representative q is in init_bits, and handle_rd_cell commits
the direct-register merge with DATA = q_alias.  With the same register naming q
itself (`ex_rd_init`) the trace returns false. -/
theorem post_trace_misses_init_alias :
    (Worker.new ex_rd_init_alias).build_index.init_bits = [SigBit.wire 3 0] ∧
    ((Worker.new ex_rd_init_alias).build_index.find_sig_before_dff (bit1 2) SigSpec.Sx false
      true).ok = true ∧
    ((Worker.new ex_rd_init_alias).build_index.find_sig_before_dff (bit1 2) SigSpec.Sx false
      true).sig = [SigBit.wire 4 0] ∧
    sigmap_bit (Worker.new ex_rd_init_alias).build_index.sigmap (SigBit.wire 4 0)
      ∈ (Worker.new ex_rd_init_alias).build_index.init_bits ∧
    (((Worker.new ex_rd_init_alias).build_index.handle_rd_cell 1 1).map fun r =>
      (r.2, (r.1.module.cell 1).getPort IdString.DATA))
      = some (LogMsg.merged_data, [SigBit.wire 4 0]) ∧
    ((Worker.new ex_rd_init).build_index.find_sig_before_dff (bit1 2) SigSpec.Sx false
      true).ok = false := by
  decide

/-! ## Lemma on candidate_dffs -/

/-- Every cell in candidate_dffs after a trace was there before or was selected by
the search for one of the bits. -/
theorem trace_bits_candidates (w : Worker) (after : Bool) (bits : List SigBit) :
    ∀ (clk : SigSpec) (pol : Bool) (cands : List Nat) (x : Nat),
    x ∈ (w.trace_bits after bits clk pol cands).candidate_dffs →
    x ∈ cands ∨ ∃ bit clk0 pol0 d clk1 pol1,
      w.scan_dffs after bit clk0 pol0 w.dff_cells = Scan.replaced x d clk1 pol1 := by
  induction bits with
  | nil => intro clk pol cands x h; exact Or.inl h
  | cons b rest ih =>
    intro clk pol cands x h
    unfold Worker.trace_bits at h
    cases b with
    | const s => exact ih _ _ _ _ h
    | wire i o =>
      simp only [] at h
      split at h
      · exact Or.inl h
      · split at h
        · rename_i c d clk1 pol1 hs
          rcases ih _ _ _ _ h with h1 | h1
          · rcases (mem_pool_insert _ _ _).mp h1 with h2 | h2
            · exact Or.inl h2
            · subst h2
              exact Or.inr ⟨_, _, _, _, _, _, hs⟩
          · exact Or.inr h1
        · exact Or.inl h

/-! ## C5: forward-consumed registers -/

/-- C5 (amended): a post trace never selects a cell of forward_merged_dffs: the
search for a bit never returns one, and every cell a post trace adds to
candidate_dffs is outside forward_merged_dffs; handle_wr_cell never removes a cell
from forward_merged_dffs and handle_rd_cell leaves the set as it is, so the exclusion
lasts for the rest of the run.  (Pre traces do not consult the set.) -/
theorem post_trace_skips_forward_merged :
    (∀ (w : Worker) (bit : SigBit) (clk : SigSpec) (pol : Bool) (c : Nat) (d : SigBit)
        (clk1 : SigSpec) (pol1 : Bool),
      w.scan_dffs true bit clk pol w.dff_cells = Scan.replaced c d clk1 pol1 →
      c ∉ w.forward_merged_dffs) ∧
    (∀ (w : Worker) (sig clk : SigSpec) (pol : Bool) (c : Nat),
      c ∈ (w.find_sig_before_dff sig clk pol true).candidate_dffs →
      c ∈ w.candidate_dffs ∨ c ∉ w.forward_merged_dffs) ∧
    (∀ (w : Worker) (cell c : Nat),
      c ∈ w.forward_merged_dffs → c ∈ (w.handle_wr_cell cell).1.forward_merged_dffs) ∧
    (∀ (fuel : Nat) (w : Worker) (cell : Nat) (w1 : Worker) (log : LogMsg),
      w.handle_rd_cell fuel cell = some (w1, log) →
      w1.forward_merged_dffs = w.forward_merged_dffs) := by
  refine ⟨?_, ?_, ?_, ?_⟩
  · intro w bit clk pol c d clk1 pol1 h
    exact (scan_dffs_replaced w true bit clk pol _ c d clk1 pol1 h).2.1 rfl
  · intro w sig clk pol c h
    rcases trace_bits_candidates w true _ _ _ _ c h with h1 | ⟨bit, clk0, pol0, d, clk1, pol1, h1⟩
    · exact Or.inl h1
    · exact Or.inr ((scan_dffs_replaced w true bit clk0 pol0 _ c d clk1 pol1 h1).2.1 rfl)
  · intro w cell c hc
    rw [handle_wr_cell_eq w cell _ _ _ rfl rfl rfl]
    split
    · exact hc
    · split
      · exact hc
      · split
        · exact hc
        · split
          · show c ∈ List.foldl pool_insert w.forward_merged_dffs _
            rw [mem_foldl_pool_insert]
            exact Or.inl hc
          · exact hc
  · intro fuel w cell w1 log h
    rcases handle_rd_cell_cases fuel w cell w1 log h with
      ⟨v, pol, hg, he⟩ | ⟨v, t, en, hg, _, he⟩ | ⟨v, t, hg, _, he⟩
    · have e1 : w1 = (v.rd_addr cell pol).1 := congrArg Prod.fst he
      rw [e1]
      rcases rd_addr_cases v cell pol with ⟨_, _, hf, _⟩ | ⟨_, _, _, hf, _⟩
      · rw [hf]; exact hg.2.2.2.2.2.2.1
      · rw [hf]; exact hg.2.2.2.2.2.2.1
    · rw [he]
      have : (v.commit_rd_en cell t en).forward_merged_dffs = v.forward_merged_dffs := by
        unfold Worker.commit_rd_en
        simp only []
        split <;> rfl
      rw [this]; exact hg.2.2.2.2.2.2.1
    · rw [he]
      exact hg.2.2.2.2.2.2.1

/-- C5, witness: in `ex_fm` the write port, cell 2, is merged with register 0, which
is in forward_merged_dffs afterwards.  In that state register 0 still offers the bit
nd of the read port's DATA in its D, and it is the first cell of dff_cells; the
search of the post trace skips it and selects register 1, which is not in
forward_merged_dffs; the post trace of DATA returns q1. -/
theorem post_trace_skips_forward_merged_witness :
    ((Worker.new ex_fm).build_index.handle_wr_cell 2).2 = LogMsg.merged ∧
    ((Worker.new ex_fm).build_index.handle_wr_cell 2).1.forward_merged_dffs = [0] ∧
    ((Worker.new ex_fm).build_index.handle_wr_cell 2).1.dff_cells = [0, 1] ∧
    ((Worker.new ex_fm).build_index.handle_wr_cell 2).1.dff_extract true 0 (SigBit.wire 1 0)
      = [SigBit.wire 2 0] ∧
    ((Worker.new ex_fm).build_index.handle_wr_cell 2).1.scan_dffs true (SigBit.wire 1 0)
        SigSpec.Sx false ((Worker.new ex_fm).build_index.handle_wr_cell 2).1.dff_cells
      = Scan.replaced 1 (SigBit.wire 3 0) (bit1 0) true ∧
    1 ∉ ((Worker.new ex_fm).build_index.handle_wr_cell 2).1.forward_merged_dffs ∧
    (((Worker.new ex_fm).build_index.handle_wr_cell 2).1.find_sig_before_dff (bit1 1)
      SigSpec.Sx false true).sig = [SigBit.wire 3 0] :=
  ⟨by decide, by decide, by decide, by decide, by decide,
    post_trace_skips_forward_merged.1 ((Worker.new ex_fm).build_index.handle_wr_cell 2).1
      (SigBit.wire 1 0) SigSpec.Sx false 1 (SigBit.wire 3 0) (bit1 0) true (by decide),
    by decide⟩

/-- C5, counterexample to the claim as stated: in `ex_wr_shared` the first write port
merges register 0 and inserts it into forward_merged_dffs; the pre trace for the ADDR
of the second write port then selects the same register 0, and the second port is
merged with it as well; one run of the pass merges both ports. -/
theorem pre_trace_selects_forward_merged :
    ((Worker.new ex_wr_shared).build_index.handle_wr_cell 1).2 = LogMsg.merged ∧
    0 ∈ ((Worker.new ex_wr_shared).build_index.handle_wr_cell 1).1.forward_merged_dffs ∧
    ((Worker.new ex_wr_shared).build_index.handle_wr_cell 1).1.scan_dffs false
        (SigBit.wire 2 0) SigSpec.Sx false
        ((Worker.new ex_wr_shared).build_index.handle_wr_cell 1).1.dff_cells
      = Scan.replaced 0 (SigBit.wire 1 0) (bit1 0) true ∧
    ((((Worker.new ex_wr_shared).build_index.handle_wr_cell 1).1.handle_wr_cell 2).2
      = LogMsg.merged) ∧
    ((((Worker.new ex_wr_shared).build_index.handle_wr_cell 1).1.handle_wr_cell 2).1.candidate_dffs
      = [0]) ∧
    ((memory_dff 1 false ex_wr_shared).map fun m =>
        (((m.cell 1).getParam IdString.CLK_ENABLE).as_bool, (m.cell 1).getPort IdString.ADDR,
         ((m.cell 2).getParam IdString.CLK_ENABLE).as_bool, (m.cell 2).getPort IdString.ADDR))
      = some (true, bit1 1, true, bit1 1) := by
  decide

/-! ## C6: shared data signals -/

/-- C6: if some canonical bit of the read port's DATA has more than one user in
sigbit_users_count, handle_rd_cell returns (for every fuel) without committing a
data-register strategy: the diagnostic is that of the address strategy, no wire or
cell is added, every other cell is as before, no cell's Q and not the port's DATA
changes, and the port is either as before or carries the address-register commit
with TRANSPARENT = 1. -/
theorem shared_data_blocks_data_merge (fuel : Nat) (w : Worker) (cell : Nat)
    (hcell : cell < w.module.cells.length)
    (h : ∃ bit ∈ sigmap_sig w.sigmap ((w.module.cell cell).getPort IdString.DATA),
      w.users bit > 1) :
    ∃ w1 log, w.handle_rd_cell fuel cell = some (w1, log) ∧
      (log = LogMsg.merged_addr ∨ log = LogMsg.no_dff) ∧
      w1.module.wires = w.module.wires ∧
      w1.module.cells.length = w.module.cells.length ∧
      (∀ j, j ≠ cell → w1.module.cell j = w.module.cell j) ∧
      (∀ j, (w1.module.cell j).getPort IdString.Q = (w.module.cell j).getPort IdString.Q) ∧
      (w1.module.cell cell).getPort IdString.DATA
        = (w.module.cell cell).getPort IdString.DATA ∧
      (w1.module.cell cell = w.module.cell cell ∨
        (log = LogMsg.merged_addr ∧
          (w1.module.cell cell).getParam IdString.TRANSPARENT = Const.of_int 1 32 ∧
          ∃ clk addr pol, w1.module.cell cell =
            ((((((w.module.cell cell).setPort IdString.CLK clk).setPort IdString.EN
              SigSpec.S1).setPort IdString.ADDR addr).setParam IdString.CLK_ENABLE
              (Const.of_int 1 32)).setParam IdString.CLK_POLARITY pol).setParam
              IdString.TRANSPARENT (Const.of_int 1 32))) := by
  have hany : (sigmap_sig w.sigmap ((w.module.cell cell).getPort IdString.DATA)).any
      (fun bit => decide (w.users bit > 1)) = true := by
    obtain ⟨bit, hb, hu⟩ := h
    rw [List.any_eq_true]
    exact ⟨bit, hb, by simpa using hu⟩
  refine ⟨(w.rd_addr cell false).1, (w.rd_addr cell false).2, ?_, ?_⟩
  · unfold Worker.handle_rd_cell
    simp only [hany, if_true]
  · rcases rd_addr_cases w cell false with ⟨hl, hm, _, _⟩ | ⟨hl, _, _, _, hw, hn, ho, hc⟩
    · rw [hm]
      exact ⟨Or.inr hl, rfl, rfl, fun _ _ => rfl, fun _ => rfl, rfl, Or.inl rfl⟩
    · refine ⟨Or.inl hl, hw, hn, ho, ?_, ?_, Or.inr ⟨hl, ?_, _, _, _, hc hcell⟩⟩
      · intro j
        by_cases hj : j = cell
        · subst hj
          rw [hc hcell]
          simp [Cell.getPort_setParam, Cell.getPort_setPort_other]
        · rw [ho j hj]
      · rw [hc hcell]
        simp [Cell.getPort_setParam, Cell.getPort_setPort_other]
      · rw [hc hcell]
        simp [Cell.getParam_setParam_same]

/-- C6, witness: in `ex_rd_shared` the read port's DATA bit nd has two users (the data
register and the inverter); handle_rd_cell commits the address register only, with
TRANSPARENT = 1, and the data register keeps its Q. -/
theorem shared_data_blocks_data_merge_witness :
    ∃ w1 log, (Worker.new ex_rd_shared).build_index.handle_rd_cell 0 3 = some (w1, log) ∧
      (log = LogMsg.merged_addr ∨ log = LogMsg.no_dff) ∧
      (w1.module.cell 1).getPort IdString.Q = bit1 4 ∧
      (w1.module.cell 3).getPort IdString.DATA = bit1 3 :=
  have h := shared_data_blocks_data_merge 0 (Worker.new ex_rd_shared).build_index 3 (by decide)
    ⟨SigBit.wire 3 0, by decide, by decide⟩
  match h with
  | ⟨w1, log, h1, h2, _, _, _, h6, h7, _⟩ => ⟨w1, log, h1, h2, h6 1, h7⟩

/-! ## C7 and C8: what a failed enable-chain attempt leaves behind -/

/-- C7, the code at the failing input `ex_rd_mux_fail`: the first run of the pass leaves
the read port asynchronous and returns a module of 4 cells and 8 wires; running the
pass on that module returns a module of 5 cells and 9 wires, so the second run does
not reproduce the result of the first. -/
theorem second_run_adds_cells :
    ex_rd_mux_fail.cells.length = 3 ∧
    ((memory_dff 1 false ex_rd_mux_fail).map fun m =>
      (m.cells.length, m.wires.length, ((m.cell 0).getParam IdString.CLK_ENABLE).as_bool))
      = some (4, 8, false) ∧
    (((memory_dff 1 false ex_rd_mux_fail).bind (memory_dff 1 false)).map fun m =>
      (m.cells.length, m.wires.length, ((m.cell 0).getParam IdString.CLK_ENABLE).as_bool))
      = some (5, 9, false) ∧
    (memory_dff 1 false ex_rd_mux_fail).bind (memory_dff 1 false)
      ≠ memory_dff 1 false ex_rd_mux_fail := by
  decide

/-- C8, the code at the failing input `ex_rd_mux_fail`: handle_rd_cell commits nothing for
the read port (it prints "no (compatible) $dff found." and the port's cell is as
before), yet the module has gained the wire 7 and, as cell 3, a $logic_not cell that
inverts the select input s. -/
theorem failed_chain_leaves_logic_not :
    ((Worker.new ex_rd_mux_fail).build_index.handle_rd_cell 1 0).map (fun r => r.2)
      = some LogMsg.no_dff ∧
    ((Worker.new ex_rd_mux_fail).build_index.handle_rd_cell 1 0).map
        (fun r => r.1.module.cell 0) = some (ex_rd_mux_fail.cell 0) ∧
    ex_rd_mux_fail.cells.length = 3 ∧ ex_rd_mux_fail.wires.length = 7 ∧
    ((Worker.new ex_rd_mux_fail).build_index.handle_rd_cell 1 0).map
        (fun r => (r.1.module.cells.length, r.1.module.wires.length)) = some (4, 8) ∧
    ((Worker.new ex_rd_mux_fail).build_index.handle_rd_cell 1 0).map
        (fun r => ((r.1.module.cell 3).type, (r.1.module.cell 3).getPort IdString.A,
          (r.1.module.cell 3).getPort IdString.Y))
      = some (IdString.logic_not, bit1 4, bit1 7) ∧
    ((Worker.new ex_rd_mux_fail).build_index.handle_rd_cell 1 0).map (fun r => r.1.module)
      ≠ some ex_rd_mux_fail := by
  decide

/-! ## Lemmas for the address-register strategy -/

/-- The return value and the by-reference results of a trace do not depend on the
initial content of candidate_dffs. -/
theorem trace_bits_cands (w : Worker) (after : Bool) (bits : List SigBit) :
    ∀ (clk : SigSpec) (pol : Bool) (c1 c2 : List Nat),
    (w.trace_bits after bits clk pol c1).ok = (w.trace_bits after bits clk pol c2).ok ∧
    (w.trace_bits after bits clk pol c1).sig = (w.trace_bits after bits clk pol c2).sig ∧
    (w.trace_bits after bits clk pol c1).clk = (w.trace_bits after bits clk pol c2).clk ∧
    (w.trace_bits after bits clk pol c1).clk_polarity
      = (w.trace_bits after bits clk pol c2).clk_polarity := by
  induction bits with
  | nil => intro clk pol c1 c2; exact ⟨rfl, rfl, rfl, rfl⟩
  | cons b rest ih =>
    intro clk pol c1 c2
    cases b with
    | const s =>
      obtain ⟨h1, h2, h3, h4⟩ := ih clk pol c1 c2
      unfold Worker.trace_bits
      exact ⟨h1, by simp only [h2], h3, h4⟩
    | wire i o =>
      unfold Worker.trace_bits
      simp only []
      split
      · exact ⟨rfl, rfl, rfl, rfl⟩
      · split
        · rename_i c d clk1 pol1 _
          obtain ⟨h1, h2, h3, h4⟩ := ih clk1 pol1 (pool_insert c1 c) (pool_insert c2 c)
          exact ⟨h1, by simp only [h2], h3, h4⟩
        · exact ⟨rfl, rfl, rfl, rfl⟩

theorem Worker.grown_new_cell_type (w v : Worker) (h : w.grown v) (j : Nat)
    (hj : w.module.cells.length ≤ j) : (v.module.cell j).type ≠ IdString.dff := by
  obtain ⟨ec, hec, hty⟩ := h.2.2.2.2.2.2.2.2.2.2.2.2
  unfold Module.cell
  rw [hec, List.getD_eq_getElem?_getD, List.getElem?_append_right hj]
  cases hx : ec[j - w.module.cells.length]? with
  | none => simp [default]
  | some c =>
    have hm : c ∈ ec := List.getElem?_mem hx
    simp [hty c hm]

/-! ## The address-register strategy after a return -/

theorem extract_cons (a : SigBit) (l : SigSpec) (x : SigBit) (o : SigSpec) (b : SigBit) :
    SigSpec.extract (a :: l) b (x :: o) =
      (if a.is_wire = true ∧ a = b then [x] else []) ++ SigSpec.extract l b o := by
  unfold SigSpec.extract
  cases a with
  | const s => simp [SigBit.is_wire]
  | wire i k =>
    by_cases h : SigBit.wire i k = b
    · subst h
      simp [SigBit.is_wire]
    · simp [SigBit.is_wire, h]

/-- In a signal of pairwise distinct wire bits, the lanes equal to the bit of one lane
are that lane alone. -/
theorem extract_zip (l o : SigSpec) (hnd : l.Nodup) (hw : ∀ b ∈ l, b.is_wire = true) :
    ∀ p ∈ l.zip o, l.extract p.1 o = [p.2] := by
  induction l generalizing o with
  | nil => intro p hp; simp at hp
  | cons a l ih =>
    cases o with
    | nil => intro p hp; simp at hp
    | cons x o =>
      intro p hp
      have hal : a ∉ l := (List.nodup_cons.mp hnd).1
      have hndl : l.Nodup := (List.nodup_cons.mp hnd).2
      rw [List.zip_cons_cons, List.mem_cons] at hp
      rw [extract_cons]
      rcases hp with hp | hp
      · subst hp
        have : a.is_wire = true ∧ a = a := ⟨hw a (List.mem_cons_self _ _), rfl⟩
        rw [if_pos this, extract_of_not_mem l a o hal]
        rfl
      · have hpl : p.1 ∈ l := (List.of_mem_zip hp).1
        have hne : ¬ (a.is_wire = true ∧ a = p.1) := fun h => hal (h.2 ▸ hpl)
        rw [if_neg hne]
        exact ih o hndl (fun b hb => hw b (List.mem_cons_of_mem _ hb)) p hp

theorem map_eq_of_zip (f : SigBit → SigBit) (l o : SigSpec) (hlen : l.length = o.length)
    (h : ∀ p ∈ l.zip o, f p.1 = p.2) : l.map f = o := by
  induction l generalizing o with
  | nil =>
    cases o with
    | nil => rfl
    | cons x o => simp at hlen
  | cons a l ih =>
    cases o with
    | nil => simp at hlen
    | cons x o =>
      simp only [List.map_cons, List.cons.injEq]
      refine ⟨h (a, x) (by simp), ih o (by simpa using hlen) ?_⟩
      intro p hp
      exact h p (by simp [hp])

theorem mem_zip_of_mem (l o : SigSpec) (hlen : l.length = o.length) (b : SigBit)
    (hb : b ∈ l) : ∃ x, (b, x) ∈ l.zip o := by
  induction l generalizing o with
  | nil => simp at hb
  | cons a l ih =>
    cases o with
    | nil => simp at hlen
    | cons x o =>
      rcases List.mem_cons.mp hb with h | h
      · exact ⟨x, by simp [h]⟩
      · obtain ⟨y, hy⟩ := ih o (by simpa using hlen) h
        exact ⟨y, by simp [hy]⟩

theorem mem_unique_bits (l : List SigBit) (b : SigBit) : b ∈ unique_bits l ↔ b ∈ l := by
  induction l with
  | nil => simp [unique_bits]
  | cons a t ih =>
    cases t with
    | nil => simp [unique_bits]
    | cons c r =>
      unfold unique_bits
      split
      · rename_i hac
        subst hac
        rw [ih]
        simp
      · rw [List.mem_cons, ih, List.mem_cons]
        simp

theorem mem_sort_and_unify (s : SigSpec) (b : SigBit) : b ∈ s.sort_and_unify ↔ b ∈ s := by
  unfold SigSpec.sort_and_unify
  rw [mem_unique_bits]
  exact (List.perm_insertionSort _ s).mem_iff

/-- After `replace`, a signal whose bits are all wire bits of the pattern consists of
bits of the replacement only. -/
theorem replace_all_in (W : List SigBit) (ps : List (SigBit × SigBit)) :
    ∀ (acc : SigSpec), (∀ p ∈ ps, p.2 ∈ W) →
    (∀ b ∈ acc, b ∈ W ∨ (b.is_wire = true ∧ b ∈ ps.map Prod.fst)) →
    ∀ b ∈ ps.foldl
        (fun acc p =>
          match p.1 with
          | SigBit.const _ => acc
          | SigBit.wire _ _ => acc.map fun b => if b = p.1 then p.2 else b)
        acc,
      b ∈ W := by
  induction ps with
  | nil =>
    intro acc _ h b hb
    rcases h b hb with h1 | ⟨_, h1⟩
    · exact h1
    · simp at h1
  | cons p rest ih =>
    intro acc hW h b hb
    rw [List.foldl_cons] at hb
    have hp2 : p.2 ∈ W := hW p (List.mem_cons_self _ _)
    refine ih _ (fun q hq => hW q (List.mem_cons_of_mem _ hq)) ?_ b hb
    intro b1 hb1
    cases hp : p.1 with
    | const s =>
      rw [hp] at hb1
      rcases h b1 hb1 with h1 | ⟨h1, h2⟩
      · exact Or.inl h1
      · rw [List.map_cons, List.mem_cons] at h2
        rcases h2 with h3 | h3
        · rw [h3, hp] at h1
          simp [SigBit.is_wire] at h1
        · exact Or.inr ⟨h1, h3⟩
    | wire i k =>
      rw [hp] at hb1
      simp only [List.mem_map] at hb1
      obtain ⟨b0, hb0, hb01⟩ := hb1
      by_cases e : b0 = SigBit.wire i k
      · rw [if_pos e] at hb01
        exact Or.inl (hb01 ▸ hp2)
      · rw [if_neg e] at hb01
        subst hb01
        rcases h b0 hb0 with h1 | ⟨h1, h2⟩
        · exact Or.inl h1
        · rw [List.map_cons, List.mem_cons] at h2
          rcases h2 with h3 | h3
          · exact absurd (h3.trans hp) e
          · exact Or.inr ⟨h1, h3⟩

theorem length_replace (self pattern with_ : SigSpec) :
    (self.replace pattern with_).length = self.length := by
  unfold SigSpec.replace
  generalize pattern.zip with_ = ps
  induction ps generalizing self with
  | nil => rfl
  | cons p rest ih =>
    rw [List.foldl_cons, ih]
    cases p.1 <;> simp

/-- Replacing a pattern that covers all bits of a signal of wire bits by the bits of
a wire yields bits of that wire only. -/
theorem replace_covered (self pattern with_ : SigSpec) (hlen : pattern.length = with_.length)
    (hw : ∀ b ∈ self, b.is_wire = true ∧ b ∈ pattern) :
    ∀ b ∈ self.replace pattern with_, b ∈ with_ := by
  unfold SigSpec.replace
  refine replace_all_in with_ (pattern.zip with_) self ?_ ?_
  · intro p hp
    exact (List.of_mem_zip hp).2
  · intro b hb
    obtain ⟨h1, h2⟩ := hw b hb
    obtain ⟨x, hx⟩ := mem_zip_of_mem pattern with_ hlen b h2
    exact Or.inr ⟨h1, List.mem_map.mpr ⟨(b, x), hx, rfl⟩⟩

/-! ## Lemmas for the enable-chain strategy -/

/-- The post trace of a signal that is, lane by lane, the canonical D of one eligible
register, and of no other register, returns that register's Q and clock. -/
theorem post_trace_register (w : Worker) (r : Nat) (Yc keep c : SigSpec) (p : Bool)
    (cands : List Nat)
    (hrm : r ∈ w.dff_cells) (hnf : r ∉ w.forward_merged_dffs)
    (hD : sigmap_sig w.sigmap ((w.module.cell r).getPort IdString.D) = Yc)
    (hQ : (w.module.cell r).getPort IdString.Q = keep)
    (hYw : ∀ b ∈ Yc, b.is_wire = true) (hYnd : Yc.Nodup) (hYne : Yc ≠ [])
    (hlen : keep.length = Yc.length)
    (hkinit : ∀ b ∈ keep, b ∉ w.init_bits)
    (hother : ∀ r1 ∈ w.dff_cells, r1 ≠ r → ∀ b ∈ Yc,
      b ∉ sigmap_sig w.sigmap ((w.module.cell r1).getPort IdString.D))
    (hclk : w.dff_clock r = (c, p)) :
    (w.trace_bits true Yc SigSpec.Sx false cands).ok = true ∧
    (w.trace_bits true Yc SigSpec.Sx false cands).sig = keep ∧
    (w.trace_bits true Yc SigSpec.Sx false cands).clk = c ∧
    (w.trace_bits true Yc SigSpec.Sx false cands).clk_polarity = p := by
  have hext : ∀ b, w.dff_extract true r b = Yc.extract b keep := by
    intro b
    simp only [Worker.dff_extract, if_true, hD, hQ]
  have hzip : ∀ q ∈ Yc.zip keep, w.dff_extract true r q.1 = [q.2] := by
    intro q hq
    rw [hext]
    exact extract_zip Yc keep hYnd hYw q hq
  obtain ⟨t1, t2, t3, _, _⟩ := trace_bits_found w true (fun _ => r)
    (fun b => ((w.dff_extract true r b).head?).getD b) c p Yc SigSpec.Sx false cands
    (Or.inl rfl) (by
      intro b hb
      obtain ⟨x, hx⟩ := mem_zip_of_mem Yc keep hlen.symm b hb
      have hbx := hzip (b, x) hx
      have hxk : x ∈ keep := (List.of_mem_zip hx).2
      refine ⟨hYw b hb, fun h => absurd h (by decide), hrm, fun _ => hnf, hclk, ?_, ?_, ?_⟩
      · simp only [] at hbx
        simp only [hbx, List.head?_cons, Option.getD_some]
      · intro _
        simp only [] at hbx
        simp only [hbx, List.head?_cons, Option.getD_some]
        exact hkinit x hxk
      · intro r1 hr1 hne
        have := extract_of_not_mem _ b ((w.module.cell r1).getPort IdString.Q)
          (hother r1 hr1 hne b hb)
        simp [Worker.dff_extract, this])
  refine ⟨t1, ?_, (t3 hYne).1, (t3 hYne).2⟩
  rw [t2]
  refine map_eq_of_zip _ Yc keep hlen.symm ?_
  intro q hq
  simp only [hzip q hq, List.head?_cons, Option.getD_some]

/-- A commit of the enable-chain strategy changes a cell other than the port only
through disconnect_dff. -/
theorem cell_other_after_commit_rd_en (v : Worker) (cell j : Nat) (t : Trace) (en : SigSpec)
    (hj : j ≠ cell) (hlt : j < v.module.cells.length) :
    (v.commit_rd_en cell t en).module.cell j =
      disconnect_cell (sigmap_sig v.sigmap t.sig).sort_and_unify
        (v.addWire (sigmap_sig v.sigmap t.sig).sort_and_unify.length).2 (v.module.cell j) := by
  have h2 : j < (v.disconnect_dff t.sig).module.cells.length := by
    rw [Worker.cells_length_disconnect_dff]; exact hlt
  have h3 : j < ((v.disconnect_dff t.sig).setPort cell IdString.CLK t.clk).module.cells.length := by
    rw [Worker.cells_length_setPort]; exact h2
  unfold Worker.commit_rd_en
  simp only [Worker.cell_setParam_other _ _ _ _ _ hj, Worker.cell_setPort_other _ _ _ _ _ hj]
  split
  · rw [Worker.cell_ReduceAnd _ _ _ h3, Worker.cell_setPort_other _ _ _ _ _ hj,
      Worker.cell_disconnect_dff _ _ _ hlt]
  · rw [Worker.cell_setPort_other _ _ _ _ _ hj, Worker.cell_disconnect_dff _ _ _ hlt]

theorem Worker.grown_users (w v : Worker) (h : w.grown v) (b : SigBit) :
    v.users b = w.users b := by
  unfold Worker.users
  rw [h.2.2.2.1]

/-- The enable-chain strategy once the select chain has been walked: if the walk ends
in the worker `v` with the signal `Yc`, the enable `en` (at most one bit) and the one
keep side `keep`, and `Yc` is lane by lane the canonical D of the one eligible
register `r` whose Q is `keep`, then handle_rd_cell commits the strategy. -/
theorem rd_enable_chain_core (fuel : Nat) (w v : Worker) (cell r : Nat)
    (nd Yc keep en c : SigSpec) (p : Bool)
    (hg : w.grown v)
    (hwalk : chain_walk fuel ⟨w, nd, [], []⟩ = some ⟨v, Yc, en, [keep]⟩)
    (hen : en.length ≤ 1)
    (hcell : cell < w.module.cells.length)
    (hty : (w.module.cell cell).type = IdString.memrd)
    (hwf : ∀ i ∈ w.dff_cells, i < w.module.cells.length)
    (hnd : (w.module.cell cell).getPort IdString.DATA = nd)
    (hfan : ∀ bit ∈ sigmap_sig w.sigmap nd, w.users bit ≤ 1)
    (hfeed : w.feeds_mux nd = true)
    (hYfan : ∀ bit ∈ Yc, w.users bit ≤ 1)
    (hYcanon : sigmap_sig w.sigmap Yc = Yc)
    (hrm : r ∈ w.dff_cells) (hnf : r ∉ w.forward_merged_dffs)
    (hrt : (w.module.cell r).type = IdString.dff)
    (hD : sigmap_sig w.sigmap ((w.module.cell r).getPort IdString.D) = Yc)
    (hQ : (w.module.cell r).getPort IdString.Q = keep)
    (hYw : ∀ b ∈ Yc, b.is_wire = true) (hYnd : Yc.Nodup) (hYne : Yc ≠ [])
    (hlen : keep.length = Yc.length)
    (hkinit : ∀ b ∈ keep, b ∉ w.init_bits)
    (hother : ∀ r1 ∈ w.dff_cells, r1 ≠ r → ∀ b ∈ Yc,
      b ∉ sigmap_sig w.sigmap ((w.module.cell r1).getPort IdString.D))
    (hclk : w.dff_clock r = (c, p)) (hc : c ≠ SigSpec.Sx)
    (hkcanon : sigmap_sig w.sigmap keep = keep)
    (hkw : ∀ b ∈ keep, b.is_wire = true) :
    ∃ w1, w.handle_rd_cell fuel cell = some (w1, LogMsg.merged_rd_en) ∧
      (w1.module.cell cell).getPort IdString.EN = en ∧
      (w1.module.cell cell).getPort IdString.CLK = c ∧
      (w1.module.cell cell).getParam IdString.CLK_ENABLE = Const.of_int 1 32 ∧
      (w1.module.cell cell).getParam IdString.CLK_POLARITY
        = Const.of_int (if p then 1 else 0) 32 ∧
      (w1.module.cell cell).getParam IdString.TRANSPARENT = Const.of_int 0 32 ∧
      (w1.module.cell cell).getPort IdString.DATA = keep ∧
      ((w1.module.cell r).getPort IdString.Q).length = keep.length ∧
      (∀ b ∈ (w1.module.cell r).getPort IdString.Q,
        ∃ k, b = SigBit.wire v.module.wires.length k) ∧
      (∀ j, w.module.cells.length ≤ j → j < v.module.cells.length →
        w1.module.cell j = v.module.cell j) := by
  -- the post trace on the grown worker
  have hcongr := trace_bits_congr w v true Yc
    hg.1 hg.2.2.1 hg.2.2.2.2.2.2.2.1 hg.2.2.2.2.2.2.1 hg.2.1
    (fun i hi => Worker.grown_cell w v hg i (hwf i hi)) SigSpec.Sx false v.candidate_dffs
  obtain ⟨t1, t2, t3, t4⟩ := post_trace_register w r Yc keep c p v.candidate_dffs hrm hnf hD hQ
    hYw hYnd hYne hlen hkinit hother hclk
  have htr : v.find_sig_before_dff Yc SigSpec.Sx false true
      = w.trace_bits true Yc SigSpec.Sx false v.candidate_dffs := by
    unfold Worker.find_sig_before_dff
    rw [hg.1, hYcanon, hcongr]
  obtain ⟨t, ht⟩ : ∃ t, t = v.find_sig_before_dff Yc SigSpec.Sx false true := ⟨_, rfl⟩
  rw [← htr, ← ht] at t1 t2 t3 t4
  have h1 : (sigmap_sig w.sigmap nd).any (fun bit => decide (w.users bit > 1)) = false := by
    rw [List.any_eq_false]
    intro b hb
    simpa using hfan b hb
  have h2 : Yc.any (fun bit => decide (v.users bit > 1)) = false := by
    rw [List.any_eq_false]
    intro b hb
    rw [Worker.grown_users w v hg]
    simpa using hYfan b hb
  have hcond : t.ok = true ∧ t.clk ≠ SigSpec.Sx ∧
      ([keep].all fun cq => decide (cq = t.sig)) = true := by
    refine ⟨t1, by rw [t3]; exact hc, ?_⟩
    simp [t2]
  have heq : w.handle_rd_cell fuel cell = some
      (({ v with candidate_dffs := t.candidate_dffs } : Worker).commit_rd_en cell t en,
        LogMsg.merged_rd_en) := by
    unfold Worker.handle_rd_cell
    simp only [hnd, h1, hfeed, hwalk, h2, Bool.false_eq_true, if_false, if_true, ← ht,
      hcond.1, hcond.2.1, hcond.2.2, ne_eq, not_false_eq_true, and_self]
  obtain ⟨v1, hv1⟩ : ∃ v1 : Worker, v1 = { v with candidate_dffs := t.candidate_dffs } :=
    ⟨_, rfl⟩
  rw [← hv1] at heq
  have hgv1 : w.grown v1 := by rw [hv1]; exact Worker.grown_with_cands w v _ hg
  have hcv1 : v1.module.cell cell = w.module.cell cell := Worker.grown_cell w v1 hgv1 cell hcell
  have hlv1 : cell < v1.module.cells.length :=
    Nat.lt_of_lt_of_le hcell (Worker.grown_length w v1 hgv1)
  have htyv1 : (v1.module.cell cell).type ≠ IdString.dff := by rw [hcv1, hty]; decide
  obtain ⟨en1, hen1, hform⟩ := cell_after_commit_rd_en v1 cell t en hlv1 htyv1
  have hen2 := hen1 hen
  subst hen2
  have hrc : r ≠ cell := by
    intro e
    rw [e, hty] at hrt
    exact absurd hrt (by decide)
  have hr : r < w.module.cells.length := hwf r hrm
  have hrv1 : v1.module.cell r = w.module.cell r := Worker.grown_cell w v1 hgv1 r hr
  have hrl : r < v1.module.cells.length :=
    Nat.lt_of_lt_of_le hr (Worker.grown_length w v1 hgv1)
  have hsig : sigmap_sig v1.sigmap t.sig = keep := by rw [hgv1.1, t2, hkcanon]
  have hQ1 : ((v1.commit_rd_en cell t en1).module.cell r).getPort IdString.Q =
      keep.replace keep.sort_and_unify (v1.addWire keep.sort_and_unify.length).2 := by
    rw [cell_other_after_commit_rd_en v1 cell r t en1 hrc hrl, hsig, hrv1]
    unfold disconnect_cell
    rw [if_pos hrt, Cell.getPort_setPort_same, hQ]
  refine ⟨_, heq, ?_, ?_, ?_, ?_, ?_, ?_, ?_, ?_, ?_⟩
  · rw [hform]
    simp [Cell.getPort_setParam, Cell.getPort_setPort_same, Cell.getPort_setPort_other]
  · rw [hform, hcv1]
    simp [Cell.getPort_setParam, Cell.getPort_setPort_same, Cell.getPort_setPort_other, t3]
  · rw [hform]
    simp [Cell.getParam_setParam_same, Cell.getParam_setParam_other]
  · rw [hform]
    simp [Cell.getParam_setParam_same, Cell.getParam_setParam_other, t4]
  · rw [hform]
    simp [Cell.getParam_setParam_same]
  · rw [hform]
    simp [Cell.getPort_setParam, Cell.getPort_setPort_same, t2]
  · rw [hQ1, length_replace]
  · intro b hb
    rw [hQ1] at hb
    have hin := replace_covered keep keep.sort_and_unify
      (v1.addWire keep.sort_and_unify.length).2 (by simp [Worker.addWire])
      (fun b1 hb1 => ⟨hkw b1 hb1, (mem_sort_and_unify keep b1).mpr hb1⟩) b hb
    simp only [Worker.addWire, List.mem_map] at hin
    obtain ⟨k, _, hk⟩ := hin
    refine ⟨k, ?_⟩
    rw [← hk, hv1]
  · intro j hj1 hj2
    have hjc : j ≠ cell := fun e => absurd hcell (by rw [← e]; exact Nat.not_lt.mpr hj1)
    have hj3 : j < v1.module.cells.length := by rw [hv1]; exact hj2
    rw [cell_other_after_commit_rd_en v1 cell j t en1 hjc hj3]
    have : (v1.module.cell j).type ≠ IdString.dff := Worker.grown_new_cell_type w v1 hgv1 j hj1
    rw [disconnect_cell_of_ne _ _ _ this, hv1]

/-! ## C9: the enable-chain scenario -/

/-- C9 (amended): let the read port's DATA `nd` (every canonical bit with at most one
user) be the recorded A input (`inv = true`) or, not being any A input, the recorded B
input (`inv = false`) of the select `mux` with one-bit select input `sel`; let the
canonical output `Yc` of the select feed no select, consist of distinct wire bits with
at most one user each, and be the canonical D of exactly one register `r` of dff_cells,
not forward-merged, whose Q is the canonical other input `keep` of the select, with
no bit in init_bits, and whose clock after the inverter normalization is `(c, p)`,
`c` not the constant x.  Then handle_rd_cell commits the enable-chain strategy: EN is
the output of a new $logic_not cell on `sel` when DATA is the A input and `sel` itself
when it is the B input, CLK is `c`, CLK_ENABLE 1, CLK_POLARITY `p`, TRANSPARENT 0,
DATA is `keep`, and every bit of the register's Q is a bit of a fresh wire, so the
register no longer drives `keep`. -/
theorem rd_enable_chain (fuel : Nat) (w : Worker) (cell mux r : Nat) (inv : Bool)
    (nd sel Yc keep c : SigSpec) (p : Bool)
    (hcell : cell < w.module.cells.length)
    (hty : (w.module.cell cell).type = IdString.memrd)
    (hwf : ∀ i ∈ w.dff_cells, i < w.module.cells.length)
    (hnd : (w.module.cell cell).getPort IdString.DATA = nd)
    (hfan : ∀ bit ∈ sigmap_sig w.sigmap nd, w.users bit ≤ 1)
    (hside_a : inv = true → dict_find w.mux_cells_a nd = some mux)
    (hside_b : inv = false →
      dict_find w.mux_cells_a nd = none ∧ dict_find w.mux_cells_b nd = some mux)
    (hsel : (w.module.cell mux).getPort IdString.S = sel) (hsel1 : sel.length ≤ 1)
    (hYc : sigmap_sig w.sigmap ((w.module.cell mux).getPort IdString.Y) = Yc)
    (hkeep : sigmap_sig w.sigmap
      ((w.module.cell mux).getPort (if inv then IdString.B else IdString.A)) = keep)
    (hYfeed : w.feeds_mux Yc = false)
    (hYfan : ∀ bit ∈ Yc, w.users bit ≤ 1)
    (hYcanon : sigmap_sig w.sigmap Yc = Yc)
    (hrm : r ∈ w.dff_cells) (hnf : r ∉ w.forward_merged_dffs)
    (hrt : (w.module.cell r).type = IdString.dff)
    (hD : sigmap_sig w.sigmap ((w.module.cell r).getPort IdString.D) = Yc)
    (hQ : (w.module.cell r).getPort IdString.Q = keep)
    (hYw : ∀ b ∈ Yc, b.is_wire = true) (hYnd : Yc.Nodup) (hYne : Yc ≠ [])
    (hlen : keep.length = Yc.length)
    (hkinit : ∀ b ∈ keep, b ∉ w.init_bits)
    (hother : ∀ r1 ∈ w.dff_cells, r1 ≠ r → ∀ b ∈ Yc,
      b ∉ sigmap_sig w.sigmap ((w.module.cell r1).getPort IdString.D))
    (hclk : w.dff_clock r = (c, p)) (hc : c ≠ SigSpec.Sx)
    (hkcanon : sigmap_sig w.sigmap keep = keep)
    (hkw : ∀ b ∈ keep, ∃ i o, b = SigBit.wire i o ∧ i < w.module.wires.length) :
    ∃ w1, w.handle_rd_cell (fuel + 1) cell = some (w1, LogMsg.merged_rd_en) ∧
      (w1.module.cell cell).getPort IdString.EN
        = (if inv then [SigBit.wire w.module.wires.length 0] else sel) ∧
      (inv = true →
        (w1.module.cell w.module.cells.length).type = IdString.logic_not ∧
        (w1.module.cell w.module.cells.length).getPort IdString.A = sel ∧
        (w1.module.cell w.module.cells.length).getPort IdString.Y
          = [SigBit.wire w.module.wires.length 0]) ∧
      (w1.module.cell cell).getPort IdString.CLK = c ∧
      (w1.module.cell cell).getParam IdString.CLK_ENABLE = Const.of_int 1 32 ∧
      (w1.module.cell cell).getParam IdString.CLK_POLARITY
        = Const.of_int (if p then 1 else 0) 32 ∧
      (w1.module.cell cell).getParam IdString.TRANSPARENT = Const.of_int 0 32 ∧
      (w1.module.cell cell).getPort IdString.DATA = keep ∧
      ((w1.module.cell r).getPort IdString.Q).length = keep.length ∧
      (∀ b ∈ (w1.module.cell r).getPort IdString.Q, b ∉ keep ∧
        ∃ k, b = SigBit.wire (w.module.wires.length + (if inv then 1 else 0)) k) := by
  have hfeed : w.feeds_mux nd = true := by
    unfold Worker.feeds_mux
    cases inv
    · simp [(hside_b rfl).2]
    · simp [hside_a rfl]
  have hkw1 : ∀ b ∈ keep, b.is_wire = true := by
    intro b hb
    obtain ⟨i, o, hio, _⟩ := hkw b hb
    rw [hio]; rfl
  have hfresh : ∀ (n : Nat), w.module.wires.length ≤ n → ∀ b, (∃ k, b = SigBit.wire n k) →
      b ∉ keep := by
    intro n hn b hb hmem
    obtain ⟨k, hk⟩ := hb
    obtain ⟨i, o, hio, hi⟩ := hkw b hmem
    rw [hk] at hio
    simp only [SigBit.wire.injEq] at hio
    omega
  cases inv
  · -- DATA is the B input: no inverter, the walk ends in `w` itself
    have hwalk : chain_walk (fuel + 1) ⟨w, nd, [], []⟩ = some ⟨w, Yc, sel, [keep]⟩ := by
      unfold chain_walk
      simp only [(hside_b rfl).1, (hside_b rfl).2, Option.isSome_none, Bool.false_eq_true,
        if_false, chain_step, hYc, hsel, hYfeed, List.nil_append]
      simp only [Bool.false_eq_true, if_false] at hkeep
      rw [hkeep]
    obtain ⟨w1, e1, e2, e3, e4, e5, e6, e7, e8, e9, _⟩ :=
      rd_enable_chain_core (fuel + 1) w w cell r nd Yc keep sel c p (Worker.grown_refl w) hwalk
        hsel1 hcell hty hwf hnd hfan hfeed hYfan hYcanon hrm hnf hrt hD hQ hYw hYnd hYne hlen
        hkinit hother hclk hc hkcanon hkw1
    refine ⟨w1, e1, by simpa using e2, fun h => absurd h (by decide), e3, e4, e5, e6, e7, e8,
      ?_⟩
    intro b hb
    obtain ⟨k, hk⟩ := e9 b hb
    exact ⟨hfresh _ (Nat.le_refl _) b ⟨k, hk⟩, k, by simpa using hk⟩
  · -- DATA is the A input: the walk adds the inverter of the select input
    have hwalk : chain_walk (fuel + 1) ⟨w, nd, [], []⟩ =
        some ⟨(w.LogicNot sel).1, Yc, [SigBit.wire w.module.wires.length 0], [keep]⟩ := by
      have hf : (w.LogicNot sel).1.feeds_mux Yc = false := hYfeed
      unfold chain_walk
      simp only [hside_a rfl, Option.isSome_some, if_true, chain_step, hYc, hsel, hf,
        List.nil_append, Bool.false_eq_true, if_false]
      simp only [if_true] at hkeep
      rw [hkeep]
      rfl
    obtain ⟨w1, e1, e2, e3, e4, e5, e6, e7, e8, e9, e10⟩ :=
      rd_enable_chain_core (fuel + 1) w (w.LogicNot sel).1 cell r nd Yc keep
        [SigBit.wire w.module.wires.length 0] c p (Worker.grown_LogicNot w sel) hwalk
        (by simp) hcell hty hwf hnd hfan hfeed hYfan hYcanon hrm hnf hrt hD hQ hYw hYnd hYne
        hlen hkinit hother hclk hc hkcanon hkw1
    have hnew := e10 w.module.cells.length (Nat.le_refl _)
      (by simp [Worker.LogicNot, Worker.addUnary, Worker.addWire])
    have hnewcell : (w.LogicNot sel).1.module.cell w.module.cells.length =
        ⟨IdString.logic_not,
          [(IdString.A, sel), (IdString.Y, [SigBit.wire w.module.wires.length 0])],
          [(IdString.A_SIGNED, Const.of_int 0 32),
           (IdString.A_WIDTH, Const.of_int sel.length 32),
           (IdString.Y_WIDTH, Const.of_int 1 32)]⟩ := by
      simp [Worker.LogicNot, Worker.addUnary, Worker.addWire, Module.cell, List.range_succ]
    have hwl : (w.LogicNot sel).1.module.wires.length = w.module.wires.length + 1 := by
      simp [Worker.LogicNot, Worker.addUnary, Worker.addWire]
    refine ⟨w1, e1, by simpa using e2, fun _ => ?_, e3, e4, e5, e6, e7, e8, ?_⟩
    · rw [hnew, hnewcell]
      exact ⟨rfl, rfl, rfl⟩
    · intro b hb
      obtain ⟨k, hk⟩ := e9 b hb
      rw [hwl] at hk
      exact ⟨hfresh _ (Nat.le_succ _) b ⟨k, hk⟩, k, by simpa using hk⟩

end MemoryDff

namespace MemoryDff

/-- C9, witness: the hypotheses of rd_enable_chain hold for the read port of `ex_rd_en`
(DATA on the A side: EN becomes the new wire 6, the output of the new inverter of s)
and of `ex_rd_en_b` (DATA on the B side: EN becomes s itself); in both the port gets
DATA = keep. -/
theorem rd_enable_chain_witness :
    (∃ w1, (Worker.new ex_rd_en).build_index.handle_rd_cell 1 0
        = some (w1, LogMsg.merged_rd_en) ∧
      (w1.module.cell 0).getPort IdString.EN = bit1 6 ∧
      (w1.module.cell 0).getPort IdString.DATA = bit1 3) ∧
    (∃ w1, (Worker.new ex_rd_en_b).build_index.handle_rd_cell 1 0
        = some (w1, LogMsg.merged_rd_en) ∧
      (w1.module.cell 0).getPort IdString.EN = bit1 4 ∧
      (w1.module.cell 0).getPort IdString.DATA = bit1 3) :=
  have ha := rd_enable_chain 0 (Worker.new ex_rd_en).build_index 0 1 2 true
    (bit1 2) (bit1 4) (bit1 5) (bit1 3) (bit1 0) true
    (by decide) (by decide) (by decide) (by decide) (by decide) (by decide) (by decide)
    (by decide) (by decide) (by decide) (by decide) (by decide) (by decide) (by decide)
    (by decide) (by decide) (by decide) (by decide) (by decide) (by decide) (by decide)
    (by decide) (by decide) (by decide) (by decide) (by decide) (by decide) (by decide)
    (by intro b hb; simp [bit1] at hb; subst hb; exact ⟨3, 0, rfl, by decide⟩)
  have hb := rd_enable_chain 0 (Worker.new ex_rd_en_b).build_index 0 1 2 false
    (bit1 2) (bit1 4) (bit1 5) (bit1 3) (bit1 0) true
    (by decide) (by decide) (by decide) (by decide) (by decide) (by decide) (by decide)
    (by decide) (by decide) (by decide) (by decide) (by decide) (by decide) (by decide)
    (by decide) (by decide) (by decide) (by decide) (by decide) (by decide) (by decide)
    (by decide) (by decide) (by decide) (by decide) (by decide) (by decide) (by decide)
    (by intro b hb; simp [bit1] at hb; subst hb; exact ⟨3, 0, rfl, by decide⟩)
  ⟨match ha with
    | ⟨w1, h1, h2, _, _, _, _, _, h8, _⟩ => ⟨w1, h1, h2, h8⟩,
   match hb with
    | ⟨w1, h1, h2, _, _, _, _, _, h8, _⟩ => ⟨w1, h1, h2, h8⟩⟩

/-- C9, counterexample to the claim as stated: `ex_rd_en_inv` is the scenario of the claim
(DATA nd is consumed only by the A input of the select, whose output y is consumed
only by the D input of the register; the register's Q is keep, canonical, not in
init_bits, the register not forward-merged), and the register has CLK = nclk with
CLK_POLARITY 1.  handle_rd_cell commits the enable-chain strategy, but the port's CLK
becomes clk, the input of the inverter, not nclk, and its CLK_POLARITY becomes 0, not
the register's polarity 1. -/
theorem rd_enable_chain_inverted_clock :
    ex_rd_en_inv.cell 1 = mk_memrd (bit1 2) (bit1 3) ∧
    ex_rd_en_inv.cell 2 = mk_mux (bit1 3) (bit1 4) (bit1 5) (bit1 6) ∧
    ex_rd_en_inv.cell 3 = mk_dff (bit1 1) (bit1 6) (bit1 4) true ∧
    (Worker.new ex_rd_en_inv).build_index.users (SigBit.wire 3 0) = 1 ∧
    (Worker.new ex_rd_en_inv).build_index.users (SigBit.wire 6 0) = 1 ∧
    (Worker.new ex_rd_en_inv).build_index.dff_cells = [3] ∧
    (Worker.new ex_rd_en_inv).build_index.init_bits = [] ∧
    (Worker.new ex_rd_en_inv).build_index.forward_merged_dffs = [] ∧
    ((ex_rd_en_inv.cell 3).getParam IdString.CLK_POLARITY).as_bool = true ∧
    ((Worker.new ex_rd_en_inv).build_index.handle_rd_cell 1 1).map
        (fun r => (r.2, (r.1.module.cell 1).getPort IdString.CLK,
          ((r.1.module.cell 1).getParam IdString.CLK_POLARITY).as_bool,
          (r.1.module.cell 1).getPort IdString.DATA))
      = some (LogMsg.merged_rd_en, bit1 0, false, bit1 4) := by
  decide

/-! ## Further properties of the tracer -/

/-- The index keeps the module and records only positions of its cells in dff_cells. -/
theorem build_index_dff_cells (m : Module) :
    (Worker.new m).build_index.module = m ∧
    ∀ i ∈ (Worker.new m).build_index.dff_cells, i < m.cells.length := by
  have step : ∀ (l : List Nat) (w : Worker), w.module = m →
      (∀ i ∈ l, i < m.cells.length) → (∀ i ∈ w.dff_cells, i < m.cells.length) →
      (l.foldl Worker.index_cell w).module = m ∧
      ∀ i ∈ (l.foldl Worker.index_cell w).dff_cells, i < m.cells.length := by
    intro l
    induction l with
    | nil => intro w hm _ hd; exact ⟨hm, hd⟩
    | cons a t ih =>
      intro w hm hl hd
      rw [List.foldl_cons]
      refine ih _ ?_ (fun i hi => hl i (List.mem_cons_of_mem _ hi)) ?_
      · unfold Worker.index_cell
        simp only []
        split <;> split <;> split <;> exact hm
      · intro i hi
        unfold Worker.index_cell at hi
        simp only [] at hi
        have ha := hl a (List.mem_cons_self _ _)
        split at hi <;> split at hi <;> split at hi <;>
          first
          | exact hd i hi
          | (rcases List.mem_append.mp hi with h | h
             · exact hd i h
             · rw [List.mem_singleton.mp h]; exact ha)
  unfold Worker.build_index
  exact step _ _ rfl (fun i hi => by simpa using hi)
    (fun i hi => by simp [Worker.new, Worker.index_wires] at hi)

/-- Init-value protection of the pre trace (part (a) of C4): a pre trace returns false
whenever some bit of the canonicalized signal is a wire bit whose representative is
in init_bits. -/
theorem pre_trace_init_blocked (w : Worker) (bits : List SigBit) :
    ∀ (clk : SigSpec) (pol : Bool) (cands : List Nat),
    (∃ b ∈ bits, b.is_wire = true ∧ sigmap_bit w.sigmap b ∈ w.init_bits) →
    (w.trace_bits false bits clk pol cands).ok = false := by
  induction bits with
  | nil => intro clk pol cands h; obtain ⟨b, hb, _⟩ := h; simp at hb
  | cons a rest ih =>
    intro clk pol cands h
    obtain ⟨b, hb, hw, hi⟩ := h
    cases a with
    | const s =>
      rcases List.mem_cons.mp hb with e | e
      · rw [e] at hw; simp [SigBit.is_wire] at hw
      · unfold Worker.trace_bits
        exact ih clk pol cands ⟨b, e, hw, hi⟩
    | wire i o =>
      unfold Worker.trace_bits
      simp only []
      split
      · rfl
      · rename_i hn
        split
        · rename_i c d clk1 pol1 _
          rcases List.mem_cons.mp hb with e | e
          · rw [e] at hi
            exact absurd (by simpa using hi) hn
          · exact ih clk1 pol1 _ ⟨b, e, hw, hi⟩
        · rfl

end MemoryDff

namespace MemoryDff

/-- When no register has the constant x as its (normalized) clock, a trace keeps
candidate_dffs on one clock: either no clock is fixed and no cell was selected, or
every selected cell has the fixed clock and edge. -/
theorem trace_bits_clock (w : Worker) (after : Bool) (bits : List SigBit)
    (hx : ∀ i ∈ w.dff_cells, (w.dff_clock i).1 ≠ SigSpec.Sx) :
    ∀ (clk : SigSpec) (pol : Bool) (cands : List Nat),
    ((clk = SigSpec.Sx ∧ cands = []) ∨
      (clk ≠ SigSpec.Sx ∧ ∀ x ∈ cands, w.dff_clock x = (clk, pol))) →
    (((w.trace_bits after bits clk pol cands).clk = SigSpec.Sx ∧
        (w.trace_bits after bits clk pol cands).candidate_dffs = []) ∨
      ((w.trace_bits after bits clk pol cands).clk ≠ SigSpec.Sx ∧
        ∀ x ∈ (w.trace_bits after bits clk pol cands).candidate_dffs,
          w.dff_clock x = ((w.trace_bits after bits clk pol cands).clk,
            (w.trace_bits after bits clk pol cands).clk_polarity))) := by
  induction bits with
  | nil => intro clk pol cands h; exact h
  | cons a rest ih =>
    intro clk pol cands h
    cases a with
    | const s =>
      unfold Worker.trace_bits
      exact ih clk pol cands h
    | wire i o =>
      unfold Worker.trace_bits
      simp only []
      split
      · exact h
      · split
        · rename_i c d clk1 pol1 hs
          obtain ⟨hc, _, hck, hkeep, _, _⟩ := scan_dffs_replaced w after _ clk pol _ c d clk1 pol1 hs
          have hne : clk1 ≠ SigSpec.Sx := by
            have := hx c hc
            rw [hck] at this
            exact this
          refine ih clk1 pol1 _ (Or.inr ⟨hne, ?_⟩)
          intro x hxm
          rcases (mem_pool_insert _ _ _).mp hxm with h1 | h1
          · rcases h with ⟨_, h2⟩ | ⟨h2, h3⟩
            · rw [h2] at h1; simp at h1
            · obtain ⟨e1, e2⟩ := hkeep h2
              rw [e1, e2]
              exact h3 x h1
          · rw [h1]; exact hck
        · exact h

theorem as_bool_of_int_bool (p : Bool) : (Const.of_int (if p then 1 else 0) 32).as_bool = p := by
  cases p <;> decide

/-- Clock consistency of a write-port merge (C3 without the x marker): if no register
of dff_cells has the constant x as its normalized clock and handle_wr_cell commits,
every cell in candidate_dffs has, after the inverter normalization, the clock and
the edge written to the port. -/
theorem wr_merge_clock_consistent (w : Worker) (cell : Nat)
    (hcell : cell < w.module.cells.length)
    (hx : ∀ i ∈ w.dff_cells, (w.dff_clock i).1 ≠ SigSpec.Sx)
    (hm : (w.handle_wr_cell cell).2 = LogMsg.merged) :
    ∀ x ∈ (w.handle_wr_cell cell).1.candidate_dffs,
      (w.dff_clock x).1 = ((w.handle_wr_cell cell).1.module.cell cell).getPort IdString.CLK ∧
      (w.dff_clock x).2 =
        (((w.handle_wr_cell cell).1.module.cell cell).getParam IdString.CLK_POLARITY).as_bool := by
  obtain ⟨tA, htA⟩ : ∃ t, t = w.trace_bits false
      (sigmap_sig w.sigmap ((w.module.cell cell).getPort IdString.ADDR)) SigSpec.Sx false [] :=
    ⟨_, rfl⟩
  obtain ⟨tD, htD⟩ : ∃ t, t = w.trace_bits false
      (sigmap_sig w.sigmap ((w.module.cell cell).getPort IdString.DATA))
      tA.clk tA.clk_polarity tA.candidate_dffs := ⟨_, rfl⟩
  obtain ⟨tE, htE⟩ : ∃ t, t = w.trace_bits false
      (sigmap_sig w.sigmap ((w.module.cell cell).getPort IdString.EN))
      tD.clk tD.clk_polarity tD.candidate_dffs := ⟨_, rfl⟩
  have cA := trace_bits_clock w false
    (sigmap_sig w.sigmap ((w.module.cell cell).getPort IdString.ADDR)) hx SigSpec.Sx false []
    (Or.inl ⟨rfl, rfl⟩)
  rw [← htA] at cA
  have cD := trace_bits_clock w false
    (sigmap_sig w.sigmap ((w.module.cell cell).getPort IdString.DATA)) hx _ _ _ cA
  rw [← htD] at cD
  have cE := trace_bits_clock w false
    (sigmap_sig w.sigmap ((w.module.cell cell).getPort IdString.EN)) hx _ _ _ cD
  rw [← htE] at cE
  have key := handle_wr_cell_eq w cell tA tD tE htA htD htE
  rw [key] at hm ⊢
  split at hm
  · simp at hm
  · split at hm
    · simp at hm
    · split at hm
      · simp at hm
      · split at hm
        · rename_i h1 h2 h3 h4
          rw [if_neg h1, if_neg h2, if_neg h3, if_pos h4]
          simp only []
          rw [cell_after_wr_commit
            { w with
              candidate_dffs := tE.candidate_dffs
              forward_merged_dffs := tE.candidate_dffs.foldl pool_insert w.forward_merged_dffs }
            _ _ _ _ _ _ _ hcell]
          intro x hxm
          have hxE : x ∈ tE.candidate_dffs := hxm
          rcases cE with ⟨e1, _⟩ | ⟨_, e2⟩
          · exact absurd e1 h4
          · have := e2 x hxE
            rw [this]
            constructor
            · simp [Cell.getPort_setParam, Cell.getPort_setPort_same, Cell.getPort_setPort_other]
            · simp [Cell.getParam_setParam_same, as_bool_of_int_bool]
        · simp at hm

/-- In `ex_wr` every register that supplied a bit has the clock and edge written to the
port. -/
theorem wr_merge_clock_consistent_witness :
    ∀ x ∈ ((Worker.new ex_wr).build_index.handle_wr_cell 3).1.candidate_dffs,
      ((Worker.new ex_wr).build_index.dff_clock x).1 =
        (((Worker.new ex_wr).build_index.handle_wr_cell 3).1.module.cell 3).getPort
          IdString.CLK ∧
      ((Worker.new ex_wr).build_index.dff_clock x).2 =
        ((((Worker.new ex_wr).build_index.handle_wr_cell 3).1.module.cell 3).getParam
          IdString.CLK_POLARITY).as_bool :=
  wr_merge_clock_consistent (Worker.new ex_wr).build_index 3 (by decide) (by decide) (by decide)

/-- In `ex_rd_init` the bit q is in init_bits, and the pre trace of the signal {q}
returns false. -/
theorem pre_trace_init_blocked_witness :
    ((Worker.new ex_rd_init).build_index.trace_bits false [SigBit.wire 3 0] SigSpec.Sx false
      []).ok = false :=
  pre_trace_init_blocked (Worker.new ex_rd_init).build_index [SigBit.wire 3 0] SigSpec.Sx false
    [] ⟨SigBit.wire 3 0, by decide, by decide, by decide⟩

/-! ## C11: the direct-register strategy -/

/-- C11, the code at the failing input `ex_rd_alias`: the usage index built by run
counts one user for the DATA bit nd, DATA feeds no select, and the direct post trace
of DATA succeeds with the clock clk and the result q_alias; handle_rd_cell commits the
direct-register result (DATA = q_alias, EN = 1, CLK = clk, CLK_ENABLE = 1,
TRANSPARENT = 0) and adds the fresh wire 5, but the register's Q still names q_alias:
it is not detached, because disconnect_dff looks for the canonical bit q in the raw Q.
With the register naming the canonical wire q itself (`ex_rd_data`) Q is retargeted
to the fresh wire. -/
theorem direct_register_alias_not_detached :
    (Worker.new ex_rd_alias).build_index.users (SigBit.wire 2 0) = 1 ∧
    (Worker.new ex_rd_alias).build_index.feeds_mux (bit1 2) = false ∧
    ((Worker.new ex_rd_alias).build_index.find_sig_before_dff (bit1 2) SigSpec.Sx false
      true) = ⟨true, [SigBit.wire 4 0], bit1 0, true, [0]⟩ ∧
    (((Worker.new ex_rd_alias).build_index.handle_rd_cell 1 1).map fun r =>
      (r.2, (r.1.module.cell 1).getPort IdString.DATA,
        (r.1.module.cell 1).getPort IdString.EN,
        (r.1.module.cell 1).getPort IdString.CLK))
      = some (LogMsg.merged_data, [SigBit.wire 4 0], SigSpec.S1, bit1 0) ∧
    (((Worker.new ex_rd_alias).build_index.handle_rd_cell 1 1).map fun r =>
      (((r.1.module.cell 1).getParam IdString.CLK_ENABLE).as_bool,
        ((r.1.module.cell 1).getParam IdString.TRANSPARENT).as_bool,
        r.1.module.wires.length,
        (r.1.module.cell 0).getPort IdString.Q))
      = some (true, false, 6, [SigBit.wire 4 0]) ∧
    (((Worker.new ex_rd_data).build_index.handle_rd_cell 1 1).map fun r =>
      (r.2, (r.1.module.cell 1).getPort IdString.DATA,
        (r.1.module.cell 0).getPort IdString.Q))
      = some (LogMsg.merged_data, [SigBit.wire 3 0], [SigBit.wire 4 0]) := by
  decide

/-! ## C12: the enable polarity along the select chain -/

/-- C12, the claim as stated fails: in `ex_rd_en` the DATA signal nd is the A input of
the select and the walk appends the output of a new $logic_not cell on s (the select
input inverted); in `ex_rd_en_b` nd is the B input and the walk appends s itself. -/
theorem chain_walk_inverts_a_side :
    ((chain_walk 1 ⟨(Worker.new ex_rd_en).build_index, bit1 2, [], []⟩).map fun st =>
      (st.en, st.worker.module.cells.drop 3))
      = some ([SigBit.wire 6 0],
          [⟨IdString.logic_not, [(IdString.A, bit1 4), (IdString.Y, bit1 6)],
            [(IdString.A_SIGNED, Const.of_int 0 32), (IdString.A_WIDTH, Const.of_int 1 32),
             (IdString.Y_WIDTH, Const.of_int 1 32)]⟩]) ∧
    dict_find (Worker.new ex_rd_en).build_index.mux_cells_a (bit1 2) = some 1 ∧
    ((chain_walk 1 ⟨(Worker.new ex_rd_en_b).build_index, bit1 2, [], []⟩).map fun st =>
      (st.en, st.worker.module.cells.drop 3)) = some (bit1 4, []) ∧
    dict_find (Worker.new ex_rd_en_b).build_index.mux_cells_a (bit1 2) = none ∧
    dict_find (Worker.new ex_rd_en_b).build_index.mux_cells_b (bit1 2) = some 1 := by
  decide

/-- C12, amended: one iteration of the do-while loop on the current signal.  If the
signal is the recorded A input of the select `mux` (whether or not it is also a
recorded B input), the loop body runs with enable_invert = true: the accumulated
enable gains the output bit of a new $logic_not cell whose input is the select's S.
If the signal is no recorded A input and the recorded B input of `mux`, the
accumulated enable gains S itself and no cell is added.  In both cases the loop goes
on from the stepped state while its signal feeds a recorded select. -/
theorem chain_step_enable_polarity (fuel : Nat) (st : Chain) (mux : Nat) :
    (dict_find st.worker.mux_cells_a st.sig_data = some mux →
      chain_walk (fuel + 1) st =
        (if (chain_step st true mux).worker.feeds_mux (chain_step st true mux).sig_data
          then chain_walk fuel (chain_step st true mux) else some (chain_step st true mux)) ∧
      (chain_step st true mux).en
        = st.en ++ [SigBit.wire st.worker.module.wires.length 0] ∧
      (chain_step st true mux).worker.module.cells
        = st.worker.module.cells ++
          [⟨IdString.logic_not,
            [(IdString.A, (st.worker.module.cell mux).getPort IdString.S),
             (IdString.Y, [SigBit.wire st.worker.module.wires.length 0])],
            [(IdString.A_SIGNED, Const.of_int 0 32),
             (IdString.A_WIDTH,
               Const.of_int ((st.worker.module.cell mux).getPort IdString.S).length 32),
             (IdString.Y_WIDTH, Const.of_int 1 32)]⟩]) ∧
    (dict_find st.worker.mux_cells_a st.sig_data = none →
      dict_find st.worker.mux_cells_b st.sig_data = some mux →
      chain_walk (fuel + 1) st =
        (if (chain_step st false mux).worker.feeds_mux (chain_step st false mux).sig_data
          then chain_walk fuel (chain_step st false mux) else some (chain_step st false mux)) ∧
      (chain_step st false mux).en = st.en ++ (st.worker.module.cell mux).getPort IdString.S ∧
      (chain_step st false mux).worker = st.worker) := by
  refine ⟨fun ha => ⟨?_, ?_, ?_⟩, fun ha hb => ⟨?_, rfl, rfl⟩⟩
  · simp [chain_walk, ha]
  · simp [chain_step, Worker.LogicNot, Worker.addWire, Worker.addUnary, List.range_succ]
  · simp [chain_step, Worker.LogicNot, Worker.addWire, Worker.addUnary, List.range_succ]
  · simp [chain_walk, ha, hb]

/-- The two cases of `chain_step_enable_polarity` at the first iteration on `ex_rd_en`
(A side) and on `ex_rd_en_b` (B side). -/
theorem chain_step_enable_polarity_witness :
    (chain_step ⟨(Worker.new ex_rd_en).build_index, bit1 2, [], []⟩ true 1).en
      = [SigBit.wire 6 0] ∧
    (chain_step ⟨(Worker.new ex_rd_en_b).build_index, bit1 2, [], []⟩ false 1).en
      = bit1 4 :=
  ⟨((chain_step_enable_polarity 0 ⟨(Worker.new ex_rd_en).build_index, bit1 2, [], []⟩ 1).1
      (by decide)).2.1,
   ((chain_step_enable_polarity 0 ⟨(Worker.new ex_rd_en_b).build_index, bit1 2, [], []⟩ 1).2
      (by decide) (by decide)).2.1⟩

/-! ## Lemmas on what run leaves alone -/

theorem Worker.index_cell_module (w : Worker) (i : Nat) : (w.index_cell i).module = w.module := by
  unfold Worker.index_cell
  simp only []
  split <;> split <;> split <;> rfl

theorem Worker.build_index_module (w : Worker) : w.build_index.module = w.module := by
  have step : ∀ (l : List Nat) (v : Worker), (l.foldl Worker.index_cell v).module = v.module := by
    intro l
    induction l with
    | nil => intro v; rfl
    | cons a t ih => intro v; rw [List.foldl_cons, ih, Worker.index_cell_module]
  unfold Worker.build_index
  rw [step]
  rfl

/-- The write-port handler writes through the port's `Cell*` only. -/
theorem handle_wr_cell_frame (w : Worker) (cell j : Nat) (hj : j ≠ cell) :
    (w.handle_wr_cell cell).1.module.cell j = w.module.cell j := by
  rw [handle_wr_cell_eq w cell _ _ _ rfl rfl rfl]
  split
  · rfl
  · split
    · rfl
    · split
      · rfl
      · split
        · simp only [Worker.cell_setPort_other _ _ _ _ _ hj,
            Worker.cell_setParam_other _ _ _ _ _ hj]
        · rfl

theorem handle_wr_cell_length (w : Worker) (cell : Nat) :
    (w.handle_wr_cell cell).1.module.cells.length = w.module.cells.length := by
  rw [handle_wr_cell_eq w cell _ _ _ rfl rfl rfl]
  split
  · rfl
  · split
    · rfl
    · split
      · rfl
      · split
        · simp only [Worker.cells_length_setPort, Worker.cells_length_setParam]
        · rfl

/-- The loop over the write ports leaves every cell alone that is no asynchronous
write port. -/
theorem run_wr_frame (l : List Nat) : ∀ (w : Worker) (j : Nat),
    ((w.module.cell j).type ≠ IdString.memwr ∨
      ((w.module.cell j).getParam IdString.CLK_ENABLE).as_bool = true) →
    (w.run_wr l).module.cell j = w.module.cell j := by
  induction l with
  | nil => intro w j _; rfl
  | cons a t ih =>
    intro w j hj
    unfold Worker.run_wr
    split
    · rename_i ha
      have hne : j ≠ a := by
        intro e
        subst e
        rcases hj with h | h
        · exact h ha.1
        · rw [ha.2] at h; exact Bool.false_ne_true h
      have e := handle_wr_cell_frame w a j hne
      rw [ih _ j (by rw [e]; exact hj), e]
    · exact ih w j hj

theorem run_wr_length (l : List Nat) : ∀ (w : Worker),
    (w.run_wr l).module.cells.length = w.module.cells.length := by
  induction l with
  | nil => intro w; rfl
  | cons a t ih =>
    intro w
    unfold Worker.run_wr
    split
    · rw [ih, handle_wr_cell_length]
    · exact ih w

theorem cell_other_after_commit_rd_data (v : Worker) (cell j : Nat) (t : Trace)
    (hj : j ≠ cell) (hlt : j < v.module.cells.length) :
    (v.commit_rd_data cell t).module.cell j =
      disconnect_cell (sigmap_sig v.sigmap t.sig).sort_and_unify
        (v.addWire (sigmap_sig v.sigmap t.sig).sort_and_unify.length).2 (v.module.cell j) := by
  unfold Worker.commit_rd_data
  simp only [Worker.cell_setParam_other _ _ _ _ _ hj, Worker.cell_setPort_other _ _ _ _ _ hj]
  rw [Worker.cell_disconnect_dff _ _ _ hlt]

/-- The read-port handler leaves every other cell alone that is no $dff, and removes
no cell. -/
theorem handle_rd_cell_frame (fuel : Nat) (w : Worker) (cell : Nat) (w1 : Worker)
    (log : LogMsg) (h : w.handle_rd_cell fuel cell = some (w1, log)) (j : Nat)
    (hj : j ≠ cell) (hlt : j < w.module.cells.length)
    (hty : (w.module.cell j).type ≠ IdString.dff) :
    w1.module.cell j = w.module.cell j := by
  rcases handle_rd_cell_cases fuel w cell w1 log h with ⟨v, pol, hg, e⟩ | ⟨v, t, en, hg, _, e⟩ |
    ⟨v, t, hg, _, e⟩
  · have e1 : w1 = (v.rd_addr cell pol).1 := congrArg Prod.fst e
    rw [e1]
    rcases rd_addr_cases v cell pol with c | c
    · rw [c.2.1, Worker.grown_cell w v hg j hlt]
    · rw [c.2.2.2.2.2.2.1 j hj, Worker.grown_cell w v hg j hlt]
  · have hv := Worker.grown_cell w v hg j hlt
    rw [e, cell_other_after_commit_rd_en v cell j t en hj
      (Nat.lt_of_lt_of_le hlt (Worker.grown_length w v hg)), hv,
      disconnect_cell_of_ne _ _ _ hty]
  · have hv := Worker.grown_cell w v hg j hlt
    rw [e, cell_other_after_commit_rd_data v cell j t hj
      (Nat.lt_of_lt_of_le hlt (Worker.grown_length w v hg)), hv,
      disconnect_cell_of_ne _ _ _ hty]

theorem handle_rd_cell_length (fuel : Nat) (w : Worker) (cell : Nat) (w1 : Worker)
    (log : LogMsg) (h : w.handle_rd_cell fuel cell = some (w1, log)) :
    w.module.cells.length ≤ w1.module.cells.length := by
  rcases handle_rd_cell_cases fuel w cell w1 log h with ⟨v, pol, hg, e⟩ | ⟨v, t, en, hg, _, e⟩ |
    ⟨v, t, hg, _, e⟩
  · have e1 : w1 = (v.rd_addr cell pol).1 := congrArg Prod.fst e
    rw [e1]
    rcases rd_addr_cases v cell pol with c | c
    · rw [c.2.1]; exact Worker.grown_length w v hg
    · rw [c.2.2.2.2.2.1]; exact Worker.grown_length w v hg
  · rw [e]
    refine le_trans (Worker.grown_length w v hg) ?_
    unfold Worker.commit_rd_en
    simp only [Worker.cells_length_setParam, Worker.cells_length_setPort]
    split
    · rw [Worker.cells_length_ReduceAnd, Worker.cells_length_setPort,
        Worker.cells_length_disconnect_dff]
      exact Nat.le_succ _
    · rw [Worker.cells_length_setPort, Worker.cells_length_disconnect_dff]
  · rw [e]
    refine le_trans (Worker.grown_length w v hg) ?_
    unfold Worker.commit_rd_data
    simp only [Worker.cells_length_setParam, Worker.cells_length_setPort,
      Worker.cells_length_disconnect_dff]
    exact le_refl _

/-- The loop over the read ports leaves every memory port alone that is synchronous. -/
theorem run_rd_frame (fuel : Nat) (l : List Nat) : ∀ (w w1 : Worker) (j : Nat),
    w.run_rd fuel l = some w1 → j < w.module.cells.length →
    (w.module.cell j).type ≠ IdString.dff →
    ((w.module.cell j).type ≠ IdString.memrd ∨
      ((w.module.cell j).getParam IdString.CLK_ENABLE).as_bool = true) →
    w1.module.cell j = w.module.cell j := by
  induction l with
  | nil =>
    intro w w1 j h _ _ _
    simp only [Worker.run_rd, Option.some.injEq] at h
    rw [← h]
  | cons a t ih =>
    intro w w1 j h hlt hty hj
    unfold Worker.run_rd at h
    split at h
    · rename_i ha
      have hne : j ≠ a := by
        intro e
        subst e
        rcases hj with c | c
        · exact c ha.1
        · rw [ha.2] at c; exact Bool.false_ne_true c
      split at h
      · simp at h
      · rename_i r hr
        have e := handle_rd_cell_frame fuel w a r.1 r.2 hr j hne hlt hty
        have hl := handle_rd_cell_length fuel w a r.1 r.2 hr
        rw [ih r.1 w1 j h (Nat.lt_of_lt_of_le hlt hl) (by rw [e]; exact hty)
          (by rw [e]; exact hj), e]
    · exact ih w w1 j h hlt hty hj

theorem Module.cell_type_lt (m : Module) (j : Nat)
    (h : (m.cell j).type = IdString.memwr ∨ (m.cell j).type = IdString.memrd ∨
      (m.cell j).type = IdString.dff) : j < m.cells.length := by
  by_contra hn
  have e : m.cell j = default := by
    unfold Module.cell
    exact List.getD_eq_default _ _ (Nat.le_of_not_lt hn)
  rw [e] at h
  rcases h with h | h | h <;> cases h

/-! ## C13: only asynchronous ports are candidates -/

/-- C13: the pass on a module `m` with either flag value.  With the flag set it
always returns.  Whenever it returns the module `m1`, every $memwr and $memrd cell
of `m` whose CLK_ENABLE parameter is true is the same cell (same connections, same
parameters) in `m1`; and with flag_wr_only set every $memrd cell of `m` is the same
cell in `m1` and every $dff has the same Q connection. -/
theorem run_frame (fuel : Nat) (m : Module) (flag_wr_only : Bool) :
    (flag_wr_only = true → (memory_dff fuel flag_wr_only m).isSome = true) ∧
    ∀ m1, memory_dff fuel flag_wr_only m = some m1 →
      (∀ j, ((m.cell j).type = IdString.memwr ∨ (m.cell j).type = IdString.memrd) →
        ((m.cell j).getParam IdString.CLK_ENABLE).as_bool = true →
        m1.cell j = m.cell j) ∧
      (flag_wr_only = true → ∀ j,
        ((m.cell j).type = IdString.memrd → m1.cell j = m.cell j) ∧
        ((m.cell j).type = IdString.dff →
          (m1.cell j).getPort IdString.Q = (m.cell j).getPort IdString.Q)) := by
  have hm : (Worker.new m).build_index.module = m := Worker.build_index_module _
  have hwr : ∀ (l : List Nat) (j : Nat),
      ((m.cell j).type ≠ IdString.memwr ∨
        ((m.cell j).getParam IdString.CLK_ENABLE).as_bool = true) →
      ((Worker.new m).build_index.run_wr l).module.cell j = m.cell j := by
    intro l j hj
    have e := run_wr_frame l (Worker.new m).build_index j (by rw [hm]; exact hj)
    rw [hm] at e
    exact e
  refine ⟨?_, ?_⟩
  · intro hf
    subst hf
    simp [memory_dff, Worker.run]
  · intro m1 h
    unfold memory_dff Worker.run at h
    simp only [] at h
    refine ⟨?_, ?_⟩
    · intro j hty hen
      cases flag_wr_only with
      | true =>
        simp only [if_true, Option.map_some', Option.some.injEq] at h
        rw [← h]
        exact hwr _ j (Or.inr hen)
      | false =>
        simp only [Bool.false_eq_true, if_false, Option.map_eq_some'] at h
        obtain ⟨w1, hw1, e⟩ := h
        rw [← e]
        have hlt : j < m.cells.length :=
          Module.cell_type_lt m j (by rcases hty with c | c
                                      · exact Or.inl c
                                      · exact Or.inr (Or.inl c))
        have hne : (m.cell j).type ≠ IdString.dff := by
          rcases hty with c | c <;> rw [c] <;> decide
        have e2 := hwr (Worker.new m).build_index.module.selected_cells j (Or.inr hen)
        rw [run_rd_frame fuel _ _ w1 j hw1
          (by rw [run_wr_length, hm]; exact hlt) (by rw [e2]; exact hne)
          (by rw [e2]; exact Or.inr hen), e2]
    · intro hf
      subst hf
      simp only [if_true, Option.map_some', Option.some.injEq] at h
      intro j
      refine ⟨fun hty => ?_, fun hty => ?_⟩
      · rw [← h]
        exact hwr _ j (by rw [hty]; exact Or.inl (by decide))
      · rw [← h, hwr _ j (by rw [hty]; exact Or.inl (by decide))]

/-- The pass on `ex_rd_sync` with the default flag returns, and leaves the synchronous
read port, cell 3, as it was (the asynchronous one, cell 1, is merged). -/
theorem run_frame_witness :
    ((memory_dff 1 false ex_rd_sync).map fun m1 => m1.cell 3) = some (ex_rd_sync.cell 3) := by
  obtain ⟨m1, h⟩ : ∃ m1, memory_dff 1 false ex_rd_sync = some m1 :=
    Option.isSome_iff_exists.mp (by decide)
  rw [h]
  exact congrArg some (((run_frame 1 ex_rd_sync false).2 m1 h).1 3 (Or.inr rfl) (by decide))

/-! ## C14: the documented option -/

theorem execute_options_true (l : List String) : ∀ n, (execute_options l n true).1 = true := by
  induction l with
  | nil => intro n; rfl
  | cons a t ih =>
    intro n
    unfold execute_options
    split
    · exact ih _
    · rfl

/-- C14, the code at the failing input `["memory_dff", "-nordfff"]`: the help text
prints the option as "-nordfff"; the option loop of execute does not accept that
spelling, it stops at position 1 with flag_wr_only = false (the argument is left to
extra_args), and a run with that flag value merges the read port of `ex_rd_data`.
The loop accepts "-nordff" and "-wr_only": for every argument list flag_wr_only is
true exactly when the first argument after the name of the pass is one of these
two. -/
theorem execute_ignores_documented_option :
    "    -nordfff\n" ∈ help ∧
    execute_flags ["memory_dff", "-nordfff"] = (false, 1) ∧
    execute_flags ["memory_dff", "-nordff"] = (true, 2) ∧
    execute_flags ["memory_dff", "-wr_only"] = (true, 2) ∧
    (memory_dff 1 (execute_flags ["memory_dff", "-nordfff"]).1 ex_rd_data).map
      (fun m1 => ((m1.cell 1).getParam IdString.CLK_ENABLE).as_bool) = some true ∧
    ∀ args : List String, (execute_flags args).1 = true ↔
      ((args.drop 1).head? = some "-nordff" ∨ (args.drop 1).head? = some "-wr_only") := by
  refine ⟨by decide, by decide, by decide, by decide, by decide, ?_⟩
  intro args
  unfold execute_flags
  cases args.drop 1 with
  | nil => simp [execute_options]
  | cons a t =>
    unfold execute_options
    split
    · rename_i h
      simp only [execute_options_true, List.head?_cons, Option.some.injEq, true_iff]
      exact h
    · rename_i h
      simp only [List.head?_cons, Option.some.injEq, Bool.false_eq_true, false_iff]
      exact h

/-! ## Lemmas on the shape of a trace -/

/-- A one-bit result of `extract` comes from a lane in which `self` is the pattern. -/
theorem extract_singleton_lane (self : SigSpec) (b : SigBit) (other : SigSpec) (s : SigBit)
    (h : self.extract b other = [s]) :
    ∃ lane : Nat, self[lane]? = some b ∧ other[lane]? = some s := by
  have hs : s ∈ self.extract b other := by rw [h]; exact List.mem_singleton.mpr rfl
  unfold SigSpec.extract at hs
  obtain ⟨p, hp, hf⟩ := List.mem_filterMap.mp hs
  obtain ⟨lane, hl⟩ := List.mem_iff_getElem?.mp hp
  refine ⟨lane, ?_⟩
  rw [List.getElem?_zip_eq_some] at hl
  cases hp1 : p.1 with
  | const st => rw [hp1] at hf; simp at hf
  | wire i o =>
    rw [hp1] at hf
    simp only at hf
    split at hf
    · rename_i e
      simp only [Option.some.injEq] at hf
      rw [← e, ← hp1, ← hf]
      exact hl
    · simp at hf

theorem trace_bits_shape (w : Worker) (after : Bool) (bits : List SigBit) :
    ∀ (clk : SigSpec) (pol : Bool) (cands : List Nat),
    (w.trace_bits after bits clk pol cands).ok = true →
    List.Forall₂ (w.traced after) bits (w.trace_bits after bits clk pol cands).sig := by
  induction bits with
  | nil => intro clk pol cands _; exact List.Forall₂.nil
  | cons b rest ih =>
    intro clk pol cands h
    cases b with
    | const st =>
      have e : w.trace_bits after (SigBit.const st :: rest) clk pol cands =
          { w.trace_bits after rest clk pol cands with
            sig := SigBit.const st :: (w.trace_bits after rest clk pol cands).sig } := rfl
      rw [e] at h ⊢
      exact List.Forall₂.cons ⟨fun _ => rfl, fun hw => by simp [SigBit.is_wire] at hw⟩ (ih _ _ _ h)
    | wire i o =>
      unfold Worker.trace_bits at h ⊢
      simp only [] at h ⊢
      split
      · rename_i hin
        rw [if_pos hin] at h
        simp at h
      · rename_i hin
        rw [if_neg hin] at h
        split
        · rename_i c d clk1 pol1 hs
          rw [hs] at h
          obtain ⟨hc, hfm, _, _, hex, _⟩ := scan_dffs_replaced w after _ clk pol _ c d clk1 pol1 hs
          refine List.Forall₂.cons ⟨fun hw => by simp [SigBit.is_wire] at hw, fun _ => ?_⟩
            (ih _ _ _ h)
          exact ⟨c, hc, hfm, hex, extract_singleton_lane _ _ _ _ hex⟩
        · rename_i hs
          split at h
          · rename_i c d clk1 pol1 hs1
            exact absurd hs1 (hs c d clk1 pol1)
          · simp at h

theorem forall₂_of_mem_left {α β : Type} (R : α → β → Prop) (l1 : List α) (l2 : List β)
    (h : List.Forall₂ R l1 l2) (a : α) (ha : a ∈ l1) : ∃ b ∈ l2, R a b := by
  induction h with
  | nil => simp at ha
  | cons hr _ ih =>
    rcases List.mem_cons.mp ha with e | e
    · subst e; exact ⟨_, List.mem_cons_self _ _, hr⟩
    · obtain ⟨b, hb, r⟩ := ih e
      exact ⟨b, List.mem_cons_of_mem _ hb, r⟩

/-! ## Lemmas on the order of the search -/

theorem scan_dffs_skip (w : Worker) (after : Bool) (bit : SigBit) (clk : SigSpec)
    (pol : Bool) (x : Nat) (rest : List Nat) (h : ¬ w.eligible after bit clk pol x) :
    w.scan_dffs after bit clk pol (x :: rest) = w.scan_dffs after bit clk pol rest := by
  rw [Worker.scan_dffs]
  split
  · rfl
  · rename_i hfm
    simp only []
    split
    · rfl
    · rename_i hck
      split
      · rename_i d0 hd0
        exfalso
        apply h
        refine ⟨?_, ?_, by rw [hd0]; rfl⟩
        · intro ha hx
          apply hfm
          simp [ha, hx]
        · intro hne
          by_contra hcon
          apply hck
          refine ⟨hne, ?_⟩
          by_cases e1 : (w.dff_clock x).1 = clk
          · right
            intro e2
            exact hcon (Prod.ext e1 e2)
          · left; exact e1
      · rfl

theorem scan_dffs_stop (w : Worker) (after : Bool) (bit : SigBit) (clk : SigSpec)
    (pol : Bool) (c : Nat) (rest : List Nat) (d : SigBit)
    (h : w.eligible after bit clk pol c) (hd : w.dff_extract after c bit = [d]) :
    w.scan_dffs after bit clk pol (c :: rest) =
      if after = true ∧ d ∈ w.init_bits then Scan.init_blocked
      else Scan.replaced c d (w.dff_clock c).1 (w.dff_clock c).2 := by
  rw [Worker.scan_dffs]
  split
  · rename_i hfm
    exfalso
    simp only [Bool.and_eq_true, decide_eq_true_eq] at hfm
    exact h.1 hfm.1 hfm.2
  · simp only []
    split
    · rename_i hck
      exfalso
      have e := h.2.1 hck.1
      rcases hck.2 with c1 | c1
      · exact c1 (by rw [e])
      · exact c1 (by rw [e])
    · rw [hd]
      simp only [Bool.and_eq_true, decide_eq_true_eq]

theorem scan_dffs_first (w : Worker) (after : Bool) (bit : SigBit) (clk : SigSpec)
    (pol : Bool) (cells : List Nat) (c : Nat) (d : SigBit) (clk1 : SigSpec) (pol1 : Bool)
    (h : w.scan_dffs after bit clk pol cells = Scan.replaced c d clk1 pol1) :
    ∃ pre post, cells = pre ++ c :: post ∧ (∀ x ∈ pre, ¬ w.eligible after bit clk pol x) ∧
      w.eligible after bit clk pol c ∧ w.dff_extract after c bit = [d] ∧
      w.dff_clock c = (clk1, pol1) := by
  induction cells with
  | nil => simp [Worker.scan_dffs] at h
  | cons x tl ih =>
    by_cases hx : w.eligible after bit clk pol x
    · obtain ⟨d1, hd1⟩ := List.length_eq_one.mp hx.2.2
      rw [scan_dffs_stop w after bit clk pol x tl d1 hx hd1] at h
      split at h
      · cases h
      · simp only [Scan.replaced.injEq] at h
        obtain ⟨rfl, rfl, rfl, rfl⟩ := h
        exact ⟨[], tl, rfl, fun _ hm => by simp at hm, hx, hd1, rfl⟩
    · rw [scan_dffs_skip w after bit clk pol x tl hx] at h
      obtain ⟨pre, post, e, hpre, hc⟩ := ih h
      refine ⟨x :: pre, post, by rw [e]; rfl, ?_, hc⟩
      intro y hy
      rcases List.mem_cons.mp hy with e1 | e1
      · rw [e1]; exact hx
      · exact hpre y e1

/-! ## C16: first match by discovery order -/

theorem scan_dffs_none (w : Worker) (after : Bool) (bit : SigBit) (clk : SigSpec) (pol : Bool)
    (cells : List Nat) (h : ∀ x ∈ cells, ¬ w.eligible after bit clk pol x) :
    w.scan_dffs after bit clk pol cells = Scan.not_found := by
  induction cells with
  | nil => rfl
  | cons x tl ih =>
    rw [scan_dffs_skip w after bit clk pol x _ (h x (List.mem_cons_self _ _))]
    exact ih (fun y hy => h y (List.mem_cons_of_mem _ hy))

theorem dff_clock_inverted (w : Worker) (r : Nat) (c nc : SigBit)
    (hinv : dict_find w.invbits nc = some c)
    (hclk : (w.module.cell r).getPort IdString.CLK = [nc]) :
    w.dff_clock r = ([c], !((w.module.cell r).getParam IdString.CLK_POLARITY).as_bool) := by
  unfold Worker.dff_clock
  simp only [hclk, hinv]

theorem dff_clock_plain (w : Worker) (r : Nat) (c : SigBit)
    (hinv : dict_find w.invbits c = none)
    (hclk : (w.module.cell r).getPort IdString.CLK = [c]) :
    w.dff_clock r = ([c], ((w.module.cell r).getParam IdString.CLK_POLARITY).as_bool) := by
  unfold Worker.dff_clock
  simp only [hclk, hinv]

/-- C17, the claim as stated fails on `ex_wr_inv2`: the address register is clocked by
c, rising edge, the data register by nc = ~c, falling edge, but c is itself the output
of a recorded inverter.  The normalization looks through one inverter only: the
address register counts as clocked by clk0, falling edge, the data register as
clocked by c, rising edge, and handle_wr_cell rejects the data register. -/
theorem double_inverter_rejected :
    dict_find (Worker.new ex_wr_inv2).build_index.invbits (SigBit.wire 2 0)
      = some (SigBit.wire 1 0) ∧
    (ex_wr_inv2.cell 2).getPort IdString.CLK = bit1 1 ∧
    ((ex_wr_inv2.cell 2).getParam IdString.CLK_POLARITY).as_bool = true ∧
    (ex_wr_inv2.cell 3).getPort IdString.CLK = bit1 2 ∧
    ((ex_wr_inv2.cell 3).getParam IdString.CLK_POLARITY).as_bool = false ∧
    (Worker.new ex_wr_inv2).build_index.dff_clock 2 = (bit1 0, false) ∧
    (Worker.new ex_wr_inv2).build_index.dff_clock 3 = (bit1 1, true) ∧
    ((Worker.new ex_wr_inv2).build_index.handle_wr_cell 4).2 = LogMsg.no_dff_data ∧
    ((Worker.new ex_wr_inv2).build_index.handle_wr_cell 4).1.module = ex_wr_inv2 := by
  decide

/-- C17, amended: let nc be the output bit of a recorded inverter with input bit c.
(1) Every $dff whose CLK is nc counts as clocked by c with the opposite polarity.
(2) If c is not itself the output of a recorded inverter and not the constant x: a
signal of which every bit is offered by exactly one $dff, each clocked either by c
with polarity p or by nc with polarity !p, is traced successfully, from no clock or
from the clock c with polarity p, and the trace ends with the clock c and the
polarity p.  (3) If c is not the constant x: a $dff clocked by nc with polarity p is
not eligible once the clock is fixed to c with polarity p, and a trace with that
clock fails at a bit that only such cells offer. -/
theorem inverter_clock_normalization (w : Worker) (c nc : SigBit) (p : Bool)
    (hinv : dict_find w.invbits nc = some c) :
    (∀ r, (w.module.cell r).getPort IdString.CLK = [nc] →
      w.dff_clock r = ([c], !((w.module.cell r).getParam IdString.CLK_POLARITY).as_bool)) ∧
    (dict_find w.invbits c = none → [c] ≠ SigSpec.Sx →
      ∀ (after : Bool) (rOf : SigBit → Nat) (dOf : SigBit → SigBit) (bits : List SigBit)
        (clk : SigSpec) (pol : Bool) (cands : List Nat),
      (clk = SigSpec.Sx ∨ (clk = [c] ∧ pol = p)) →
      (∀ b ∈ bits, b.is_wire = true ∧
        (after = false → sigmap_bit w.sigmap b ∉ w.init_bits) ∧
        rOf b ∈ w.dff_cells ∧ (after = true → rOf b ∉ w.forward_merged_dffs) ∧
        (((w.module.cell (rOf b)).getPort IdString.CLK = [c] ∧
            ((w.module.cell (rOf b)).getParam IdString.CLK_POLARITY).as_bool = p) ∨
          ((w.module.cell (rOf b)).getPort IdString.CLK = [nc] ∧
            ((w.module.cell (rOf b)).getParam IdString.CLK_POLARITY).as_bool = !p)) ∧
        w.dff_extract after (rOf b) b = [dOf b] ∧
        (after = true → dOf b ∉ w.init_bits) ∧
        ∀ r1 ∈ w.dff_cells, r1 ≠ rOf b → (w.dff_extract after r1 b).length ≠ 1) →
      (w.trace_bits after bits clk pol cands).ok = true ∧
      (w.trace_bits after bits clk pol cands).sig = bits.map dOf ∧
      (bits ≠ [] → (w.trace_bits after bits clk pol cands).clk = [c] ∧
        (w.trace_bits after bits clk pol cands).clk_polarity = p)) ∧
    ([c] ≠ SigSpec.Sx →
      (∀ r, (w.module.cell r).getPort IdString.CLK = [nc] →
        ((w.module.cell r).getParam IdString.CLK_POLARITY).as_bool = p →
        ∀ after bit, ¬ w.eligible after bit [c] p r) ∧
      (∀ after b rest cands, b.is_wire = true →
        (∀ r ∈ w.dff_cells, (w.dff_extract after r b).length = 1 →
          (w.module.cell r).getPort IdString.CLK = [nc] ∧
          ((w.module.cell r).getParam IdString.CLK_POLARITY).as_bool = p) →
        (w.trace_bits after (b :: rest) [c] p cands).ok = false)) := by
  have hrej : [c] ≠ SigSpec.Sx → ∀ r, (w.module.cell r).getPort IdString.CLK = [nc] →
      ((w.module.cell r).getParam IdString.CLK_POLARITY).as_bool = p →
      ∀ after bit, ¬ w.eligible after bit [c] p r := by
    intro hx r hclk hpol after bit he
    have e := he.2.1 hx
    rw [dff_clock_inverted w r c nc hinv hclk, hpol] at e
    have e2 := congrArg Prod.snd e
    simp only at e2
    cases p <;> simp at e2
  refine ⟨fun r hclk => dff_clock_inverted w r c nc hinv hclk, ?_, fun hx => ⟨hrej hx, ?_⟩⟩
  · intro hc hx after rOf dOf bits clk pol cands hcur hall
    have h := trace_bits_found w after rOf dOf [c] p bits clk pol cands hcur (by
      intro b hb
      obtain ⟨h1, h2, h3, h4, h5, h6, h7, h8⟩ := hall b hb
      refine ⟨h1, h2, h3, h4, ?_, h6, h7, h8⟩
      rcases h5 with ⟨e1, e2⟩ | ⟨e1, e2⟩
      · rw [dff_clock_plain w _ c hc e1, e2]
      · rw [dff_clock_inverted w _ c nc hinv e1, e2, Bool.not_not])
    exact ⟨h.1, h.2.1, h.2.2.1⟩
  · intro after b rest cands hw hall
    have hnone : w.scan_dffs after b [c] p w.dff_cells = Scan.not_found := by
      apply scan_dffs_none
      intro x hxm he
      obtain ⟨e1, e2⟩ := hall x hxm he.2.2
      exact hrej hx x e1 e2 after b he
    cases b with
    | const st => simp [SigBit.is_wire] at hw
    | wire i o =>
      rw [Worker.trace_bits]
      simp only []
      split
      · rfl
      · rw [hnone]

/-- The three parts of `inverter_clock_normalization` on `ex_wr_mixed`, where the
address register is on clk, rising edge.  With the data register on nclk = ~clk,
falling edge, the trace of {data, addr} succeeds with the clock clk, rising edge, and
handle_wr_cell merges the port with CLK = clk and CLK_POLARITY = 1; with the data
register on nclk, rising edge, that register is not eligible once the clock is fixed
and handle_wr_cell finds no register for DATA. -/
theorem inverter_clock_normalization_witness :
    (Worker.new (ex_wr_mixed false)).build_index.dff_clock 2 = (bit1 0, true) ∧
    ((Worker.new (ex_wr_mixed false)).build_index.trace_bits false
      [SigBit.wire 3 0, SigBit.wire 5 0] SigSpec.Sx false []).sig
      = [SigBit.wire 2 0, SigBit.wire 4 0] ∧
    ((Worker.new (ex_wr_mixed false)).build_index.trace_bits false
      [SigBit.wire 3 0, SigBit.wire 5 0] SigSpec.Sx false []).clk = bit1 0 ∧
    ((Worker.new (ex_wr_mixed false)).build_index.handle_wr_cell 3).2 = LogMsg.merged ∧
    (((Worker.new (ex_wr_mixed false)).build_index.handle_wr_cell 3).1.module.cell 3).getPort
      IdString.CLK = bit1 0 ∧
    ((((Worker.new (ex_wr_mixed false)).build_index.handle_wr_cell 3).1.module.cell 3).getParam
      IdString.CLK_POLARITY).as_bool = true ∧
    ¬ (Worker.new (ex_wr_mixed true)).build_index.eligible false (SigBit.wire 5 0) (bit1 0)
      true 2 ∧
    ((Worker.new (ex_wr_mixed true)).build_index.handle_wr_cell 3).2 = LogMsg.no_dff_data :=
  have h := inverter_clock_normalization (Worker.new (ex_wr_mixed false)).build_index
    (SigBit.wire 0 0) (SigBit.wire 1 0) true (by decide)
  have h2 := h.2.1 (by decide) (by decide) false ex_wr_mixed_reg ex_wr_mixed_d
    [SigBit.wire 3 0, SigBit.wire 5 0] SigSpec.Sx false [] (Or.inl rfl) (by decide)
  have h3 := inverter_clock_normalization (Worker.new (ex_wr_mixed true)).build_index
    (SigBit.wire 0 0) (SigBit.wire 1 0) true (by decide)
  ⟨h.1 2 (by decide), h2.2.1, (h2.2.2 (by decide)).1, by decide, by decide, by decide,
    (h3.2.2 (by decide)).1 2 (by decide) (by decide) false (SigBit.wire 5 0), by decide⟩

/-! ## Lemmas on replace with a fresh replacement -/

theorem replace_cons_const (acc : SigSpec) (st : State) (ps : SigSpec) (q : SigBit)
    (qs : SigSpec) :
    acc.replace (SigBit.const st :: ps) (q :: qs) = acc.replace ps qs := rfl

theorem replace_cons_wire (acc : SigSpec) (i o : Nat) (ps : SigSpec) (q : SigBit)
    (qs : SigSpec) :
    acc.replace (SigBit.wire i o :: ps) (q :: qs) =
      SigSpec.replace (acc.map fun b => if b = SigBit.wire i o then q else b) ps qs := rfl

/-- With a replacement that shares no bit with the pattern, `replace` maps every wire
bit of the pattern to the replacement bit in the lane of its first occurrence and
leaves every other bit as it is. -/
theorem replace_eq_map (pattern : SigSpec) : ∀ (with_ self : SigSpec),
    pattern.length = with_.length → (∀ q ∈ with_, q ∉ pattern) →
    self.replace pattern with_ =
      self.map (fun b => if b.is_wire = true ∧ b ∈ pattern
        then with_.getD (pattern.indexOf b) b else b) := by
  induction pattern with
  | nil =>
    intro with_ self _ _
    simp [SigSpec.replace]
  | cons p ps ih =>
    intro with_ self hlen hfresh
    cases with_ with
    | nil => simp at hlen
    | cons q qs =>
      have hlen1 : ps.length = qs.length := by simpa using hlen
      have hfresh1 : ∀ x ∈ qs, x ∉ ps := fun x hx hm =>
        hfresh x (List.mem_cons_of_mem _ hx) (List.mem_cons_of_mem _ hm)
      have hq : q ∉ ps := fun hm =>
        hfresh q (List.mem_cons_self _ _) (List.mem_cons_of_mem _ hm)
      have hother : ∀ b : SigBit, b ≠ p →
          (if b.is_wire = true ∧ b ∈ ps then qs.getD (ps.indexOf b) b else b) =
          (if b.is_wire = true ∧ b ∈ p :: ps
            then (q :: qs).getD ((p :: ps).indexOf b) b else b) := by
        intro b hb
        have hi : (p :: ps).indexOf b = ps.indexOf b + 1 :=
          List.indexOf_cons_ne _ (Ne.symm hb)
        by_cases hm : b.is_wire = true ∧ b ∈ ps
        · rw [if_pos hm, if_pos ⟨hm.1, List.mem_cons_of_mem _ hm.2⟩, hi]
          rfl
        · rw [if_neg hm,
            if_neg (fun h => hm ⟨h.1, (List.mem_cons.mp h.2).resolve_left hb⟩)]
      cases p with
      | const st =>
        rw [replace_cons_const, ih qs _ hlen1 hfresh1]
        apply List.map_congr_left
        intro b _
        by_cases hb : b = SigBit.const st
        · subst hb
          simp [SigBit.is_wire]
        · exact hother b hb
      | wire i o =>
        rw [replace_cons_wire, ih qs _ hlen1 hfresh1, List.map_map]
        apply List.map_congr_left
        intro b _
        simp only [Function.comp]
        by_cases hb : b = SigBit.wire i o
        · subst hb
          simp [SigBit.is_wire, hq]
        · rw [if_neg hb]
          exact hother b hb

theorem Module.cell_default (m : Module) (j : Nat) (h : m.cells.length ≤ j) :
    m.cell j = default := by
  unfold Module.cell
  exact List.getD_eq_default _ _ h

/-! ## C18: the disconnect helper -/

/-- C18, the claim as stated fails.  With a repeated bit, sig = {q, q} on `ex_rd_data`,
the fresh wire is one bit wide, not two.  On `ex_rd_alias`, where the register's Q
names q_alias and q is canonical, disconnect_dff of {q_alias} and of {q} leave Q as it
is: it still names q_alias. -/
theorem disconnect_dff_width_and_alias :
    ((Worker.new ex_rd_data).build_index.disconnect_dff
      [SigBit.wire 3 0, SigBit.wire 3 0]).module.wires.map Wire.width = [1, 1, 1, 1, 1] ∧
    (((Worker.new ex_rd_data).build_index.disconnect_dff
      [SigBit.wire 3 0, SigBit.wire 3 0]).module.cell 0).getPort IdString.Q
      = [SigBit.wire 4 0] ∧
    (((Worker.new ex_rd_alias).build_index.disconnect_dff [SigBit.wire 4 0]).module.cell
      0).getPort IdString.Q = [SigBit.wire 4 0] ∧
    (((Worker.new ex_rd_alias).build_index.disconnect_dff [SigBit.wire 3 0]).module.cell
      0).getPort IdString.Q = [SigBit.wire 4 0] := by
  decide

/-- C18, amended: let P be the canonicalized signal sorted and without duplicates, and
n the position of the next wire, none of whose bits is in P.  disconnect_dff(sig)
adds one wire, at position n, of the width of P; the number of cells stays; every
cell that is no $dff is unchanged; of a $dff only the Q connection changes, keeping
its width: a Q bit that is a non-constant bit of P becomes the bit of the fresh wire
at that bit's position in P, a Q bit that is neither in P nor has its representative
in P is unchanged, and afterwards Q contains no non-constant bit of P. -/
theorem disconnect_dff_retargets (w : Worker) (sig P : SigSpec) (n : Nat)
    (hP : P = (sigmap_sig w.sigmap sig).sort_and_unify) (hn : n = w.module.wires.length)
    (hfresh : ∀ k < P.length, SigBit.wire n k ∉ P) :
    (w.disconnect_dff sig).module.wires = w.module.wires ++ [⟨P.length, false, none⟩] ∧
    (w.disconnect_dff sig).module.cells.length = w.module.cells.length ∧
    (∀ j, (w.module.cell j).type ≠ IdString.dff →
      (w.disconnect_dff sig).module.cell j = w.module.cell j) ∧
    (∀ j, j < w.module.cells.length → (w.module.cell j).type = IdString.dff →
      ((w.disconnect_dff sig).module.cell j).type = IdString.dff ∧
      ((w.disconnect_dff sig).module.cell j).parameters = (w.module.cell j).parameters ∧
      (∀ p, p ≠ IdString.Q →
        ((w.disconnect_dff sig).module.cell j).getPort p = (w.module.cell j).getPort p) ∧
      (((w.disconnect_dff sig).module.cell j).getPort IdString.Q).length
        = ((w.module.cell j).getPort IdString.Q).length ∧
      (∀ (lane : Nat) (b : SigBit), ((w.module.cell j).getPort IdString.Q)[lane]? = some b →
        (b.is_wire = true → b ∈ P →
          (((w.disconnect_dff sig).module.cell j).getPort IdString.Q)[lane]?
            = some (SigBit.wire n (P.indexOf b))) ∧
        (b ∉ P → sigmap_bit w.sigmap b ∉ P →
          (((w.disconnect_dff sig).module.cell j).getPort IdString.Q)[lane]? = some b)) ∧
      (∀ b ∈ ((w.disconnect_dff sig).module.cell j).getPort IdString.Q,
        b.is_wire = true → b ∉ P)) := by
  subst hP hn
  have hnew : (w.addWire (sigmap_sig w.sigmap sig).sort_and_unify.length).2 =
      (List.range (sigmap_sig w.sigmap sig).sort_and_unify.length).map
        (SigBit.wire w.module.wires.length) := rfl
  have hget : ∀ (k : Nat) (b : SigBit), k < (sigmap_sig w.sigmap sig).sort_and_unify.length →
      ((List.range (sigmap_sig w.sigmap sig).sort_and_unify.length).map
        (SigBit.wire w.module.wires.length)).getD k b = SigBit.wire w.module.wires.length k := by
    intro k b hk
    simp [List.getD_eq_getElem?_getD, List.getElem?_range hk]
  have hlen : (sigmap_sig w.sigmap sig).sort_and_unify.length =
      ((List.range (sigmap_sig w.sigmap sig).sort_and_unify.length).map
        (SigBit.wire w.module.wires.length)).length := by simp
  have hfr : ∀ q ∈ (List.range (sigmap_sig w.sigmap sig).sort_and_unify.length).map
      (SigBit.wire w.module.wires.length), q ∉ (sigmap_sig w.sigmap sig).sort_and_unify := by
    intro q hq
    obtain ⟨k, hk, rfl⟩ := List.mem_map.mp hq
    exact hfresh k (List.mem_range.mp hk)
  refine ⟨by simp [Worker.disconnect_dff, Worker.addWire],
    Worker.cells_length_disconnect_dff w sig, ?_, ?_⟩
  · intro j hty
    by_cases hj : j < w.module.cells.length
    · rw [Worker.cell_disconnect_dff w sig j hj, disconnect_cell_of_ne _ _ _ hty]
    · rw [Module.cell_default _ _ (Nat.le_of_not_lt hj),
        Module.cell_default _ _
          (by rw [Worker.cells_length_disconnect_dff]; exact Nat.le_of_not_lt hj)]
  · intro j hj hty
    have hc : (w.disconnect_dff sig).module.cell j =
        (w.module.cell j).setPort IdString.Q
          (((w.module.cell j).getPort IdString.Q).map (fun b =>
            if b.is_wire = true ∧ b ∈ (sigmap_sig w.sigmap sig).sort_and_unify
            then ((List.range (sigmap_sig w.sigmap sig).sort_and_unify.length).map
              (SigBit.wire w.module.wires.length)).getD
                ((sigmap_sig w.sigmap sig).sort_and_unify.indexOf b) b
            else b)) := by
      rw [Worker.cell_disconnect_dff w sig j hj, hnew]
      unfold disconnect_cell
      rw [if_pos hty, replace_eq_map _ _ _ hlen hfr]
    rw [hc]
    refine ⟨hty, rfl, fun p hp => Cell.getPort_setPort_other _ _ _ _ hp, ?_, ?_, ?_⟩
    · rw [Cell.getPort_setPort_same, List.length_map]
    · intro lane b hb
      rw [Cell.getPort_setPort_same, List.getElem?_map, hb]
      refine ⟨fun hw hm => ?_, fun hm _ => ?_⟩
      · simp only [Option.map_some', Option.some.injEq]
        rw [if_pos ⟨hw, hm⟩, hget _ _ (List.indexOf_lt_length.mpr hm)]
      · simp only [Option.map_some', Option.some.injEq]
        rw [if_neg (fun h => hm h.2)]
    · intro b hb hw hm
      rw [Cell.getPort_setPort_same] at hb
      obtain ⟨b0, _, e⟩ := List.mem_map.mp hb
      by_cases h0 : b0.is_wire = true ∧ b0 ∈ (sigmap_sig w.sigmap sig).sort_and_unify
      · rw [if_pos h0, hget _ _ (List.indexOf_lt_length.mpr h0.2)] at e
        rw [← e] at hm
        exact hfresh _ (List.indexOf_lt_length.mpr h0.2) hm
      · rw [if_neg h0] at e
        rw [← e] at hm hw
        exact h0 ⟨hw, hm⟩

/-- On `ex_rd_data`, disconnect_dff of {q} adds the one-bit wire 4 and retargets the
register's Q from q to it. -/
theorem disconnect_dff_retargets_witness :
    ((Worker.new ex_rd_data).build_index.disconnect_dff [SigBit.wire 3 0]).module.wires
      = (Worker.new ex_rd_data).build_index.module.wires ++ [⟨1, false, none⟩] ∧
    ((((Worker.new ex_rd_data).build_index.disconnect_dff [SigBit.wire 3 0]).module.cell
      0).getPort IdString.Q)[0]? = some (SigBit.wire 4 0) :=
  have h := disconnect_dff_retargets (Worker.new ex_rd_data).build_index [SigBit.wire 3 0]
    [SigBit.wire 3 0] 4 (by decide) (by decide) (by decide)
  ⟨h.1, ((h.2.2.2 0 (by decide) (by decide)).2.2.2.2.1 0 (SigBit.wire 3 0) (by decide)).1
    (by decide) (by decide)⟩

/-! ## Lemmas on the enable accumulated by the select-chain walk -/

theorem chain_step_check_q (st : Chain) (inv : Bool) (mux : Nat) :
    (chain_step st inv mux).check_q.length = st.check_q.length + 1 := by
  simp [chain_step]

theorem chain_step_en_a (st : Chain) (mux : Nat) :
    (chain_step st true mux).en.length = st.en.length + 1 := by
  simp [chain_step, Worker.LogicNot, Worker.addWire]

theorem chain_step_en_b (st : Chain) (mux : Nat) :
    (chain_step st false mux).en.length =
      st.en.length + ((st.worker.module.cell mux).getPort IdString.S).length := by
  simp [chain_step]

/-- Every iteration of the walk adds one keep side. -/
theorem chain_walk_check_q (fuel : Nat) : ∀ (st st1 : Chain), chain_walk fuel st = some st1 →
    st.check_q.length < st1.check_q.length := by
  induction fuel with
  | zero => intro st st1 h; simp [chain_walk] at h
  | succ n ih =>
    intro st st1 h
    unfold chain_walk at h
    simp only [] at h
    split at h
    · simp at h
    · rename_i mux hmux
      have hq := chain_step_check_q st (dict_find st.worker.mux_cells_a st.sig_data).isSome mux
      split at h
      · have := ih _ _ h
        omega
      · simp only [Option.some.injEq] at h
        subst h
        omega

/-- When the S input of every recorded B-side select is one bit wide, every
iteration of the walk adds one enable bit. -/
theorem chain_walk_en_length (w0 : Worker)
    (hS : ∀ key m, dict_find w0.mux_cells_b key = some m →
      ((w0.module.cell m).getPort IdString.S).length = 1)
    (fuel : Nat) : ∀ (st st1 : Chain), w0.grown st.worker → chain_walk fuel st = some st1 →
    st1.en.length + st.check_q.length = st.en.length + st1.check_q.length := by
  induction fuel with
  | zero => intro st st1 _ h; simp [chain_walk] at h
  | succ n ih =>
    intro st st1 hg h
    unfold chain_walk at h
    simp only [] at h
    split at h
    · simp at h
    · rename_i mux hmux
      have hstep : (chain_step st (dict_find st.worker.mux_cells_a st.sig_data).isSome mux).en.length
          + st.check_q.length = st.en.length +
          (chain_step st (dict_find st.worker.mux_cells_a st.sig_data).isSome mux).check_q.length := by
        rw [chain_step_check_q]
        cases ha : (dict_find st.worker.mux_cells_a st.sig_data).isSome with
        | true => rw [chain_step_en_a]; omega
        | false =>
          rw [ha] at hmux
          simp only [Bool.false_eq_true, if_false] at hmux
          rw [hg.2.2.2.2.2.1] at hmux
          have h1 := hS _ _ hmux
          have hlt : mux < w0.module.cells.length := by
            by_contra hn
            rw [Module.cell_default _ _ (Nat.le_of_not_lt hn)] at h1
            simp [Cell.getPort, dict_find] at h1
          rw [chain_step_en_b, Worker.grown_cell w0 st.worker hg mux hlt, h1]
          omega
      have hg1 := Worker.grown_trans _ _ _ hg
        (chain_step_grown st (dict_find st.worker.mux_cells_a st.sig_data).isSome mux).1
      split at h
      · have := ih _ _ hg1 h
        omega
      · simp only [Option.some.injEq] at h
        subst h
        exact hstep

/-- The EN connection an enable-chain commit leaves at the port. -/
theorem commit_rd_en_EN (v : Worker) (cell : Nat) (t : Trace) (en0 : SigSpec)
    (hcell : cell < v.module.cells.length) :
    ((v.commit_rd_en cell t en0).module.cell cell).getPort IdString.EN =
      if en0.length > 1 then [SigBit.wire (v.module.wires.length + 1) 0] else en0 := by
  have h3 : cell <
      ((v.disconnect_dff t.sig).setPort cell IdString.CLK t.clk).module.cells.length := by
    rw [Worker.cells_length_setPort, Worker.cells_length_disconnect_dff]; exact hcell
  unfold Worker.commit_rd_en
  simp only []
  by_cases hr : en0.length > 1
  · rw [if_pos hr, if_pos hr]
    rw [cell_after_rd_data_writes _ _ _ _ _ _ _
      (by rw [Worker.cells_length_ReduceAnd]; exact Nat.lt_succ_of_lt h3)]
    rw [Cell.getPort_setParam, Cell.getPort_setParam, Cell.getPort_setParam,
      Cell.getPort_setPort_other _ _ _ _ (by decide), Cell.getPort_setPort_same]
    simp [Worker.ReduceAnd, Worker.addWire, Worker.addUnary, Worker.setPort,
      Worker.disconnect_dff, List.range_succ]
  · rw [if_neg hr, if_neg hr]
    rw [cell_after_rd_data_writes _ _ _ _ _ _ _ h3]
    rw [Cell.getPort_setParam, Cell.getPort_setParam, Cell.getPort_setParam,
      Cell.getPort_setPort_other _ _ _ _ (by decide), Cell.getPort_setPort_same]

/-- The $reduce_and cell an enable-chain commit adds for more than one enable bit. -/
theorem commit_rd_en_reduce_and (v : Worker) (cell : Nat) (t : Trace) (en0 : SigSpec)
    (hcell : cell < v.module.cells.length) (hr : en0.length > 1) :
    (v.commit_rd_en cell t en0).module.cell v.module.cells.length =
      ⟨IdString.reduce_and,
        [(IdString.A, en0), (IdString.Y, [SigBit.wire (v.module.wires.length + 1) 0])],
        [(IdString.A_SIGNED, Const.of_int 0 32),
         (IdString.A_WIDTH, Const.of_int en0.length 32),
         (IdString.Y_WIDTH, Const.of_int 1 32)]⟩ := by
  have hj : v.module.cells.length ≠ cell := Nat.ne_of_gt hcell
  unfold Worker.commit_rd_en
  simp only [Worker.cell_setParam_other _ _ _ _ _ hj, Worker.cell_setPort_other _ _ _ _ _ hj]
  rw [if_pos hr]
  simp [Worker.ReduceAnd, Worker.addWire, Worker.addUnary, Worker.setPort,
    Worker.disconnect_dff, Module.cell, List.range_succ, List.getD_eq_getElem?_getD]

theorem rd_addr_log (v : Worker) (cell : Nat) (pol : Bool) :
    (v.rd_addr cell pol).2 ≠ LogMsg.merged_rd_en := by
  rcases rd_addr_cases v cell pol with c | c
  · rw [c.1]; decide
  · rw [c.1]; decide

/-! ## C19: the commit of the enable-chain strategy -/

/-- C19: let handle_rd_cell commit the enable-chain strategy on the port `cell`.  Then
the select-chain walk from the port's DATA has returned a state `st` after
k = |check_q| >= 1 selects; the post trace of the final select output, started
without a clock, has returned true with a clock other than x; and every collected
keep side equals the traced signal.  When the S input of every recorded B-side select
is one bit wide, the accumulated enable has k bits.  The port's EN is the accumulated
enable itself when that has at most one bit, and otherwise the output bit of a new
$reduce_and cell whose input A is the accumulated enable, in chain order. -/
theorem rd_enable_commit (fuel : Nat) (w : Worker) (cell : Nat) (w1 : Worker)
    (hcell : cell < w.module.cells.length)
    (h : w.handle_rd_cell fuel cell = some (w1, LogMsg.merged_rd_en)) :
    ∃ st : Chain,
      chain_walk fuel ⟨w, (w.module.cell cell).getPort IdString.DATA, [], []⟩ = some st ∧
      1 ≤ st.check_q.length ∧
      ((∀ key m, dict_find w.mux_cells_b key = some m →
          ((w.module.cell m).getPort IdString.S).length = 1) →
        st.en.length = st.check_q.length) ∧
      (st.worker.find_sig_before_dff st.sig_data SigSpec.Sx false true).ok = true ∧
      (st.worker.find_sig_before_dff st.sig_data SigSpec.Sx false true).clk ≠ SigSpec.Sx ∧
      (∀ cq ∈ st.check_q,
        cq = (st.worker.find_sig_before_dff st.sig_data SigSpec.Sx false true).sig) ∧
      (st.en.length ≤ 1 → (w1.module.cell cell).getPort IdString.EN = st.en) ∧
      (1 < st.en.length →
        (w1.module.cell cell).getPort IdString.EN
          = [SigBit.wire (st.worker.module.wires.length + 1) 0] ∧
        w1.module.cell st.worker.module.cells.length =
          ⟨IdString.reduce_and,
            [(IdString.A, st.en),
             (IdString.Y, [SigBit.wire (st.worker.module.wires.length + 1) 0])],
            [(IdString.A_SIGNED, Const.of_int 0 32),
             (IdString.A_WIDTH, Const.of_int st.en.length 32),
             (IdString.Y_WIDTH, Const.of_int 1 32)]⟩) := by
  unfold Worker.handle_rd_cell at h
  simp only [] at h
  split at h
  · simp only [Option.some.injEq] at h
    exact absurd (congrArg Prod.snd h) (rd_addr_log _ _ _)
  · split at h
    · split at h
      · simp at h
      · rename_i st hst
        have hg := (chain_walk_grown fuel _ _ hst).1
        have hq := chain_walk_check_q fuel _ _ hst
        split at h
        · simp only [Option.some.injEq] at h
          exact absurd (congrArg Prod.snd h) (rd_addr_log _ _ _)
        · split at h
          · rename_i hc
            simp only [Option.some.injEq, Prod.mk.injEq, and_true] at h
            have hlen : cell < ({ st.worker with
                candidate_dffs := (st.worker.find_sig_before_dff st.sig_data SigSpec.Sx false
                  true).candidate_dffs } : Worker).module.cells.length :=
              Nat.lt_of_lt_of_le hcell (Worker.grown_length _ _ hg)
            refine ⟨st, hst, hq, ?_, hc.1, hc.2.1, ?_, ?_, ?_⟩
            · intro hS
              have e := chain_walk_en_length w hS fuel _ _ (Worker.grown_refl w) hst
              simpa using e
            · intro cq hcq
              have e := List.all_eq_true.mp hc.2.2 cq hcq
              simpa using e
            · intro hle
              rw [← h, commit_rd_en_EN _ _ _ _ hlen, if_neg (Nat.not_lt.mpr hle)]
            · intro hgt
              rw [← h]
              refine ⟨?_, ?_⟩
              · rw [commit_rd_en_EN _ _ _ _ hlen, if_pos hgt]
              · exact commit_rd_en_reduce_and _ _ _ _ hlen hgt
          · simp only [Option.some.injEq] at h
            exact absurd (congrArg Prod.snd h) (rd_addr_log _ _ _)
    · split at h
      · simp only [Option.some.injEq, Prod.mk.injEq] at h
        exact absurd h.2 (by decide)
      · simp only [Option.some.injEq] at h
        exact absurd (congrArg Prod.snd h) (rd_addr_log _ _ _)

/-- On `ex_rd_en2` (two selects) handle_rd_cell commits the enable-chain strategy; the
walk has visited two selects and collected two enable bits, and the port's EN is the
output of the new $reduce_and cell. -/
theorem rd_enable_commit_witness :
    ∃ st : Chain,
      chain_walk 2 ⟨(Worker.new ex_rd_en2).build_index, bit1 2, [], []⟩ = some st ∧
      st.check_q.length = 2 ∧ st.en = [SigBit.wire 8 0, SigBit.wire 9 0] ∧
      (((Worker.new ex_rd_en2).build_index.handle_rd_cell 2 0).map fun r =>
        (r.1.module.cell 0).getPort IdString.EN)
        = some [SigBit.wire (st.worker.module.wires.length + 1) 0] := by
  have hs : ((Worker.new ex_rd_en2).build_index.handle_rd_cell 2 0).map Prod.snd
      = some LogMsg.merged_rd_en := by decide
  obtain ⟨⟨w1, log⟩, h1, h2⟩ := Option.map_eq_some'.mp hs
  simp only at h2
  subst h2
  obtain ⟨st, hst, _, _, _, _, _, _, hen⟩ :=
    rd_enable_commit 2 (Worker.new ex_rd_en2).build_index 0 w1 (by decide) h1
  have e : chain_walk 2 ⟨(Worker.new ex_rd_en2).build_index, bit1 2, [], []⟩ = some st := hst
  have hv : (chain_walk 2 ⟨(Worker.new ex_rd_en2).build_index, bit1 2, [], []⟩).map
      (fun s => (s.check_q.length, s.en)) = some (2, [SigBit.wire 8 0, SigBit.wire 9 0]) := by
    decide
  rw [e] at hv
  simp only [Option.map_some', Option.some.injEq, Prod.mk.injEq] at hv
  refine ⟨st, e, hv.1, hv.2, ?_⟩
  rw [h1]
  simp only [Option.map_some', Option.some.injEq]
  exact (hen (by rw [hv.2]; decide)).1

/-! ## Lemmas on the termination of the select-chain walk -/

theorem feeds_mux_iff (w : Worker) (sig : SigSpec) :
    w.feeds_mux sig = true ↔ ∃ m, w.mux_at sig = some m := by
  unfold Worker.feeds_mux Worker.mux_at
  cases ha : dict_find w.mux_cells_a sig with
  | some m => simp
  | none =>
    cases hb : dict_find w.mux_cells_b sig with
    | some m => simp
    | none => simp

theorem mux_at_recorded (w : Worker) (sig : SigSpec) (m : Nat) (h : w.mux_at sig = some m) :
    dict_find w.mux_cells_a sig = some m ∨ dict_find w.mux_cells_b sig = some m := by
  unfold Worker.mux_at at h
  cases ha : dict_find w.mux_cells_a sig with
  | some m1 => rw [ha] at h; exact Or.inl h
  | none => rw [ha] at h; exact Or.inr h

/-- One iteration of the loop in terms of the select that `mux_at` picks. -/
theorem chain_walk_succ (fuel : Nat) (st : Chain) (m : Nat)
    (h : st.worker.mux_at st.sig_data = some m) :
    chain_walk (fuel + 1) st =
      if (chain_step st (dict_find st.worker.mux_cells_a st.sig_data).isSome m).worker.feeds_mux
          (chain_step st (dict_find st.worker.mux_cells_a st.sig_data).isSome m).sig_data
      then chain_walk fuel (chain_step st (dict_find st.worker.mux_cells_a st.sig_data).isSome m)
      else some (chain_step st (dict_find st.worker.mux_cells_a st.sig_data).isSome m) := by
  unfold Worker.mux_at at h
  rw [chain_walk]
  cases ha : dict_find st.worker.mux_cells_a st.sig_data with
  | some m1 =>
    rw [ha] at h
    simp only [Option.some.injEq] at h
    subst h
    simp
  | none =>
    rw [ha] at h
    simp only at h
    simp [h]

theorem mux_at_grown (w v : Worker) (hg : w.grown v) (sig : SigSpec) :
    v.mux_at sig = w.mux_at sig := by
  unfold Worker.mux_at
  rw [hg.2.2.2.2.1, hg.2.2.2.2.2.1]

theorem feeds_mux_grown (w v : Worker) (hg : w.grown v) (sig : SigSpec) :
    v.feeds_mux sig = w.feeds_mux sig := by
  unfold Worker.feeds_mux
  rw [hg.2.2.2.2.1, hg.2.2.2.2.2.1]

/-- The signal the loop goes on with after the recorded select `m`. -/
theorem chain_step_sig_data (w : Worker) (st : Chain) (hg : w.grown st.worker) (inv : Bool)
    (m : Nat) (hm : m < w.module.cells.length) :
    (chain_step st inv m).sig_data
      = sigmap_sig w.sigmap ((w.module.cell m).getPort IdString.Y) := by
  unfold chain_step
  simp only []
  rw [hg.1, Worker.grown_cell w st.worker hg m hm]

theorem chain_walk_iterations (fuel : Nat) : ∀ (st st1 : Chain),
    chain_walk fuel st = some st1 → st1.check_q.length ≤ st.check_q.length + fuel := by
  induction fuel with
  | zero => intro st st1 h; simp [chain_walk] at h
  | succ n ih =>
    intro st st1 h
    unfold chain_walk at h
    simp only [] at h
    split at h
    · simp at h
    · rename_i mux hmux
      have hq := chain_step_check_q st (dict_find st.worker.mux_cells_a st.sig_data).isSome mux
      split at h
      · have := ih _ _ h
        omega
      · simp only [Option.some.injEq] at h
        subst h
        omega

theorem mux_cells_nodup (m : Module) : m.mux_cells.Nodup :=
  List.Nodup.filter _ (List.nodup_range _)

theorem mem_mux_cells (m : Module) (i : Nat) (hi : i < m.cells.length)
    (hty : (m.cell i).type = IdString.mux) : i ∈ m.mux_cells := by
  unfold Module.mux_cells
  simp [hi, hty]

/-- While no select repeats, the walk needs no more fuel than there are $mux cells
left. -/
theorem chain_walk_terminates (w : Worker) (hs : w.index_sound)
    (hacyc : ∀ m, ¬ Relation.TransGen w.mux_next m m) (fuel : Nat) :
    ∀ (visited : List Nat) (st : Chain) (m : Nat),
    w.grown st.worker → w.mux_at st.sig_data = some m →
    visited.Nodup → (∀ v ∈ visited, v ∈ w.module.mux_cells) →
    (∀ v ∈ visited, Relation.TransGen w.mux_next v m) →
    w.module.mux_cells.length ≤ fuel + visited.length →
    ∃ st1, chain_walk fuel st = some st1 := by
  induction fuel with
  | zero =>
    intro visited st m hg hm hnd hsub hreach hlen
    exfalso
    have hrec := mux_at_recorded w _ m hm
    have hmS : m ∈ w.module.mux_cells :=
      mem_mux_cells _ m (hs _ m hrec).1 (hs _ m hrec).2
    have hnot : m ∉ visited := fun hv => hacyc m (hreach m hv)
    have hnd2 : (m :: visited).Nodup := List.nodup_cons.mpr ⟨hnot, hnd⟩
    have hsub2 : m :: visited ⊆ w.module.mux_cells := by
      intro x hx
      rcases List.mem_cons.mp hx with e | e
      · rw [e]; exact hmS
      · exact hsub x e
    have := (List.subperm_of_subset hnd2 hsub2).length_le
    simp only [List.length_cons] at this
    omega
  | succ n ih =>
    intro visited st m hg hm hnd hsub hreach hlen
    have hrec := mux_at_recorded w _ m hm
    have hmlt := (hs _ m hrec).1
    have hmS : m ∈ w.module.mux_cells := mem_mux_cells _ m hmlt (hs _ m hrec).2
    have hnot : m ∉ visited := fun hv => hacyc m (hreach m hv)
    have hm1 : st.worker.mux_at st.sig_data = some m := by
      rw [mux_at_grown w st.worker hg]; exact hm
    rw [chain_walk_succ n st m hm1]
    have hg1 := Worker.grown_trans _ _ _ hg
      (chain_step_grown st (dict_find st.worker.mux_cells_a st.sig_data).isSome m).1
    split
    · rename_i hf
      rw [feeds_mux_grown w _ hg1, feeds_mux_iff] at hf
      obtain ⟨m1, hm2⟩ := hf
      have hnext : w.mux_next m m1 := by
        refine ⟨⟨_, hrec⟩, ?_⟩
        rw [chain_step_sig_data w st hg _ m hmlt] at hm2
        exact hm2
      refine ih (m :: visited) _ m1 hg1 hm2 (List.nodup_cons.mpr ⟨hnot, hnd⟩) ?_ ?_ ?_
      · intro x hx
        rcases List.mem_cons.mp hx with e | e
        · rw [e]; exact hmS
        · exact hsub x e
      · intro x hx
        rcases List.mem_cons.mp hx with e | e
        · rw [e]; exact Relation.TransGen.single hnext
        · exact Relation.TransGen.tail (hreach x e) hnext
      · simp only [List.length_cons]
        omega
    · exact ⟨_, rfl⟩

/-- A select from which the walk reaches a cycle. -/
theorem mux_next_live (w : Worker) (m c : Nat) (hmc : Relation.ReflTransGen w.mux_next m c)
    (hcc : Relation.TransGen w.mux_next c c) :
    ∃ m1, w.mux_next m m1 ∧ Relation.ReflTransGen w.mux_next m1 c := by
  rcases Relation.ReflTransGen.cases_head hmc with e | ⟨m1, h1, h2⟩
  · subst e
    exact Relation.TransGen.head'_iff.mp hcc
  · exact ⟨m1, h1, h2⟩

/-- From a select that reaches a cycle the walk never returns. -/
theorem chain_walk_diverges (w : Worker) (hs : w.index_sound) (c : Nat)
    (hcc : Relation.TransGen w.mux_next c c) (fuel : Nat) :
    ∀ (st : Chain) (m : Nat), w.grown st.worker → w.mux_at st.sig_data = some m →
    Relation.ReflTransGen w.mux_next m c → chain_walk fuel st = none := by
  induction fuel with
  | zero => intro st m _ _ _; rfl
  | succ n ih =>
    intro st m hg hm hmc
    have hrec := mux_at_recorded w _ m hm
    have hmlt := (hs _ m hrec).1
    have hm1 : st.worker.mux_at st.sig_data = some m := by
      rw [mux_at_grown w st.worker hg]; exact hm
    obtain ⟨m1, hnext, hm1c⟩ := mux_next_live w m c hmc hcc
    have hg1 := Worker.grown_trans _ _ _ hg
      (chain_step_grown st (dict_find st.worker.mux_cells_a st.sig_data).isSome m).1
    have hat : w.mux_at
        (chain_step st (dict_find st.worker.mux_cells_a st.sig_data).isSome m).sig_data
        = some m1 := by
      rw [chain_step_sig_data w st hg _ m hmlt]
      exact hnext.2
    rw [chain_walk_succ n st m hm1, if_pos (by
      rw [feeds_mux_grown w _ hg1, feeds_mux_iff]
      exact ⟨m1, hat⟩)]
    exact ih _ m1 hg1 hat hm1c

theorem dict_find_set_cases {κ υ : Type} [DecidableEq κ] (d : List (κ × υ)) (k key : κ)
    (v x : υ) (h : dict_find (dict_set d k v) key = some x) :
    x = v ∨ dict_find d key = some x := by
  by_cases e : key = k
  · subst e
    rw [dict_find_set_same] at h
    exact Or.inl (Option.some.inj h).symm
  · rw [dict_find_set_other _ _ _ _ e] at h
    exact Or.inr h

theorem index_cell_mux_cells (w : Worker) (i : Nat) :
    (w.index_cell i).mux_cells_a =
      (if (w.module.cell i).type = IdString.mux then
        dict_set w.mux_cells_a (sigmap_sig w.sigmap ((w.module.cell i).getPort IdString.A)) i
      else w.mux_cells_a) ∧
    (w.index_cell i).mux_cells_b =
      (if (w.module.cell i).type = IdString.mux then
        dict_set w.mux_cells_b (sigmap_sig w.sigmap ((w.module.cell i).getPort IdString.B)) i
      else w.mux_cells_b) := by
  unfold Worker.index_cell
  simp only []
  split <;> split <;> split <;> simp_all

/-- The index built by run records only $mux cells of the module as selects. -/
theorem build_index_sound (m : Module) : (Worker.new m).build_index.index_sound := by
  have step : ∀ (l : List Nat) (w : Worker), w.module = m →
      (∀ i ∈ l, i < m.cells.length) →
      (∀ key x, (dict_find w.mux_cells_a key = some x ∨ dict_find w.mux_cells_b key = some x) →
        x < m.cells.length ∧ (m.cell x).type = IdString.mux) →
      (l.foldl Worker.index_cell w).module = m ∧
      ∀ key x, (dict_find (l.foldl Worker.index_cell w).mux_cells_a key = some x ∨
          dict_find (l.foldl Worker.index_cell w).mux_cells_b key = some x) →
        x < m.cells.length ∧ (m.cell x).type = IdString.mux := by
    intro l
    induction l with
    | nil => intro w hm _ hd; exact ⟨hm, hd⟩
    | cons a t ih =>
      intro w hm hl hd
      rw [List.foldl_cons]
      refine ih _ (by rw [Worker.index_cell_module]; exact hm)
        (fun i hi => hl i (List.mem_cons_of_mem _ hi)) ?_
      intro key x hx
      have ha := hl a (List.mem_cons_self _ _)
      obtain ⟨ea, eb⟩ := index_cell_mux_cells w a
      rw [ea, eb, hm] at hx
      by_cases hty : (m.cell a).type = IdString.mux
      · rw [if_pos hty, if_pos hty] at hx
        rcases hx with hx | hx
        · rcases dict_find_set_cases _ _ _ _ _ hx with e | e
          · rw [e]; exact ⟨ha, hty⟩
          · exact hd key x (Or.inl e)
        · rcases dict_find_set_cases _ _ _ _ _ hx with e | e
          · rw [e]; exact ⟨ha, hty⟩
          · exact hd key x (Or.inr e)
      · rw [if_neg hty, if_neg hty] at hx
        exact hd key x hx
  have hm : (Worker.new m).build_index.module = m := Worker.build_index_module _
  unfold Worker.index_sound
  rw [hm]
  unfold Worker.build_index
  exact (step _ _ rfl (fun i hi => by simpa using hi)
    (fun key x hx => by simp [Worker.new, Worker.index_wires, dict_find] at hx)).2

theorem mux_next_feeds (w : Worker) (a b : Nat) (h : w.mux_next a b) : w.mux_feeds a b :=
  ⟨h.1, mux_at_recorded w _ b h.2⟩

theorem acyclic_of_lt (r : Nat → Nat → Prop) (h : ∀ a b, r a b → a < b) :
    ∀ a, ¬ Relation.TransGen r a a := by
  have key : ∀ a b, Relation.TransGen r a b → a < b := by
    intro a b hab
    induction hab with
    | single h1 => exact h _ _ h1
    | tail _ h2 ih => exact Nat.lt_trans ih (h _ _ h2)
  intro a ha
  exact Nat.lt_irrefl _ (key a a ha)

theorem handle_rd_cell_returns (fuel : Nat) (w : Worker) (cell : Nat)
    (h : w.feeds_mux ((w.module.cell cell).getPort IdString.DATA) = true →
      ∃ st, chain_walk fuel ⟨w, (w.module.cell cell).getPort IdString.DATA, [], []⟩ = some st) :
    (w.handle_rd_cell fuel cell).isSome = true := by
  unfold Worker.handle_rd_cell
  simp only []
  split
  · rfl
  · split
    · rename_i hf
      obtain ⟨st, hst⟩ := h hf
      rw [hst]
      simp only []
      split
      · rfl
      · split <;> rfl
    · split <;> rfl

theorem handle_rd_cell_none (fuel : Nat) (w : Worker) (cell : Nat)
    (hu : ∀ bit ∈ sigmap_sig w.sigmap ((w.module.cell cell).getPort IdString.DATA),
      w.users bit ≤ 1)
    (hf : w.feeds_mux ((w.module.cell cell).getPort IdString.DATA) = true)
    (h : chain_walk fuel ⟨w, (w.module.cell cell).getPort IdString.DATA, [], []⟩ = none) :
    w.handle_rd_cell fuel cell = none := by
  unfold Worker.handle_rd_cell
  simp only []
  rw [if_neg (by
    simp only [List.any_eq_true, decide_eq_true_eq, not_exists, not_and, not_lt]
    exact hu), if_pos hf, h]

/-- In `ex_rd_en2` a select feeds only a select at a later position. -/
theorem ex_rd_en2_feeds_lt (a b : Nat) (h : (Worker.new ex_rd_en2).build_index.mux_feeds a b) :
    a < b := by
  obtain ⟨⟨key, hk⟩, hf⟩ := h
  have hs := build_index_sound ex_rd_en2 key a hk
  have hlt : a < 4 := hs.1
  interval_cases a
  · exact absurd hs.2 (by decide)
  · have e1 : dict_find (Worker.new ex_rd_en2).build_index.mux_cells_a
        (sigmap_sig (Worker.new ex_rd_en2).build_index.sigmap
          (((Worker.new ex_rd_en2).build_index.module.cell 1).getPort IdString.Y)) = some 2 := by
      decide
    have e2 : dict_find (Worker.new ex_rd_en2).build_index.mux_cells_b
        (sigmap_sig (Worker.new ex_rd_en2).build_index.sigmap
          (((Worker.new ex_rd_en2).build_index.module.cell 1).getPort IdString.Y)) = none := by
      decide
    rw [e1, e2] at hf
    rcases hf with c | c
    · rw [← Option.some.inj c]; decide
    · cases c
  · have e1 : dict_find (Worker.new ex_rd_en2).build_index.mux_cells_a
        (sigmap_sig (Worker.new ex_rd_en2).build_index.sigmap
          (((Worker.new ex_rd_en2).build_index.module.cell 2).getPort IdString.Y)) = none := by
      decide
    have e2 : dict_find (Worker.new ex_rd_en2).build_index.mux_cells_b
        (sigmap_sig (Worker.new ex_rd_en2).build_index.sigmap
          (((Worker.new ex_rd_en2).build_index.module.cell 2).getPort IdString.Y)) = none := by
      decide
    rw [e1, e2] at hf
    rcases hf with c | c <;> cases c
  · exact absurd hs.2 (by decide)

/-! ## C20: termination of the select-chain walk -/

/-- C20, the claim as stated fails on `ex_mux_side_cycle`: the relation has the cycle
cell 3 -> cell 3 (Y of cell 3 is its own A key), reachable from the select that the
port's DATA feeds (Y of cell 1 is the B key of cell 3); but Y of cell 1 is also the A
key of cell 2, which the loop body prefers, and the loop ends after two iterations;
handle_rd_cell returns. -/
theorem side_cycle_walk_returns :
    dict_find (Worker.new ex_mux_side_cycle).build_index.mux_cells_a
      ((ex_mux_side_cycle.cell 0).getPort IdString.DATA) = some 1 ∧
    Relation.ReflTransGen (Worker.new ex_mux_side_cycle).build_index.mux_feeds 1 3 ∧
    Relation.TransGen (Worker.new ex_mux_side_cycle).build_index.mux_feeds 3 3 ∧
    ((chain_walk 2 ⟨(Worker.new ex_mux_side_cycle).build_index, bit1 1, [], []⟩).map fun st =>
      (st.sig_data, st.check_q.length)) = some (bit1 5, 2) ∧
    ((Worker.new ex_mux_side_cycle).build_index.handle_rd_cell 2 0).isSome = true :=
  ⟨by decide,
    Relation.ReflTransGen.single ⟨⟨bit1 1, Or.inl (by decide)⟩, Or.inr (by decide)⟩,
    Relation.TransGen.single ⟨⟨bit1 6, Or.inl (by decide)⟩, Or.inl (by decide)⟩,
    by decide, by decide⟩

/-- C20, amended: let every recorded select be a $mux cell of the module (as in the
index built by run), and let N be the number of $mux cells.  (1) If the relation
"the canonical Y of a recorded select is the A or B key of a recorded select" has no
cycle, the do-while loop started on the port's DATA ends after at most N iterations,
and handle_rd_cell returns.  (2) If the selects that the loop body itself picks,
starting from the one it picks for DATA, lead into a cycle, the loop does not end
within any number of iterations, and handle_rd_cell does not return when the DATA
bits have at most one user each. -/
theorem chain_walk_termination (w : Worker) (cell : Nat) (hs : w.index_sound) :
    ((∀ m, ¬ Relation.TransGen w.mux_feeds m m) →
      (w.feeds_mux ((w.module.cell cell).getPort IdString.DATA) = true →
        ∃ st, chain_walk w.module.mux_cells.length
            ⟨w, (w.module.cell cell).getPort IdString.DATA, [], []⟩ = some st ∧
          st.check_q.length ≤ w.module.mux_cells.length) ∧
      (w.handle_rd_cell w.module.mux_cells.length cell).isSome = true) ∧
    (∀ m c, w.mux_at ((w.module.cell cell).getPort IdString.DATA) = some m →
      Relation.ReflTransGen w.mux_next m c → Relation.TransGen w.mux_next c c →
      (∀ fuel, chain_walk fuel ⟨w, (w.module.cell cell).getPort IdString.DATA, [], []⟩
        = none) ∧
      ((∀ bit ∈ sigmap_sig w.sigmap ((w.module.cell cell).getPort IdString.DATA),
          w.users bit ≤ 1) →
        ∀ fuel, w.handle_rd_cell fuel cell = none)) := by
  refine ⟨fun hacyc => ?_, fun m c hm hmc hcc => ?_⟩
  · have hacyc1 : ∀ m, ¬ Relation.TransGen w.mux_next m m := fun m h =>
      hacyc m (Relation.TransGen.mono (mux_next_feeds w) h)
    have hwalk : w.feeds_mux ((w.module.cell cell).getPort IdString.DATA) = true →
        ∃ st, chain_walk w.module.mux_cells.length
            ⟨w, (w.module.cell cell).getPort IdString.DATA, [], []⟩ = some st ∧
          st.check_q.length ≤ w.module.mux_cells.length := by
      intro hf
      obtain ⟨m, hm⟩ := (feeds_mux_iff w _).mp hf
      obtain ⟨st, hst⟩ := chain_walk_terminates w hs hacyc1 w.module.mux_cells.length []
        ⟨w, (w.module.cell cell).getPort IdString.DATA, [], []⟩ m (Worker.grown_refl w) hm
        List.nodup_nil (fun v hv => by simp at hv) (fun v hv => by simp at hv) (by simp)
      refine ⟨st, hst, ?_⟩
      have := chain_walk_iterations _ _ _ hst
      simpa using this
    refine ⟨hwalk, handle_rd_cell_returns _ w cell (fun hf => ?_)⟩
    obtain ⟨st, hst, _⟩ := hwalk hf
    exact ⟨st, hst⟩
  · have hnone : ∀ fuel,
        chain_walk fuel ⟨w, (w.module.cell cell).getPort IdString.DATA, [], []⟩ = none :=
      fun fuel => chain_walk_diverges w hs c hcc fuel _ m (Worker.grown_refl w) hm hmc
    refine ⟨hnone, fun hu fuel => handle_rd_cell_none fuel w cell hu ?_ (hnone fuel)⟩
    exact (feeds_mux_iff w _).mpr ⟨m, hm⟩

/-- Both parts of `chain_walk_termination`: on `ex_rd_en2` (two selects in a row, no
cycle) handle_rd_cell returns with fuel 2; on `ex_mux_loop` (a select whose Y is its
own A input and the port's DATA) it returns for no fuel. -/
theorem chain_walk_termination_witness :
    ((Worker.new ex_rd_en2).build_index.handle_rd_cell 2 0).isSome = true ∧
    ∀ fuel, (Worker.new ex_mux_loop).build_index.handle_rd_cell fuel 0 = none :=
  ⟨((chain_walk_termination (Worker.new ex_rd_en2).build_index 0
      (build_index_sound ex_rd_en2)).1
      (acyclic_of_lt _ ex_rd_en2_feeds_lt)).2,
   ((chain_walk_termination (Worker.new ex_mux_loop).build_index 0
      (build_index_sound ex_mux_loop)).2 1 1 (by decide) Relation.ReflTransGen.refl
      (Relation.TransGen.single ⟨⟨bit1 1, Or.inl (by decide)⟩, by decide⟩)).2 (by decide)⟩

/-! ## Lemmas on the usage index -/

theorem count_inc_ge (d : List (SigBit × Nat)) (bit b : SigBit) :
    (dict_find d b).getD 0 ≤ (dict_find (count_inc d bit) b).getD 0 ∧
    (b = bit → (dict_find d b).getD 0 + 1 ≤ (dict_find (count_inc d bit) b).getD 0) := by
  unfold count_inc
  by_cases e : b = bit
  · subst e
    rw [dict_find_set_same]
    simp
  · rw [dict_find_set_other _ _ _ _ e]
    exact ⟨le_refl _, fun h => absurd h e⟩

theorem foldl_count_inc_ge (bits : List SigBit) (b : SigBit) : ∀ (d : List (SigBit × Nat)),
    (dict_find d b).getD 0 ≤ (dict_find (bits.foldl count_inc d) b).getD 0 ∧
    (b ∈ bits → (dict_find d b).getD 0 + 1 ≤ (dict_find (bits.foldl count_inc d) b).getD 0) := by
  induction bits with
  | nil => intro d; exact ⟨le_refl _, fun h => by simp at h⟩
  | cons a t ih =>
    intro d
    rw [List.foldl_cons]
    have h1 := count_inc_ge d a b
    have h2 := ih (count_inc d a)
    refine ⟨le_trans h1.1 h2.1, fun hm => ?_⟩
    rcases List.mem_cons.mp hm with e | e
    · exact le_trans (h1.2 e) h2.1
    · exact le_trans (Nat.add_le_add_right h1.1 1) (h2.2 e)

/-- The loop of lines 275-278 over the connections of one cell never lowers a count,
and raises the count of a bit that a counted connection contains. -/
theorem foldl_conns_ge (sm : List (SigBit × SigBit)) (counts : IdString → Bool)
    (conns : List (IdString × SigSpec)) (b : SigBit) : ∀ (d : List (SigBit × Nat)),
    (dict_find d b).getD 0 ≤
      (dict_find (conns.foldl (fun acc conn =>
        if counts conn.1 then (sigmap_sig sm conn.2).foldl count_inc acc else acc) d) b).getD 0 ∧
    ((∃ conn ∈ conns, counts conn.1 = true ∧ b ∈ sigmap_sig sm conn.2) →
      (dict_find d b).getD 0 + 1 ≤
        (dict_find (conns.foldl (fun acc conn =>
          if counts conn.1 then (sigmap_sig sm conn.2).foldl count_inc acc else acc) d) b).getD
          0) := by
  induction conns with
  | nil => intro d; exact ⟨le_refl _, fun ⟨_, h, _⟩ => by simp at h⟩
  | cons c t ih =>
    intro d
    rw [List.foldl_cons]
    have h2 := ih (if counts c.1 then (sigmap_sig sm c.2).foldl count_inc d else d)
    have h1 : (dict_find d b).getD 0 ≤
        (dict_find (if counts c.1 then (sigmap_sig sm c.2).foldl count_inc d else d) b).getD 0 ∧
        (counts c.1 = true ∧ b ∈ sigmap_sig sm c.2 → (dict_find d b).getD 0 + 1 ≤
          (dict_find (if counts c.1 then (sigmap_sig sm c.2).foldl count_inc d else d) b).getD
            0) := by
      by_cases hc : counts c.1 = true
      · rw [if_pos hc]
        exact ⟨(foldl_count_inc_ge _ b d).1, fun h => (foldl_count_inc_ge _ b d).2 h.2⟩
      · rw [if_neg hc]
        exact ⟨le_refl _, fun h => absurd h.1 hc⟩
    refine ⟨le_trans h1.1 h2.1, ?_⟩
    rintro ⟨conn, hm, hcn⟩
    rcases List.mem_cons.mp hm with e | e
    · subst e
      exact le_trans (h1.2 hcn) h2.1
    · exact le_trans (Nat.add_le_add_right h1.1 1) (h2.2 ⟨conn, e, hcn⟩)

theorem Worker.index_cell_sigmap (w : Worker) (i : Nat) : (w.index_cell i).sigmap = w.sigmap := by
  unfold Worker.index_cell
  simp only []
  split <;> split <;> split <;> rfl

theorem index_cell_users (w : Worker) (i : Nat) :
    (w.index_cell i).sigbit_users_count =
      (w.module.cell i).connections.foldl
        (fun acc conn =>
          if w.module.counts_as_user (w.module.cell i) conn.1 then
            (sigmap_sig w.sigmap conn.2).foldl count_inc acc
          else acc)
        w.sigbit_users_count := by
  unfold Worker.index_cell
  simp only []
  split <;> split <;> split <;> rfl

/-- The cell at position `i` reads the bit `b`: one of its counted connections
contains `b` after canonicalization. -/
theorem index_cell_users_ge (w : Worker) (i : Nat) (b : SigBit) :
    w.users b ≤ (w.index_cell i).users b ∧
    ((∃ conn ∈ (w.module.cell i).connections,
        w.module.counts_as_user (w.module.cell i) conn.1 = true ∧
        b ∈ sigmap_sig w.sigmap conn.2) →
      w.users b + 1 ≤ (w.index_cell i).users b) := by
  unfold Worker.users
  rw [index_cell_users]
  exact foldl_conns_ge w.sigmap _ _ b _

theorem foldl_index_cell_fixed (l : List Nat) : ∀ (w : Worker),
    (l.foldl Worker.index_cell w).module = w.module ∧
    (l.foldl Worker.index_cell w).sigmap = w.sigmap := by
  induction l with
  | nil => intro w; exact ⟨rfl, rfl⟩
  | cons a t ih =>
    intro w
    rw [List.foldl_cons]
    exact ⟨(ih _).1.trans (Worker.index_cell_module w a),
      (ih _).2.trans (Worker.index_cell_sigmap w a)⟩

theorem foldl_index_cell_users_mono (b : SigBit) (l : List Nat) : ∀ (w : Worker),
    w.users b ≤ (l.foldl Worker.index_cell w).users b := by
  induction l with
  | nil => intro w; exact le_refl _
  | cons a t ih =>
    intro w
    rw [List.foldl_cons]
    exact le_trans (index_cell_users_ge w a b).1 (ih _)

theorem foldl_index_cell_users_one (b : SigBit) (i : Nat) (l : List Nat) : ∀ (w : Worker),
    i ∈ l →
    (∃ conn ∈ (w.module.cell i).connections,
      w.module.counts_as_user (w.module.cell i) conn.1 = true ∧
      b ∈ sigmap_sig w.sigmap conn.2) →
    w.users b + 1 ≤ (l.foldl Worker.index_cell w).users b := by
  induction l with
  | nil => intro w h; simp at h
  | cons a t ih =>
    intro w hi hg
    rw [List.foldl_cons]
    rcases List.mem_cons.mp hi with e | e
    · subst e
      exact le_trans ((index_cell_users_ge w i b).2 hg) (foldl_index_cell_users_mono b t _)
    · refine le_trans (Nat.add_le_add_right (index_cell_users_ge w a b).1 1) (ih _ e ?_)
      rw [Worker.index_cell_module, Worker.index_cell_sigmap]
      exact hg

/-- Two different cells that read the bit `b` give it two users. -/
theorem foldl_index_cell_users_two (b : SigBit) (i j : Nat) (hij : i ≠ j) (l : List Nat) :
    ∀ (w : Worker), i ∈ l → j ∈ l →
    (∃ conn ∈ (w.module.cell i).connections,
      w.module.counts_as_user (w.module.cell i) conn.1 = true ∧
      b ∈ sigmap_sig w.sigmap conn.2) →
    (∃ conn ∈ (w.module.cell j).connections,
      w.module.counts_as_user (w.module.cell j) conn.1 = true ∧
      b ∈ sigmap_sig w.sigmap conn.2) →
    w.users b + 2 ≤ (l.foldl Worker.index_cell w).users b := by
  induction l with
  | nil => intro w h; simp at h
  | cons a t ih =>
    intro w hi hj gi gj
    rw [List.foldl_cons]
    have gi1 : ∃ conn ∈ ((w.index_cell a).module.cell i).connections,
        (w.index_cell a).module.counts_as_user ((w.index_cell a).module.cell i) conn.1 = true ∧
        b ∈ sigmap_sig (w.index_cell a).sigmap conn.2 := by
      rw [Worker.index_cell_module, Worker.index_cell_sigmap]; exact gi
    have gj1 : ∃ conn ∈ ((w.index_cell a).module.cell j).connections,
        (w.index_cell a).module.counts_as_user ((w.index_cell a).module.cell j) conn.1 = true ∧
        b ∈ sigmap_sig (w.index_cell a).sigmap conn.2 := by
      rw [Worker.index_cell_module, Worker.index_cell_sigmap]; exact gj
    rcases List.mem_cons.mp hi with e | e
    · subst e
      have hjt : j ∈ t := (List.mem_cons.mp hj).resolve_left (Ne.symm hij)
      have h1 := (index_cell_users_ge w i b).2 gi
      have h2 := foldl_index_cell_users_one b j t _ hjt gj1
      omega
    · rcases List.mem_cons.mp hj with e2 | e2
      · subst e2
        have h1 := (index_cell_users_ge w j b).2 gj
        have h2 := foldl_index_cell_users_one b i t _ e gi1
        omega
      · have h1 := (index_cell_users_ge w a b).1
        have h2 := ih _ e e2 gi1 gj1
        omega

/-- A port of a cell whose signal has the bit `b` is one of its connections. -/
theorem getPort_mem_connections (c : Cell) (p : IdString) (b : SigBit)
    (sm : List (SigBit × SigBit)) (h : b ∈ sigmap_sig sm (c.getPort p)) :
    ∃ conn ∈ c.connections, conn.1 = p ∧ b ∈ sigmap_sig sm conn.2 := by
  unfold Cell.getPort at h
  cases hf : dict_find c.connections p with
  | none => rw [hf] at h; simp [sigmap_sig] at h
  | some s =>
    rw [hf] at h
    simp only [Option.getD_some] at h
    refine ⟨(p, s), ?_, rfl, h⟩
    clear h
    generalize c.connections = l at hf
    induction l with
    | nil => simp [dict_find] at hf
    | cons x t ih =>
      unfold dict_find at hf
      split at hf
      · rename_i e
        simp only [Option.some.injEq] at hf
        rw [← hf, ← e]
        exact List.mem_cons_self _ _
      · exact List.mem_cons_of_mem _ (ih hf)

theorem index_cell_dff_cells (w : Worker) (i : Nat) :
    (w.index_cell i).dff_cells =
      if (w.module.cell i).type = IdString.dff then w.dff_cells ++ [i] else w.dff_cells := by
  unfold Worker.index_cell
  simp only []
  split <;> split <;> split <;> simp_all

/-- What the index built by run records: dff_cells holds positions of $dff cells;
a select recorded under a key in mux_cells_a (mux_cells_b) is a $mux cell whose
canonical A (B) is the key. -/
theorem build_index_records (m : Module) :
    (∀ r ∈ (Worker.new m).build_index.dff_cells,
      r < m.cells.length ∧ (m.cell r).type = IdString.dff) ∧
    (∀ key x, dict_find (Worker.new m).build_index.mux_cells_a key = some x →
      x < m.cells.length ∧ (m.cell x).type = IdString.mux ∧
      key = sigmap_sig m.canon ((m.cell x).getPort IdString.A)) ∧
    (∀ key x, dict_find (Worker.new m).build_index.mux_cells_b key = some x →
      x < m.cells.length ∧ (m.cell x).type = IdString.mux ∧
      key = sigmap_sig m.canon ((m.cell x).getPort IdString.B)) := by
  have step : ∀ (l : List Nat) (w : Worker), w.module = m → w.sigmap = m.canon →
      (∀ i ∈ l, i < m.cells.length) →
      ((∀ r ∈ w.dff_cells, r < m.cells.length ∧ (m.cell r).type = IdString.dff) ∧
        (∀ key x, dict_find w.mux_cells_a key = some x →
          x < m.cells.length ∧ (m.cell x).type = IdString.mux ∧
          key = sigmap_sig m.canon ((m.cell x).getPort IdString.A)) ∧
        (∀ key x, dict_find w.mux_cells_b key = some x →
          x < m.cells.length ∧ (m.cell x).type = IdString.mux ∧
          key = sigmap_sig m.canon ((m.cell x).getPort IdString.B))) →
      ((∀ r ∈ (l.foldl Worker.index_cell w).dff_cells,
          r < m.cells.length ∧ (m.cell r).type = IdString.dff) ∧
        (∀ key x, dict_find (l.foldl Worker.index_cell w).mux_cells_a key = some x →
          x < m.cells.length ∧ (m.cell x).type = IdString.mux ∧
          key = sigmap_sig m.canon ((m.cell x).getPort IdString.A)) ∧
        (∀ key x, dict_find (l.foldl Worker.index_cell w).mux_cells_b key = some x →
          x < m.cells.length ∧ (m.cell x).type = IdString.mux ∧
          key = sigmap_sig m.canon ((m.cell x).getPort IdString.B))) := by
    intro l
    induction l with
    | nil => intro w _ _ _ hd; exact hd
    | cons a t ih =>
      intro w hm hsm hl hd
      rw [List.foldl_cons]
      have ha := hl a (List.mem_cons_self _ _)
      refine ih _ (by rw [Worker.index_cell_module]; exact hm)
        (by rw [Worker.index_cell_sigmap]; exact hsm)
        (fun i hi => hl i (List.mem_cons_of_mem _ hi)) ⟨?_, ?_, ?_⟩
      · intro r hr
        rw [index_cell_dff_cells, hm] at hr
        by_cases hty : (m.cell a).type = IdString.dff
        · rw [if_pos hty] at hr
          rcases List.mem_append.mp hr with e | e
          · exact hd.1 r e
          · rw [List.mem_singleton.mp e]; exact ⟨ha, hty⟩
        · rw [if_neg hty] at hr
          exact hd.1 r hr
      · intro key x hx
        rw [(index_cell_mux_cells w a).1, hm, hsm] at hx
        by_cases hty : (m.cell a).type = IdString.mux
        · rw [if_pos hty] at hx
          by_cases e : key = sigmap_sig m.canon ((m.cell a).getPort IdString.A)
          · subst e
            rw [dict_find_set_same] at hx
            rw [← Option.some.inj hx]
            exact ⟨ha, hty, rfl⟩
          · rw [dict_find_set_other _ _ _ _ e] at hx
            exact hd.2.1 key x hx
        · rw [if_neg hty] at hx
          exact hd.2.1 key x hx
      · intro key x hx
        rw [(index_cell_mux_cells w a).2, hm, hsm] at hx
        by_cases hty : (m.cell a).type = IdString.mux
        · rw [if_pos hty] at hx
          by_cases e : key = sigmap_sig m.canon ((m.cell a).getPort IdString.B)
          · subst e
            rw [dict_find_set_same] at hx
            rw [← Option.some.inj hx]
            exact ⟨ha, hty, rfl⟩
          · rw [dict_find_set_other _ _ _ _ e] at hx
            exact hd.2.2 key x hx
        · rw [if_neg hty] at hx
          exact hd.2.2 key x hx
  unfold Worker.build_index
  exact step _ _ rfl rfl (fun i hi => by simpa using hi)
    ⟨fun r hr => by simp [Worker.new, Worker.index_wires] at hr,
     fun key x hx => by simp [Worker.new, Worker.index_wires, dict_find] at hx,
     fun key x hx => by simp [Worker.new, Worker.index_wires, dict_find] at hx⟩

theorem trace_bits_const_clk (w : Worker) (after : Bool) (bits : List SigBit) :
    ∀ (clk : SigSpec) (pol : Bool) (cands : List Nat),
    (∀ b ∈ bits, b.is_wire = false) →
    (w.trace_bits after bits clk pol cands).clk = clk := by
  induction bits with
  | nil => intro clk pol cands _; rfl
  | cons b rest ih =>
    intro clk pol cands h
    cases b with
    | const st =>
      have e : w.trace_bits after (SigBit.const st :: rest) clk pol cands =
          { w.trace_bits after rest clk pol cands with
            sig := SigBit.const st :: (w.trace_bits after rest clk pol cands).sig } := rfl
      rw [e]
      exact ih _ _ _ (fun x hx => h x (List.mem_cons_of_mem _ hx))
    | wire i o =>
      have := h _ (List.mem_cons_self _ _)
      simp [SigBit.is_wire] at this

/-- With the index built by run and an idempotent alias table, a signal that is the
recorded input of a select and has a non-constant bit in the canonical D of a $dff of
dff_cells has a bit with two users. -/
theorem mux_input_with_dff_has_two_users (m : Module) (sig : SigSpec) (b : SigBit) (r : Nat)
    (hidem : ∀ x, sigmap_bit m.canon (sigmap_bit m.canon x) = sigmap_bit m.canon x)
    (hf : (Worker.new m).build_index.feeds_mux sig = true)
    (hb : b ∈ sigmap_sig m.canon sig)
    (hr : r ∈ (Worker.new m).build_index.dff_cells)
    (hd : b ∈ sigmap_sig m.canon ((m.cell r).getPort IdString.D)) :
    2 ≤ (Worker.new m).build_index.users b := by
  obtain ⟨hdff, hmuxa, hmuxb⟩ := build_index_records m
  obtain ⟨hrlt, hrty⟩ := hdff r hr
  obtain ⟨mx, hmx⟩ := (feeds_mux_iff _ _).mp hf
  -- the select reads `b` through its A or B connection
  have hmux : mx < m.cells.length ∧ (m.cell mx).type = IdString.mux ∧
      ∃ p, (p = IdString.A ∨ p = IdString.B) ∧ b ∈ sigmap_sig m.canon ((m.cell mx).getPort p) := by
    have hin : ∀ p, sig = sigmap_sig m.canon ((m.cell mx).getPort p) →
        b ∈ sigmap_sig m.canon ((m.cell mx).getPort p) := by
      intro p e
      rw [e] at hb
      unfold sigmap_sig at hb ⊢
      obtain ⟨y, hy, e1⟩ := List.mem_map.mp hb
      obtain ⟨a, _, e2⟩ := List.mem_map.mp hy
      rw [← e2, hidem] at e1
      rw [← e1, e2]
      exact hy
    rcases mux_at_recorded _ _ _ hmx with c | c
    · obtain ⟨h1, h2, h3⟩ := hmuxa _ _ c
      exact ⟨h1, h2, IdString.A, Or.inl rfl, hin _ h3⟩
    · obtain ⟨h1, h2, h3⟩ := hmuxb _ _ c
      exact ⟨h1, h2, IdString.B, Or.inr rfl, hin _ h3⟩
  obtain ⟨hmlt, hmty, p, hp, hbp⟩ := hmux
  have hne : r ≠ mx := by
    intro e
    rw [e, hmty] at hrty
    cases hrty
  have gr : ∃ conn ∈ (m.cell r).connections,
      m.counts_as_user (m.cell r) conn.1 = true ∧ b ∈ sigmap_sig m.canon conn.2 := by
    obtain ⟨conn, hc, e, hbc⟩ := getPort_mem_connections _ _ _ _ hd
    refine ⟨conn, hc, ?_, hbc⟩
    rw [e]
    simp [Module.counts_as_user, Module.type_inputs, hrty]
  have gm : ∃ conn ∈ (m.cell mx).connections,
      m.counts_as_user (m.cell mx) conn.1 = true ∧ b ∈ sigmap_sig m.canon conn.2 := by
    obtain ⟨conn, hc, e, hbc⟩ := getPort_mem_connections _ _ _ _ hbp
    refine ⟨conn, hc, ?_, hbc⟩
    rw [e]
    rcases hp with e1 | e1 <;> rw [e1] <;>
      simp [Module.counts_as_user, Module.type_inputs, hmty]
  have h2 := foldl_index_cell_users_two b r mx hne (List.range m.cells.length)
    (Worker.new m).index_wires (List.mem_range.mpr hrlt) (List.mem_range.mpr hmlt) gr gm
  have e : (Worker.new m).build_index =
      (List.range m.cells.length).foldl Worker.index_cell (Worker.new m).index_wires := rfl
  rw [e]
  omega

/-! ## The direct-register strategy on the index built by run -/

/-- The direct-register strategy (C11 without the alias case): on the index that run
builds for a module with an idempotent alias table, let the canonical DATA bits of
the port `cell` have at most one user each and let the direct post trace of DATA,
started without a clock, return true with a clock other than x.  Then DATA feeds no
recorded select (a select input that is also the D of a register has two users), so
handle_rd_cell runs the direct-register strategy and commits it: DATA is the traced
Q signal, EN is constant 1, CLK the traced clock, CLK_ENABLE 1, TRANSPARENT 0, and
every other cell is as disconnect_dff of the traced signal leaves it. -/
theorem direct_register_commit (fuel : Nat) (m : Module) (cell : Nat)
    (hidem : ∀ x, sigmap_bit m.canon (sigmap_bit m.canon x) = sigmap_bit m.canon x)
    (hcell : cell < m.cells.length) (hty : (m.cell cell).type ≠ IdString.dff)
    (hfan : ∀ bit ∈ sigmap_sig m.canon ((m.cell cell).getPort IdString.DATA),
      (Worker.new m).build_index.users bit ≤ 1)
    (hok : ((Worker.new m).build_index.find_sig_before_dff ((m.cell cell).getPort IdString.DATA)
      SigSpec.Sx false true).ok = true)
    (hclk : ((Worker.new m).build_index.find_sig_before_dff
      ((m.cell cell).getPort IdString.DATA) SigSpec.Sx false true).clk ≠ SigSpec.Sx) :
    (Worker.new m).build_index.feeds_mux ((m.cell cell).getPort IdString.DATA) = false ∧
    ∃ w1, (Worker.new m).build_index.handle_rd_cell fuel cell = some (w1, LogMsg.merged_data) ∧
      (w1.module.cell cell).getPort IdString.DATA =
        ((Worker.new m).build_index.find_sig_before_dff ((m.cell cell).getPort IdString.DATA)
          SigSpec.Sx false true).sig ∧
      (w1.module.cell cell).getPort IdString.EN = SigSpec.S1 ∧
      (w1.module.cell cell).getPort IdString.CLK =
        ((Worker.new m).build_index.find_sig_before_dff ((m.cell cell).getPort IdString.DATA)
          SigSpec.Sx false true).clk ∧
      (w1.module.cell cell).getParam IdString.CLK_ENABLE = Const.of_int 1 32 ∧
      (w1.module.cell cell).getParam IdString.TRANSPARENT = Const.of_int 0 32 ∧
      ∀ j, j ≠ cell → j < m.cells.length →
        w1.module.cell j =
          ((Worker.new m).build_index.disconnect_dff
            ((Worker.new m).build_index.find_sig_before_dff
              ((m.cell cell).getPort IdString.DATA) SigSpec.Sx false true).sig).module.cell j := by
  have hm : (Worker.new m).build_index.module = m := Worker.build_index_module _
  have hsm : (Worker.new m).build_index.sigmap = m.canon :=
    (foldl_index_cell_fixed _ _).2
  have hfeeds : (Worker.new m).build_index.feeds_mux ((m.cell cell).getPort IdString.DATA)
      = false := by
    cases hf : (Worker.new m).build_index.feeds_mux ((m.cell cell).getPort IdString.DATA) with
    | false => rfl
    | true =>
      exfalso
      -- some bit of DATA is a wire bit, since the trace adopted a clock
      have hwire : ∃ b ∈ sigmap_sig m.canon ((m.cell cell).getPort IdString.DATA),
          b.is_wire = true := by
        by_contra hn
        apply hclk
        unfold Worker.find_sig_before_dff
        rw [hsm]
        apply trace_bits_const_clk
        intro b hb
        cases hw : b.is_wire with
        | false => rfl
        | true => exact absurd ⟨b, hb, hw⟩ hn
      obtain ⟨b, hb, hw⟩ := hwire
      have hshape := trace_bits_shape (Worker.new m).build_index true
        (sigmap_sig (Worker.new m).build_index.sigmap ((m.cell cell).getPort IdString.DATA))
        SigSpec.Sx false (Worker.new m).build_index.candidate_dffs hok
      obtain ⟨s0, _, hs0⟩ := forall₂_of_mem_left _ _ _ hshape b (by rw [hsm]; exact hb)
      obtain ⟨r, hr, _, _, lane, hl, _⟩ := hs0.2 hw
      have hd : b ∈ sigmap_sig m.canon ((m.cell r).getPort IdString.D) := by
        simp only [if_true, hsm, hm] at hl
        exact List.getElem?_mem hl
      have h2 := mux_input_with_dff_has_two_users m _ b r hidem hf hb hr hd
      have h1 := hfan b hb
      omega
  refine ⟨hfeeds, ?_⟩
  have hany : ¬ ((sigmap_sig (Worker.new m).build_index.sigmap
      (((Worker.new m).build_index.module.cell cell).getPort IdString.DATA)).any
        (fun bit => decide ((Worker.new m).build_index.users bit > 1)) = true) := by
    rw [hsm, hm]
    simp only [List.any_eq_true, decide_eq_true_eq, not_exists, not_and, not_lt]
    exact hfan
  have hhandle : (Worker.new m).build_index.handle_rd_cell fuel cell =
      some (({ (Worker.new m).build_index with
          candidate_dffs := ((Worker.new m).build_index.find_sig_before_dff
            ((m.cell cell).getPort IdString.DATA) SigSpec.Sx false true).candidate_dffs }
          : Worker).commit_rd_data cell
          ((Worker.new m).build_index.find_sig_before_dff
            ((m.cell cell).getPort IdString.DATA) SigSpec.Sx false true),
        LogMsg.merged_data) := by
    unfold Worker.handle_rd_cell
    simp only []
    rw [if_neg hany]
    rw [hm, hfeeds]
    simp only [Bool.false_eq_true, if_false]
    rw [if_pos ⟨hok, hclk⟩]
  refine ⟨_, hhandle, ?_⟩
  have hc := cell_after_commit_rd_data
    ({ (Worker.new m).build_index with
        candidate_dffs := ((Worker.new m).build_index.find_sig_before_dff
          ((m.cell cell).getPort IdString.DATA) SigSpec.Sx false true).candidate_dffs } : Worker)
    cell ((Worker.new m).build_index.find_sig_before_dff
          ((m.cell cell).getPort IdString.DATA) SigSpec.Sx false true)
    (by show cell < (Worker.new m).build_index.module.cells.length; rw [hm]; exact hcell)
    (by show ((Worker.new m).build_index.module.cell cell).type ≠ IdString.dff
        rw [hm]; exact hty)
  refine ⟨?_, ?_, ?_, ?_, ?_, ?_⟩
  · rw [hc, Cell.getPort_setParam, Cell.getPort_setParam, Cell.getPort_setParam,
      Cell.getPort_setPort_same]
  · rw [hc, Cell.getPort_setParam, Cell.getPort_setParam, Cell.getPort_setParam,
      Cell.getPort_setPort_other _ _ _ _ (by decide), Cell.getPort_setPort_same]
  · rw [hc, Cell.getPort_setParam, Cell.getPort_setParam, Cell.getPort_setParam,
      Cell.getPort_setPort_other _ _ _ _ (by decide),
      Cell.getPort_setPort_other _ _ _ _ (by decide), Cell.getPort_setPort_same]
  · rw [hc, Cell.getParam_setParam_other _ _ _ _ (by decide),
      Cell.getParam_setParam_other _ _ _ _ (by decide), Cell.getParam_setParam_same]
  · rw [hc, Cell.getParam_setParam_same]
  · intro j hj hjlt
    have hjl : j < (Worker.new m).build_index.module.cells.length := by rw [hm]; exact hjlt
    exact (cell_other_after_commit_rd_data _ cell j _ hj hjl).trans
      (Worker.cell_disconnect_dff (Worker.new m).build_index _ j hjl).symm

/-- The hypotheses of `direct_register_commit` hold for the read port of
`ex_rd_data`: DATA feeds no select and the port is merged with the register on its
data output. -/
theorem direct_register_commit_witness :
    (Worker.new ex_rd_data).build_index.feeds_mux ((ex_rd_data.cell 1).getPort IdString.DATA)
      = false ∧
    ∃ w1, (Worker.new ex_rd_data).build_index.handle_rd_cell 0 1
        = some (w1, LogMsg.merged_data) ∧
      (w1.module.cell 1).getPort IdString.EN = SigSpec.S1 :=
  have h := direct_register_commit 0 ex_rd_data 1
    (fun x => by simp [sigmap_bit, ex_rd_data, mk_module, dict_find])
    (by decide) (by decide) (by decide) (by decide) (by decide)
  ⟨h.1, h.2.choose, h.2.choose_spec.1, h.2.choose_spec.2.2.1⟩

/-! ## Lemmas on the trace of a signal in two parts -/

theorem trace_bits_sig_length (w : Worker) (after : Bool) (bits : List SigBit) :
    ∀ (clk : SigSpec) (pol : Bool) (cands : List Nat),
    (w.trace_bits after bits clk pol cands).sig.length = bits.length := by
  induction bits with
  | nil => intro clk pol cands; rfl
  | cons b rest ih =>
    intro clk pol cands
    cases b with
    | const st =>
      have e : w.trace_bits after (SigBit.const st :: rest) clk pol cands =
          { w.trace_bits after rest clk pol cands with
            sig := SigBit.const st :: (w.trace_bits after rest clk pol cands).sig } := rfl
      rw [e]
      simp only [List.length_cons, ih]
    | wire i o =>
      rw [Worker.trace_bits]
      simp only []
      split
      · rfl
      · split
        · simp only [List.length_cons, ih]
        · rfl

theorem trace_bits_wire (w : Worker) (after : Bool) (i o : Nat) (rest : List SigBit)
    (clk : SigSpec) (pol : Bool) (cands : List Nat) :
    w.trace_bits after (SigBit.wire i o :: rest) clk pol cands =
      if !after && decide (sigmap_bit w.sigmap (SigBit.wire i o) ∈ w.init_bits) then
        ⟨false, SigBit.wire i o :: rest, clk, pol, cands⟩
      else
        match w.scan_dffs after (SigBit.wire i o) clk pol w.dff_cells with
        | Scan.replaced cell d this_clk this_pol =>
          { w.trace_bits after rest this_clk this_pol (pool_insert cands cell) with
            sig := d :: (w.trace_bits after rest this_clk this_pol
              (pool_insert cands cell)).sig }
        | _ => ⟨false, SigBit.wire i o :: rest, clk, pol, cands⟩ := by
  rw [Worker.trace_bits]
  try rfl

/-- The trace of a signal in two parts: after a successful trace of the first part,
the second part is traced with the clock, polarity and candidate_dffs that the first
part left; a failure in the first part is the failure of the whole trace. -/
theorem trace_bits_append (w : Worker) (after : Bool) (l : List SigBit) (pre : List SigBit) :
    ∀ (clk : SigSpec) (pol : Bool) (cands : List Nat),
    ((w.trace_bits after pre clk pol cands).ok = false →
      (w.trace_bits after (pre ++ l) clk pol cands).ok = false) ∧
    ((w.trace_bits after pre clk pol cands).ok = true →
      w.trace_bits after (pre ++ l) clk pol cands =
        ⟨(w.trace_bits after l (w.trace_bits after pre clk pol cands).clk
            (w.trace_bits after pre clk pol cands).clk_polarity
            (w.trace_bits after pre clk pol cands).candidate_dffs).ok,
          (w.trace_bits after pre clk pol cands).sig ++
            (w.trace_bits after l (w.trace_bits after pre clk pol cands).clk
              (w.trace_bits after pre clk pol cands).clk_polarity
              (w.trace_bits after pre clk pol cands).candidate_dffs).sig,
          (w.trace_bits after l (w.trace_bits after pre clk pol cands).clk
            (w.trace_bits after pre clk pol cands).clk_polarity
            (w.trace_bits after pre clk pol cands).candidate_dffs).clk,
          (w.trace_bits after l (w.trace_bits after pre clk pol cands).clk
            (w.trace_bits after pre clk pol cands).clk_polarity
            (w.trace_bits after pre clk pol cands).candidate_dffs).clk_polarity,
          (w.trace_bits after l (w.trace_bits after pre clk pol cands).clk
            (w.trace_bits after pre clk pol cands).clk_polarity
            (w.trace_bits after pre clk pol cands).candidate_dffs).candidate_dffs⟩) := by
  induction pre with
  | nil =>
    intro clk pol cands
    refine ⟨fun h => ?_, fun _ => rfl⟩
    simp [Worker.trace_bits] at h
  | cons b rest ih =>
    intro clk pol cands
    cases b with
    | const st =>
      have e1 : w.trace_bits after (SigBit.const st :: rest) clk pol cands =
          { w.trace_bits after rest clk pol cands with
            sig := SigBit.const st :: (w.trace_bits after rest clk pol cands).sig } := rfl
      have e2 : w.trace_bits after (SigBit.const st :: rest ++ l) clk pol cands =
          { w.trace_bits after (rest ++ l) clk pol cands with
            sig := SigBit.const st :: (w.trace_bits after (rest ++ l) clk pol cands).sig } := rfl
      rw [e1, e2]
      refine ⟨fun h => (ih clk pol cands).1 h, fun h => ?_⟩
      rw [(ih clk pol cands).2 h]
      rfl
    | wire i o =>
      rw [List.cons_append, trace_bits_wire, trace_bits_wire]
      split
      · exact ⟨fun _ => rfl, fun h => by simp at h⟩
      · split
        · rename_i c d clk1 pol1 _
          refine ⟨fun h => (ih clk1 pol1 _).1 h, fun h => ?_⟩
          rw [(ih clk1 pol1 _).2 h]
          rfl
        · exact ⟨fun _ => rfl, fun h => by simp at h⟩

/-- The trace at its first bit, a wire bit. -/
theorem trace_bits_head (w : Worker) (after : Bool) (b : SigBit) (rest : List SigBit)
    (clk : SigSpec) (pol : Bool) (cands : List Nat) (hw : b.is_wire = true) :
    ((∀ c ∈ w.dff_cells, ¬ w.eligible after b clk pol c) →
      (w.trace_bits after (b :: rest) clk pol cands).ok = false) ∧
    ((w.trace_bits after (b :: rest) clk pol cands).ok = true →
      ∃ c ∈ w.dff_cells, ∃ d, w.eligible after b clk pol c ∧ w.dff_extract after c b = [d] ∧
        (w.trace_bits after (b :: rest) clk pol cands).sig[0]? = some d) := by
  cases b with
  | const st => simp [SigBit.is_wire] at hw
  | wire i o =>
    rw [trace_bits_wire]
    refine ⟨fun hno => ?_, fun hok => ?_⟩
    · rw [scan_dffs_none w after (SigBit.wire i o) clk pol w.dff_cells hno]
      split <;> rfl
    · split at hok
      · cases hok
      · rename_i hin
        rw [if_neg hin]
        split at hok
        · rename_i c d clk1 pol1 hs
          obtain ⟨p1, p2, hd, _, hel, hex, _⟩ :=
            scan_dffs_first w after (SigBit.wire i o) clk pol w.dff_cells c d clk1 pol1 hs
          refine ⟨c, by rw [hd]; simp, d, hel, hex, ?_⟩
          simp only [List.getElem?_cons_zero]
        · cases hok

/-- The trace at a wire bit behind a first part `pre`. -/
theorem trace_bits_at (w : Worker) (after : Bool) (pre : List SigBit) (b : SigBit)
    (rest : List SigBit) (clk : SigSpec) (pol : Bool) (cands : List Nat)
    (hw : b.is_wire = true) :
    ((∀ c ∈ w.dff_cells, ¬ w.eligible after b (w.trace_bits after pre clk pol cands).clk
        (w.trace_bits after pre clk pol cands).clk_polarity c) →
      (w.trace_bits after (pre ++ b :: rest) clk pol cands).ok = false) ∧
    ((w.trace_bits after (pre ++ b :: rest) clk pol cands).ok = true →
      ∃ c ∈ w.dff_cells, ∃ d,
        w.eligible after b (w.trace_bits after pre clk pol cands).clk
          (w.trace_bits after pre clk pol cands).clk_polarity c ∧
        w.dff_extract after c b = [d] ∧
        (w.trace_bits after (pre ++ b :: rest) clk pol cands).sig[pre.length]? = some d) := by
  obtain ⟨hfail, hsucc⟩ := trace_bits_append w after (b :: rest) pre clk pol cands
  cases hp : (w.trace_bits after pre clk pol cands).ok with
  | false =>
    have h0 := hfail hp
    exact ⟨fun _ => h0, fun h => by rw [h0] at h; cases h⟩
  | true =>
    have e := hsucc hp
    have hlen := trace_bits_sig_length w after pre clk pol cands
    obtain ⟨h1, h2⟩ := trace_bits_head w after b rest
      (w.trace_bits after pre clk pol cands).clk
      (w.trace_bits after pre clk pol cands).clk_polarity
      (w.trace_bits after pre clk pol cands).candidate_dffs hw
    rw [e]
    refine ⟨fun hno => h1 hno, fun hok => ?_⟩
    obtain ⟨c, hc, d, hel, hex, hd⟩ := h2 hok
    refine ⟨c, hc, d, hel, hex, ?_⟩
    show ((w.trace_bits after pre clk pol cands).sig ++ _)[pre.length]? = some d
    rw [List.getElem?_append_right (by rw [hlen]), hlen, Nat.sub_self]
    exact hd

/-! ## C15: the shape of the tracer's result -/

/-- C15: whenever find_sig_before_dff returns true, the resulting signal has the width
of the canonicalized input and corresponds to it position by position: a constant
bit is unchanged; a non-constant bit b has become the bit of D (pre) or Q (post) of
a $dff of dff_cells in the one lane in which that $dff's canonical Q (pre) or D
(post) is b.  For a non-constant bit b of the canonicalized input behind the bits
`pre`: that $dff is eligible for b (not forward-merged when tracing post, on the
clock and polarity that the trace of `pre` has left unless no clock is fixed, b in
exactly one lane), and if no $dff of dff_cells is eligible for b the function returns
false. -/
theorem trace_result_shape (w : Worker) (sig clk : SigSpec) (pol after : Bool) :
    ((w.find_sig_before_dff sig clk pol after).ok = true →
      (w.find_sig_before_dff sig clk pol after).sig.length = (sigmap_sig w.sigmap sig).length ∧
      List.Forall₂ (w.traced after) (sigmap_sig w.sigmap sig)
        (w.find_sig_before_dff sig clk pol after).sig) ∧
    (∀ (pre : List SigBit) (b : SigBit) (rest : List SigBit),
      sigmap_sig w.sigmap sig = pre ++ b :: rest → b.is_wire = true →
      ((∀ c ∈ w.dff_cells,
          ¬ w.eligible after b (w.trace_bits after pre clk pol w.candidate_dffs).clk
            (w.trace_bits after pre clk pol w.candidate_dffs).clk_polarity c) →
        (w.find_sig_before_dff sig clk pol after).ok = false) ∧
      ((w.find_sig_before_dff sig clk pol after).ok = true →
        ∃ c ∈ w.dff_cells, ∃ d,
          w.eligible after b (w.trace_bits after pre clk pol w.candidate_dffs).clk
            (w.trace_bits after pre clk pol w.candidate_dffs).clk_polarity c ∧
          w.dff_extract after c b = [d] ∧
          (w.find_sig_before_dff sig clk pol after).sig[pre.length]? = some d)) := by
  have key : (w.find_sig_before_dff sig clk pol after).ok = true →
      List.Forall₂ (w.traced after) (sigmap_sig w.sigmap sig)
        (w.find_sig_before_dff sig clk pol after).sig :=
    fun h => trace_bits_shape w after _ _ _ _ h
  refine ⟨fun h => ⟨(key h).length_eq.symm, key h⟩, ?_⟩
  intro pre b rest hsplit hw
  unfold Worker.find_sig_before_dff
  rw [hsplit]
  exact trace_bits_at w after pre b rest clk pol w.candidate_dffs hw

/-- The write port of `ex_wr`: the pre trace of {data, addr} returns true and the
result {d, a} corresponds to it bit by bit.  The write port of `ex_wr_en_foreign`:
behind the bits addr and data the trace is on the rising edge of clk, no register is
eligible for the bit en (its register is clocked by another wire), and the trace of
{en, data, addr} returns false. -/
theorem trace_result_shape_witness :
    (((Worker.new ex_wr).build_index.find_sig_before_dff [SigBit.wire 2 0, SigBit.wire 4 0]
        SigSpec.Sx false false).sig.length = 2 ∧
      List.Forall₂ ((Worker.new ex_wr).build_index.traced false)
        [SigBit.wire 2 0, SigBit.wire 4 0]
        ((Worker.new ex_wr).build_index.find_sig_before_dff [SigBit.wire 2 0, SigBit.wire 4 0]
          SigSpec.Sx false false).sig) ∧
    ((Worker.new ex_wr).build_index.find_sig_before_dff [SigBit.wire 2 0, SigBit.wire 4 0]
      SigSpec.Sx false false).sig = [SigBit.wire 1 0, SigBit.wire 3 0] ∧
    ((Worker.new ex_wr_en_foreign).build_index.trace_bits false
      [SigBit.wire 2 0, SigBit.wire 4 0] SigSpec.Sx false []).clk = bit1 0 ∧
    (∃ c ∈ (Worker.new ex_wr_en_foreign).build_index.dff_cells,
      ((Worker.new ex_wr_en_foreign).build_index.dff_extract false c (SigBit.wire 6 0)).length
        = 1) ∧
    ((Worker.new ex_wr_en_foreign).build_index.find_sig_before_dff
      [SigBit.wire 2 0, SigBit.wire 4 0, SigBit.wire 6 0] SigSpec.Sx false false).ok = false :=
  ⟨(trace_result_shape (Worker.new ex_wr).build_index [SigBit.wire 2 0, SigBit.wire 4 0]
      SigSpec.Sx false false).1 (by decide),
    by decide, by decide, by decide,
    ((trace_result_shape (Worker.new ex_wr_en_foreign).build_index
      [SigBit.wire 2 0, SigBit.wire 4 0, SigBit.wire 6 0] SigSpec.Sx false false).2
      [SigBit.wire 2 0, SigBit.wire 4 0] (SigBit.wire 6 0) [] (by decide) (by decide)).1
      (by decide)⟩

/-! ## The return of handle_rd_cell -/

/-- When no cycle runs through the recorded selects, handle_rd_cell returns within as
many loop iterations as there are $mux cells. -/
theorem handle_rd_cell_returns_acyclic (fuel : Nat) (w : Worker) (cell : Nat)
    (hs : w.index_sound) (hacyc : ∀ m, ¬ Relation.TransGen w.mux_feeds m m)
    (hfuel : w.module.mux_cells.length ≤ fuel) :
    ∃ w1 log, w.handle_rd_cell fuel cell = some (w1, log) := by
  have hacyc1 : ∀ m, ¬ Relation.TransGen w.mux_next m m := fun m h =>
    hacyc m (Relation.TransGen.mono (mux_next_feeds w) h)
  have hret := handle_rd_cell_returns fuel w cell (fun hf => by
    obtain ⟨m, hm⟩ := (feeds_mux_iff w _).mp hf
    exact chain_walk_terminates w hs hacyc1 fuel []
      ⟨w, (w.module.cell cell).getPort IdString.DATA, [], []⟩ m (Worker.grown_refl w) hm
      List.nodup_nil (fun v hv => by simp at hv) (fun v hv => by simp at hv) (by simpa using hfuel))
  obtain ⟨r, hr⟩ := Option.isSome_iff_exists.mp hret
  exact ⟨r.1, r.2, hr⟩

/-- The cell at the port's position after an enable-chain commit, with the EN it
gets. -/
theorem cell_after_commit_rd_en_value (v : Worker) (cell : Nat) (t : Trace) (en0 : SigSpec)
    (hcell : cell < v.module.cells.length)
    (hty : (v.module.cell cell).type ≠ IdString.dff) :
    (v.commit_rd_en cell t en0).module.cell cell =
      ((((((v.module.cell cell).setPort IdString.CLK t.clk).setPort IdString.EN
        (if en0.length > 1 then [SigBit.wire (v.module.wires.length + 1) 0] else en0)).setPort
        IdString.DATA t.sig).setParam IdString.CLK_ENABLE (Const.of_int 1 32)).setParam
        IdString.CLK_POLARITY (Const.of_int (if t.clk_polarity then 1 else 0) 32)).setParam
        IdString.TRANSPARENT (Const.of_int 0 32) := by
  have h2 : cell < (v.disconnect_dff t.sig).module.cells.length := by
    rw [Worker.cells_length_disconnect_dff]; exact hcell
  have h3 : cell <
      ((v.disconnect_dff t.sig).setPort cell IdString.CLK t.clk).module.cells.length := by
    rw [Worker.cells_length_setPort]; exact h2
  have e3 : ((v.disconnect_dff t.sig).setPort cell IdString.CLK t.clk).module.cell cell =
      (v.module.cell cell).setPort IdString.CLK t.clk := by
    rw [Worker.cell_setPort_same _ _ _ _ h2, Worker.cell_disconnect_dff _ _ _ hcell,
      disconnect_cell_of_ne _ _ _ hty]
  have hra : (((v.disconnect_dff t.sig).setPort cell IdString.CLK t.clk).ReduceAnd en0).2 =
      [SigBit.wire (v.module.wires.length + 1) 0] := by
    simp [Worker.ReduceAnd, Worker.addWire, Worker.addUnary, Worker.setPort,
      Worker.disconnect_dff, List.range_succ]
  unfold Worker.commit_rd_en
  simp only []
  by_cases hr : en0.length > 1
  · rw [if_pos hr, if_pos hr]
    rw [cell_after_rd_data_writes _ _ _ _ _ _ _
      (by rw [Worker.cells_length_ReduceAnd]; exact Nat.lt_succ_of_lt h3),
      Worker.cell_ReduceAnd _ _ _ h3, e3, hra]
  · rw [if_neg hr, if_neg hr]
    rw [cell_after_rd_data_writes _ _ _ _ _ _ _ h3, e3]

/-- Every return of handle_rd_cell with the traces it rests on: the address strategy
on a worker that differs from the initial one by added $logic_not cells (and
candidate_dffs), or an enable-chain commit after the walk and its post trace, or a
direct-register commit after the post trace of DATA. -/
theorem handle_rd_cell_inv (fuel : Nat) (w : Worker) (cell : Nat) (w1 : Worker)
    (log : LogMsg) (h : w.handle_rd_cell fuel cell = some (w1, log)) :
    (∃ v pol, w.grown v ∧ (w1, log) = v.rd_addr cell pol) ∨
    (∃ st, chain_walk fuel ⟨w, (w.module.cell cell).getPort IdString.DATA, [], []⟩ = some st ∧
      (st.worker.find_sig_before_dff st.sig_data SigSpec.Sx false true).ok = true ∧
      (st.worker.find_sig_before_dff st.sig_data SigSpec.Sx false true).clk ≠ SigSpec.Sx ∧
      log = LogMsg.merged_rd_en ∧
      w1 = ({ st.worker with
          candidate_dffs :=
            (st.worker.find_sig_before_dff st.sig_data SigSpec.Sx false true).candidate_dffs }
          : Worker).commit_rd_en cell
            (st.worker.find_sig_before_dff st.sig_data SigSpec.Sx false true) st.en) ∨
    ((w.find_sig_before_dff ((w.module.cell cell).getPort IdString.DATA) SigSpec.Sx false
        true).ok = true ∧
      (w.find_sig_before_dff ((w.module.cell cell).getPort IdString.DATA) SigSpec.Sx false
        true).clk ≠ SigSpec.Sx ∧
      log = LogMsg.merged_data ∧
      w1 = ({ w with
          candidate_dffs :=
            (w.find_sig_before_dff ((w.module.cell cell).getPort IdString.DATA) SigSpec.Sx
              false true).candidate_dffs } : Worker).commit_rd_data cell
            (w.find_sig_before_dff ((w.module.cell cell).getPort IdString.DATA) SigSpec.Sx
              false true)) := by
  unfold Worker.handle_rd_cell at h
  simp only [] at h
  split at h
  · simp only [Option.some.injEq] at h
    exact Or.inl ⟨w, false, Worker.grown_refl w, h.symm⟩
  · split at h
    · split at h
      · simp at h
      · rename_i st hst
        have hg := (chain_walk_grown fuel _ _ hst).1
        split at h
        · simp only [Option.some.injEq] at h
          exact Or.inl ⟨st.worker, false, hg, h.symm⟩
        · split at h
          · rename_i hc
            simp only [Option.some.injEq, Prod.mk.injEq] at h
            exact Or.inr (Or.inl ⟨st, hst, hc.1, hc.2.1, h.2.symm, h.1.symm⟩)
          · simp only [Option.some.injEq] at h
            exact Or.inl ⟨_, _, Worker.grown_with_cands _ _ _ hg, h.symm⟩
    · split at h
      · rename_i hc
        simp only [Option.some.injEq, Prod.mk.injEq] at h
        exact Or.inr (Or.inr ⟨hc.1, hc.2, h.2.symm, h.1.symm⟩)
      · simp only [Option.some.injEq] at h
        exact Or.inl ⟨_, _, Worker.grown_with_cands _ _ _ (Worker.grown_refl w), h.symm⟩

/-- The pre trace of a port's ADDR does not see the cells that a select-chain walk
has added, nor the content of candidate_dffs. -/
theorem rd_addr_trace_grown (w v : Worker) (hg : w.grown v)
    (hwf : ∀ i ∈ w.dff_cells, i < w.module.cells.length) (cell : Nat)
    (hcell : cell < w.module.cells.length) (pol : Bool) :
    (v.find_sig_before_dff ((v.module.cell cell).getPort IdString.ADDR) SigSpec.Sx pol
        false).ok =
      (w.find_sig_before_dff ((w.module.cell cell).getPort IdString.ADDR) SigSpec.Sx pol
        false).ok ∧
    (v.find_sig_before_dff ((v.module.cell cell).getPort IdString.ADDR) SigSpec.Sx pol
        false).sig =
      (w.find_sig_before_dff ((w.module.cell cell).getPort IdString.ADDR) SigSpec.Sx pol
        false).sig ∧
    (v.find_sig_before_dff ((v.module.cell cell).getPort IdString.ADDR) SigSpec.Sx pol
        false).clk =
      (w.find_sig_before_dff ((w.module.cell cell).getPort IdString.ADDR) SigSpec.Sx pol
        false).clk ∧
    (v.find_sig_before_dff ((v.module.cell cell).getPort IdString.ADDR) SigSpec.Sx pol
        false).clk_polarity =
      (w.find_sig_before_dff ((w.module.cell cell).getPort IdString.ADDR) SigSpec.Sx pol
        false).clk_polarity := by
  have hc := Worker.grown_cell w v hg cell hcell
  have hcongr := trace_bits_congr w v false
    (sigmap_sig w.sigmap ((w.module.cell cell).getPort IdString.ADDR))
    hg.1 hg.2.2.1 hg.2.2.2.2.2.2.2.1 hg.2.2.2.2.2.2.1 hg.2.1
    (fun i hi => Worker.grown_cell w v hg i (hwf i hi)) SigSpec.Sx pol v.candidate_dffs
  have htv : v.find_sig_before_dff ((v.module.cell cell).getPort IdString.ADDR)
      SigSpec.Sx pol false = w.trace_bits false
        (sigmap_sig w.sigmap ((w.module.cell cell).getPort IdString.ADDR)) SigSpec.Sx pol
        v.candidate_dffs := by
    unfold Worker.find_sig_before_dff
    rw [hc, hg.1, hcongr]
  rw [htv]
  exact trace_bits_cands w false _ SigSpec.Sx pol v.candidate_dffs w.candidate_dffs

/-! ## C2: no partial merges -/

/-- C2.  (1) handle_wr_cell, with tA, tD, tE the traces of ADDR, DATA and EN (each
started from the clock the previous one left): if all three return true and the
clock is not x, the handler reports the merge and the port's cell is the old one
with CLK := the traced clock, ADDR, DATA, EN := the traced signals, CLK_ENABLE := 1
and CLK_POLARITY := the traced polarity, all six written; otherwise (in particular
when the EN trace fails after ADDR and DATA succeeded) it reports no merge and the
module and forward_merged_dffs are unchanged.  (2) Whenever handle_rd_cell returns
on a $memrd cell, the port's cell is either identical to the one before the call, or
it is the old one with all six of CLK, EN, DATA, CLK_ENABLE := 1, CLK_POLARITY,
TRANSPARENT := 0 written with the results of the post trace that succeeded (EN
constant 1, or the accumulated enable of the walk, reduced by a $reduce_and when it
has more than one bit), or the old one with all six of CLK, EN := 1, ADDR,
CLK_ENABLE := 1, CLK_POLARITY, TRANSPARENT := 1 written with the results of the ADDR
trace that succeeded.  (3) handle_rd_cell returns when no cycle runs through the
recorded selects. -/
theorem no_partial_merge :
    (∀ (w : Worker) (cell : Nat) (tA tD tE : Trace),
      tA = w.trace_bits false
        (sigmap_sig w.sigmap ((w.module.cell cell).getPort IdString.ADDR))
        SigSpec.Sx false [] →
      tD = w.trace_bits false
        (sigmap_sig w.sigmap ((w.module.cell cell).getPort IdString.DATA))
        tA.clk tA.clk_polarity tA.candidate_dffs →
      tE = w.trace_bits false
        (sigmap_sig w.sigmap ((w.module.cell cell).getPort IdString.EN))
        tD.clk tD.clk_polarity tD.candidate_dffs →
      ((tA.ok = true ∧ tD.ok = true ∧ tE.ok = true ∧ tE.clk ≠ SigSpec.Sx) →
        cell < w.module.cells.length →
        (w.handle_wr_cell cell).2 = LogMsg.merged ∧
        (w.handle_wr_cell cell).1.module.cell cell =
          ((((((w.module.cell cell).setPort IdString.CLK tE.clk).setPort IdString.ADDR
            tA.sig).setPort IdString.DATA tD.sig).setPort IdString.EN tE.sig).setParam
            IdString.CLK_ENABLE (Const.of_int 1 32)).setParam IdString.CLK_POLARITY
            (Const.of_int (if tE.clk_polarity then 1 else 0) 32)) ∧
      (¬ (tA.ok = true ∧ tD.ok = true ∧ tE.ok = true ∧ tE.clk ≠ SigSpec.Sx) →
        (w.handle_wr_cell cell).2 ≠ LogMsg.merged ∧
        (w.handle_wr_cell cell).1.module = w.module ∧
        (w.handle_wr_cell cell).1.forward_merged_dffs = w.forward_merged_dffs)) ∧
    (∀ (fuel : Nat) (w : Worker) (cell : Nat) (w1 : Worker) (log : LogMsg),
      cell < w.module.cells.length → (w.module.cell cell).type = IdString.memrd →
      (∀ i ∈ w.dff_cells, i < w.module.cells.length) →
      w.handle_rd_cell fuel cell = some (w1, log) →
      (log = LogMsg.no_dff ∧ w1.module.cell cell = w.module.cell cell) ∨
      (log = LogMsg.merged_data ∧
        (w.find_sig_before_dff ((w.module.cell cell).getPort IdString.DATA) SigSpec.Sx false
          true).ok = true ∧
        (w.find_sig_before_dff ((w.module.cell cell).getPort IdString.DATA) SigSpec.Sx false
          true).clk ≠ SigSpec.Sx ∧
        w1.module.cell cell =
          ((((((w.module.cell cell).setPort IdString.CLK
            (w.find_sig_before_dff ((w.module.cell cell).getPort IdString.DATA) SigSpec.Sx
              false true).clk).setPort IdString.EN SigSpec.S1).setPort IdString.DATA
            (w.find_sig_before_dff ((w.module.cell cell).getPort IdString.DATA) SigSpec.Sx
              false true).sig).setParam IdString.CLK_ENABLE (Const.of_int 1 32)).setParam
            IdString.CLK_POLARITY
            (Const.of_int
              (if (w.find_sig_before_dff ((w.module.cell cell).getPort IdString.DATA)
                SigSpec.Sx false true).clk_polarity then 1 else 0) 32)).setParam
            IdString.TRANSPARENT (Const.of_int 0 32)) ∨
      (log = LogMsg.merged_rd_en ∧
        ∃ st, chain_walk fuel ⟨w, (w.module.cell cell).getPort IdString.DATA, [], []⟩
            = some st ∧
          (st.worker.find_sig_before_dff st.sig_data SigSpec.Sx false true).ok = true ∧
          (st.worker.find_sig_before_dff st.sig_data SigSpec.Sx false true).clk
            ≠ SigSpec.Sx ∧
          w1.module.cell cell =
            ((((((w.module.cell cell).setPort IdString.CLK
              (st.worker.find_sig_before_dff st.sig_data SigSpec.Sx false true).clk).setPort
              IdString.EN
              (if st.en.length > 1 then [SigBit.wire (st.worker.module.wires.length + 1) 0]
                else st.en)).setPort IdString.DATA
              (st.worker.find_sig_before_dff st.sig_data SigSpec.Sx false true).sig).setParam
              IdString.CLK_ENABLE (Const.of_int 1 32)).setParam IdString.CLK_POLARITY
              (Const.of_int
                (if (st.worker.find_sig_before_dff st.sig_data SigSpec.Sx false
                  true).clk_polarity then 1 else 0) 32)).setParam
              IdString.TRANSPARENT (Const.of_int 0 32)) ∨
      (log = LogMsg.merged_addr ∧
        ∃ pol0,
          (w.find_sig_before_dff ((w.module.cell cell).getPort IdString.ADDR) SigSpec.Sx pol0
            false).ok = true ∧
          (w.find_sig_before_dff ((w.module.cell cell).getPort IdString.ADDR) SigSpec.Sx pol0
            false).clk ≠ SigSpec.Sx ∧
          w1.module.cell cell =
            ((((((w.module.cell cell).setPort IdString.CLK
              (w.find_sig_before_dff ((w.module.cell cell).getPort IdString.ADDR) SigSpec.Sx
                pol0 false).clk).setPort IdString.EN SigSpec.S1).setPort IdString.ADDR
              (w.find_sig_before_dff ((w.module.cell cell).getPort IdString.ADDR) SigSpec.Sx
                pol0 false).sig).setParam IdString.CLK_ENABLE (Const.of_int 1 32)).setParam
              IdString.CLK_POLARITY
              (Const.of_int
                (if (w.find_sig_before_dff ((w.module.cell cell).getPort IdString.ADDR)
                  SigSpec.Sx pol0 false).clk_polarity then 1 else 0) 32)).setParam
              IdString.TRANSPARENT (Const.of_int 1 32))) ∧
    (∀ (fuel : Nat) (w : Worker) (cell : Nat),
      w.index_sound → (∀ m, ¬ Relation.TransGen w.mux_feeds m m) →
      w.module.mux_cells.length ≤ fuel →
      ∃ w1 log, w.handle_rd_cell fuel cell = some (w1, log)) := by
  refine ⟨?_, ?_, ?_⟩
  · intro w cell tA tD tE hA hD hE
    have key := handle_wr_cell_eq w cell tA tD tE hA hD hE
    refine ⟨fun hall hcell => ?_, fun hnot => ?_⟩
    · obtain ⟨oA, oD, oE, hclk⟩ := hall
      rw [key, oA, oD, oE]
      simp only [Bool.not_true, Bool.false_eq_true, if_false, if_pos hclk]
      exact ⟨trivial, cell_after_wr_commit
        { w with
          candidate_dffs := _
          forward_merged_dffs := _ } _ _ _ _ _ _ _ hcell⟩
    · rw [key]
      split
      · exact ⟨(by intro e; cases e), rfl, rfl⟩
      · rename_i oA
        split
        · exact ⟨(by intro e; cases e), rfl, rfl⟩
        · rename_i oD
          split
          · exact ⟨(by intro e; cases e), rfl, rfl⟩
          · rename_i oE
            split
            · rename_i hclk
              exfalso
              apply hnot
              simp only [Bool.not_eq_true', Bool.not_eq_false] at oA oD oE
              exact ⟨oA, oD, oE, hclk⟩
            · exact ⟨(by intro e; cases e), rfl, rfl⟩
  · intro fuel w cell w1 log hcell hty hwf h
    have hty1 : (w.module.cell cell).type ≠ IdString.dff := by rw [hty]; decide
    rcases handle_rd_cell_inv fuel w cell w1 log h with
      ⟨v, pol, hg, he⟩ | ⟨st, hst, hok, hclk, hl, he⟩ | ⟨hok, hclk, hl, he⟩
    · have hc := Worker.grown_cell w v hg cell hcell
      have hlen := Nat.lt_of_lt_of_le hcell (Worker.grown_length w v hg)
      have e1 : w1 = (v.rd_addr cell pol).1 := congrArg Prod.fst he
      have e2 : log = (v.rd_addr cell pol).2 := congrArg Prod.snd he
      obtain ⟨t1, t2, t3, t4⟩ := rd_addr_trace_grown w v hg hwf cell hcell pol
      rcases rd_addr_cases v cell pol with ⟨hlog, hm, _, _⟩ | ⟨hlog, ho, hk, _, _, _, _, hcv⟩
      · left
        exact ⟨e2.trans hlog, by rw [e1, hm, hc]⟩
      · right; right; right
        refine ⟨e2.trans hlog, pol, by rw [← t1]; exact ho, by rw [← t3]; exact hk, ?_⟩
        have hform := hcv hlen
        rw [t2, t3, t4, hc] at hform
        rw [e1]
        exact hform
    · right; right; left
      have hg := (chain_walk_grown fuel _ _ hst).1
      have hc : st.worker.module.cell cell = w.module.cell cell :=
        Worker.grown_cell w st.worker hg cell hcell
      have hlen : cell < st.worker.module.cells.length :=
        Nat.lt_of_lt_of_le hcell (Worker.grown_length w st.worker hg)
      refine ⟨hl, st, hst, hok, hclk, ?_⟩
      rw [he]
      have hv := cell_after_commit_rd_en_value
        ({ st.worker with
          candidate_dffs :=
            (st.worker.find_sig_before_dff st.sig_data SigSpec.Sx false true).candidate_dffs }
          : Worker) cell (st.worker.find_sig_before_dff st.sig_data SigSpec.Sx false true)
        st.en hlen (by show (st.worker.module.cell cell).type ≠ IdString.dff
                       rw [hc]; exact hty1)
      rw [hv]
      show ((((((st.worker.module.cell cell).setPort _ _).setPort _ _).setPort _ _).setParam
        _ _).setParam _ _).setParam _ _ = _
      rw [hc]
    · right; left
      refine ⟨hl, hok, hclk, ?_⟩
      rw [he]
      exact cell_after_commit_rd_data _ cell _ hcell hty1
  · intro fuel w cell hs hacyc hfuel
    exact handle_rd_cell_returns_acyclic fuel w cell hs hacyc hfuel

/-- C2, witness.  The write port of `ex_wr` is merged and gets all six values; in
`ex_wr_en_foreign` the ADDR and DATA traces succeed and the EN trace fails (its
register has another clock), and the module is left as found; in `ex_rd_data`
handle_rd_cell returns a direct-register commit with all six values; in `ex_rd_en2`
(two selects, no cycle) handle_rd_cell returns. -/
theorem no_partial_merge_witness :
    (((Worker.new ex_wr).build_index.handle_wr_cell 3).2 = LogMsg.merged ∧
      ((Worker.new ex_wr).build_index.handle_wr_cell 3).1.module.cell 3 =
        ((((((ex_wr.cell 3).setPort IdString.CLK (bit1 0)).setPort IdString.ADDR
          (bit1 1)).setPort IdString.DATA (bit1 3)).setPort IdString.EN (bit1 5)).setParam
          IdString.CLK_ENABLE (Const.of_int 1 32)).setParam IdString.CLK_POLARITY
          (Const.of_int 1 32)) ∧
    (((Worker.new ex_wr_en_foreign).build_index.handle_wr_cell 3).2 ≠ LogMsg.merged ∧
      ((Worker.new ex_wr_en_foreign).build_index.handle_wr_cell 3).1.module = ex_wr_en_foreign ∧
      ((Worker.new ex_wr_en_foreign).build_index.handle_wr_cell 3).1.forward_merged_dffs = []) ∧
    (∃ w1, (Worker.new ex_rd_data).build_index.handle_rd_cell 0 1
        = some (w1, LogMsg.merged_data) ∧
      w1.module.cell 1 =
        ((((((ex_rd_data.cell 1).setPort IdString.CLK (bit1 0)).setPort IdString.EN
          SigSpec.S1).setPort IdString.DATA (bit1 3)).setParam IdString.CLK_ENABLE
          (Const.of_int 1 32)).setParam IdString.CLK_POLARITY (Const.of_int 1 32)).setParam
          IdString.TRANSPARENT (Const.of_int 0 32)) ∧
    (∃ w1 log, (Worker.new ex_rd_en2).build_index.handle_rd_cell 2 0 = some (w1, log)) := by
  refine ⟨?_, ?_, ?_, ?_⟩
  · exact (no_partial_merge.1 (Worker.new ex_wr).build_index 3 _ _ _ rfl rfl rfl).1
      (by decide) (by decide)
  · exact (no_partial_merge.1 (Worker.new ex_wr_en_foreign).build_index 3 _ _ _ rfl rfl rfl).2
      (by decide)
  · have hv : ((Worker.new ex_rd_data).build_index.handle_rd_cell 0 1).map Prod.snd
        = some LogMsg.merged_data := by decide
    obtain ⟨⟨w1, log⟩, h1, h2⟩ := Option.map_eq_some'.mp hv
    simp only at h2
    subst h2
    refine ⟨w1, h1, ?_⟩
    rcases no_partial_merge.2.1 0 (Worker.new ex_rd_data).build_index 1 w1 LogMsg.merged_data
      (by decide) (by decide) (by decide) h1 with c | c | c | c
    · exact absurd c.1 (by decide)
    · exact c.2.2.2
    · exact absurd c.1 (by decide)
    · exact absurd c.1 (by decide)
  · exact no_partial_merge.2.2 2 (Worker.new ex_rd_en2).build_index 0
      (build_index_sound ex_rd_en2) (acyclic_of_lt _ ex_rd_en2_feeds_lt) (by decide)

end MemoryDff
